import Mathlib

/-!
# A verification development for `trie.h`

Shallow embedding of the three trie implementations of `include/trie.h`
(`impl1`: one node per character, `impl2`: compressed, `impl3`: compressed with
a value per key) and theorems about them.

Modelling conventions.

* `std::string` is `List Char`; an iterator range `[first, last)` is the list of
  the characters it still has to deliver. Only `impl2::trie::exists` moves
  `first` past `last`; there `first` is its distance from `std::begin(word)`.
* `std::map<char, X>` is an association list `List (Char × X)` kept strictly
  increasing in its keys: `find` is `std::map::find`, `set` is the assignment
  `m[c] = x`, and the head of the list is `std::begin(m)`. The keys are ordered
  by `std::less<char>`, which compares the values of plain `char`: `char_value`,
  which depends on whether plain `char` is signed on the platform
  (`plain_char.is_signed`). A `Char` below `0x100` stands for the `char` with
  that byte. Definitions and theorems that depend on the order take the
  platform as an instance argument, so they hold for both; the examples are
  evaluated on `signed_char`.
* A visitor that mutates the node it visits, or replaces it in the child slot of
  its parent (`parent->children[*--first] = ...`), is a function that returns the
  node which that slot holds afterwards.
* A pointer into a freshly built chain of branches is the path (the characters)
  that leads from the root of the chain to the node pointed to.
* `moved : T → T` gives the state in which an object of the value type `T` is
  left after it was the source of a move construction (`id` for `int`).
* A function with an `assert` returns an `Option`; `none` is the failing
  assertion.
* `impl2.exists_visitor_reads` follows `impl2.exists_visitor` step by step and
  lists the positions of the word at which `*first` is dereferenced.

The file has three parts: the definitions taken from the source, the
definitions used to state and prove properties (`chain`, `fork`, `get`,
`words`, `WF`, `NoEmptyBranch`, `Compressed`, `descend`, `leaves`, `size`,
`paths`, `key_depths`, `erase`, `lift`), and the theorems.
-/

namespace trie

/-! ## The plain `char` -/

/-- The platform, as far as the tries depend on it: whether plain `char` is a
signed type (as on x86-64) or an unsigned one (as on ARM Linux). -/
class plain_char where
  is_signed : Bool

/-- The value of a `char`: where plain `char` is signed the bytes `0x80` to
`0xFF` are the values `-128` to `-1`. `std::less<char>` compares these values. -/
def char_value [plain_char] (c : Char) : Int :=
  if plain_char.is_signed = true ∧ 128 ≤ c.toNat ∧ c.toNat < 256 then (c.toNat : Int) - 256
  else (c.toNat : Int)

/-- A platform on which plain `char` is signed; the examples are evaluated on
it. -/
instance signed_char : plain_char := ⟨true⟩

/-! ## `std::map<char, X>` -/

/-- `std::map::find`: the node stored under `c`, if any. -/
def find {β : Type} : List (Char × β) → Char → Option β
  | [], _ => none
  | (k, x) :: m, c => if c = k then some x else find m c

/-- The assignment `m[c] = x` on a map ordered by `std::less<char>`. -/
def set {β : Type} [plain_char] : List (Char × β) → Char → β → List (Char × β)
  | [], c, x => [(c, x)]
  | (k, y) :: m, c, x =>
    if char_value c < char_value k then (c, x) :: (k, y) :: m
    else if c = k then (k, x) :: m
    else (k, y) :: set m c x

/-- The keys of a map, in iteration order. -/
def keys {β : Type} (m : List (Char × β)) : List Char := m.map Prod.fst

/-- `std::mismatch(first1, last1, first2, last2)` as hand-written in
`breakup_leaf`: the number of times the loop body runs. -/
def mismatch : List Char → List Char → Nat
  | a :: as, b :: bs => if a = b then mismatch as bs + 1 else 0
  | _, _ => 0

namespace impl3

/-- The node kinds `leaf_node_t<T>`, `branch_node_t<T>` and
`branch_value_node_t<T>`. -/
inductive Node (T : Type) : Type
  | leaf (data : List Char) (value : T) : Node T
  | branch (children : List (Char × Node T)) : Node T
  | vbranch (children : List (Char × Node T)) (value : T) : Node T

variable {T : Type}

/-- The member `children` of a branch or value-branch (a leaf has none). -/
def Node.children : Node T → List (Char × Node T)
  | .leaf _ _ => []
  | .branch ch => ch
  | .vbranch ch _ => ch

/-- The assignment `node.children[c] = x` on a branch or value-branch. -/
def Node.set_child [plain_char] : Node T → Char → Node T → Node T
  | .leaf d v, _, _ => .leaf d v
  | .branch ch, c, x => .branch (set ch c x)
  | .vbranch ch v, c, x => .vbranch (set ch c x) v

/-- The effect of a mutation `f` made through a pointer to the node that is
reached from `n` along `path`. -/
def update_at [plain_char] (f : Node T → Node T) : List Char → Node T → Node T
  | [], n => f n
  | c :: path, n =>
    match find n.children c with
    | none => n
    | some child => n.set_child c (update_at f path child)

/-- `detail::build_branches(first, last)`: the root of a chain of plain
branches, one hop per character; the returned pointer is the node at the end of
the path `[first, last)`. -/
def build_branches : List Char → Node T × List Char
  | [] => (.branch [], [])
  | c :: s => (.branch [(c, (build_branches s).1)], c :: s)

/-- `detail::build_branches_to_value(first, last, value)`. -/
def build_branches_to_value [plain_char] (s : List Char) (value : T) : Node T × List Char :=
  match s with
  | [] => (.vbranch [] value, [])
  | c :: s' =>
    let short_last := (c :: s').getLast (List.cons_ne_nil c s')
    let branches : Node T × List Char := build_branches (c :: s').dropLast
    (update_at (fun b => b.set_child short_last (.vbranch [] value)) branches.2 branches.1,
      c :: s')

/-- `detail::make_leaf(first, last, value)`. -/
def make_leaf (s : List Char) (value : T) : Node T := .leaf s value

/-- `detail::breakup_leaf(leaf, leaf_value, common_first, common_second, value)`;
`none` is the null pointer. `r1` and `r2` are the ranges `[first1, last1)` and
`[first2, last2)` after the mismatch loop; `*first1` and `*first2` are only
read where the range is not empty, so the default of `headD` is never used. -/
def breakup_leaf [plain_char] (data : List Char) (leaf_value : T) (common : List Char) (value : T) :
    Option (Node T) :=
  let n := mismatch data common
  let r1 := data.drop n
  let r2 := common.drop n
  if r1 = [] ∧ r2 = [] then none
  else if r1 = [] then
    let root_leaf := build_branches_to_value data leaf_value
    some (update_at (fun b => b.set_child (r2.headD default) (make_leaf r2.tail value))
      root_leaf.2 root_leaf.1)
  else if r2 = [] then
    let root_leaf := build_branches_to_value common value
    some (update_at (fun b => b.set_child (r1.headD default) (make_leaf r1.tail leaf_value))
      root_leaf.2 root_leaf.1)
  else
    let root_leaf : Node T × List Char := build_branches (data.take n)
    some (update_at
      (fun b => (b.set_child (r1.headD default) (make_leaf r1.tail leaf_value)).set_child
        (r2.headD default) (make_leaf r2.tail value))
      root_leaf.2 root_leaf.1)

/-- The `insert_visitor` of `trie::insert`, applied to a node with the input
`[first, last)`: the result is the node that the parent holds in the visited
slot afterwards. Visiting a leaf moves `leaf.value` into the by-value parameter
of `breakup_leaf` before the outcome is known, so a leaf that stays in place is
left with a moved-from value. -/
def insert_visitor [plain_char] (moved : T → T) : List Char → Node T → T → Node T
  | rest, .leaf data lv, value =>
    match breakup_leaf data lv rest value with
    | none => .leaf data (moved lv)
    | some new_node => new_node
  | [], .branch ch, value => .vbranch ch value
  | c :: rest, .branch ch, value =>
    match find ch c with
    | none => .branch (set ch c (make_leaf rest value))
    | some next => .branch (set ch c (insert_visitor moved rest next value))
  | [], .vbranch ch u, _ => .vbranch ch u
  | c :: rest, .vbranch ch u, value =>
    match find ch c with
    | none => .vbranch (set ch c (make_leaf rest value)) u
    | some next => .vbranch (set ch c (insert_visitor moved rest next value)) u

/-- The class `impl3::trie<T>`: its only member is the root branch `root_`,
given by its `children`. -/
structure trie (T : Type) where
  root_ : List (Char × Node T)

/-- The default-constructed trie. -/
def trie.empty : trie T := ⟨[]⟩

/-- `trie::insert(word, value)`. -/
def trie.insert [plain_char] (moved : T → T) (t : trie T) (word : List Char) (value : T) : trie T :=
  match word with
  | [] => t
  | c :: rest =>
    match find t.root_ c with
    | none => ⟨set t.root_ c (make_leaf rest value)⟩
    | some first => ⟨set t.root_ c (insert_visitor moved rest first value)⟩

/-- The `lookup_visitor` of `trie::lookup_node_`: the node written to `result`. -/
def lookup_visitor : List Char → Node T → Option (Node T)
  | rest, .leaf data value =>
    if data.length = rest.length ∧ data = rest.take data.length then some (.leaf data value)
    else none
  | [], .branch _ => none
  | c :: rest, .branch ch =>
    match find ch c with
    | none => none
    | some next => lookup_visitor rest next
  | [], .vbranch ch value => some (.vbranch ch value)
  | c :: rest, .vbranch ch _ =>
    match find ch c with
    | none => none
    | some next => lookup_visitor rest next

/-- `trie::lookup_node_(first, last)`. -/
def trie.lookup_node_ (t : trie T) (word : List Char) : Option (Node T) :=
  match word with
  | [] => none
  | _ :: _ => lookup_visitor word (.branch t.root_)

/-- `trie::exists(word)`. -/
def trie.exists (t : trie T) (word : List Char) : Bool :=
  (t.lookup_node_ word).isSome

/-- The `value_extract_visitor` of `trie::value_at`: the pair of `extracted` and
the content of `value` afterwards. -/
def value_extract_visitor (value : T) : Node T → Bool × T
  | .branch _ => (false, value)
  | .vbranch _ v => (true, v)
  | .leaf _ v => (true, v)

/-- `trie::value_at(word, value)`: the returned flag and the content of `value`
after the call. -/
def trie.value_at (t : trie T) (word : List Char) (value : T) : Bool × T :=
  match t.lookup_node_ word with
  | none => (false, value)
  | some node => value_extract_visitor value node

/-- The `lookup_prefix_visitor` of `trie::lookup_node_prefix_`: the node written
to `result` and the range `[first, last)` left when the visit ends. -/
def lookup_prefix_visitor : List Char → Node T → Option (Node T) × List Char
  | rest, .leaf data value =>
    if rest.length ≤ data.length ∧ rest = data.take rest.length then
      (some (.leaf data value), rest)
    else (none, rest)
  | [], .branch ch => (some (.branch ch), [])
  | c :: rest, .branch ch =>
    match find ch c with
    | none => (none, c :: rest)
    | some next => lookup_prefix_visitor rest next
  | [], .vbranch ch value => (some (.vbranch ch value), [])
  | c :: rest, .vbranch ch _ =>
    match find ch c with
    | none => (none, c :: rest)
    | some next => lookup_prefix_visitor rest next

/-- `trie::lookup_node_prefix_(first, last, prefix_end)`: the returned node and
the range `[prefix_end, last)`; `prefix_end` keeps its initial value
`std::begin(prefix)` when the range is empty. -/
def trie.lookup_node_prefix_ (t : trie T) (pfx : List Char) : Option (Node T) × List Char :=
  match pfx with
  | [] => (none, [])
  | _ :: _ => lookup_prefix_visitor pfx (.branch t.root_)

/-- The `prefix_match_visitor` of `trie::prefix_match`, applied to a node with
the current content of `match`: the pair of `result` and `match` afterwards, or
`none` when `assert(next != std::end(branch.children))` fails. -/
def prefix_match_visitor : Node T → List Char → Option (Bool × List Char)
  | .branch [], _ => none
  | .branch ((k, next) :: _), m => prefix_match_visitor next (m ++ [k])
  | .vbranch _ _, m => some (true, m)
  | .leaf data _, m => some (true, m ++ data)

/-- `trie::prefix_match(prefix, matching_word)`: the returned flag and the
content of `matching_word` after the call, or `none` when the assertion in the
visitor fails. -/
def trie.prefix_match (t : trie T) (pfx : List Char) (matching_word : List Char) :
    Option (Bool × List Char) :=
  match t.lookup_node_prefix_ pfx with
  | (none, _) => some (false, matching_word)
  | (some node, prefix_end) =>
    prefix_match_visitor node (pfx.take (pfx.length - prefix_end.length))

mutual
/-- The `print_visitor` of `trie::get_words`, applied to a node: it maps the
pair of `working_prefix` and `result` before the visit to the pair afterwards. -/
def print_visitor : Node T → List Char × List (List Char) → List Char × List (List Char)
  | .branch ch, s => print_children ch s
  | .vbranch ch _, s => print_children ch (s.1, s.2 ++ [s.1])
  | .leaf data _, s => (s.1, s.2 ++ [s.1 ++ data])
/-- The loop `for (const auto& child : branch.children)` of `print_visitor`. -/
def print_children : List (Char × Node T) → List Char × List (List Char) →
    List Char × List (List Char)
  | [], s => s
  | (c, child) :: m, s =>
    let s1 := print_visitor child (s.1 ++ [c], s.2)
    print_children m (s1.1.dropLast, s1.2)
end

/-- `trie::get_words()`. -/
def trie.get_words (t : trie T) : List (List Char) :=
  (print_visitor (.branch t.root_) ([], [])).2

/-- The trie obtained from the empty trie by the calls `insert(key, value)` for
the pairs of `ops`, in order. -/
def build [plain_char] (moved : T → T) (ops : List (List Char × T)) : trie T :=
  ops.foldl (fun t op => t.insert moved op.1 op.2) trie.empty

/-- The moved-from state of an `int`: a move of a scalar is a copy. -/
def moved_int : Int → Int := id

/-- The moved-from state of a `std::string`: the common standard libraries leave
the source of a move construction empty. -/
def moved_string : List Char → List Char := fun _ => []

end impl3

namespace impl2

/-- The node kinds `leaf_node_t` and `branch_node_t`. -/
inductive Node : Type
  | leaf (data : List Char) : Node
  | branch (children : List (Char × Node)) (is_word : Bool) : Node

/-- The member `children` of a branch (a leaf has none). -/
def Node.children : Node → List (Char × Node)
  | .leaf _ => []
  | .branch ch _ => ch

/-- The assignment `node.children[c] = x` on a branch. -/
def Node.set_child [plain_char] : Node → Char → Node → Node
  | .leaf d, _, _ => .leaf d
  | .branch ch w, c, x => .branch (set ch c x) w

/-- The assignment `node.is_word = true` on a branch. -/
def Node.set_is_word : Node → Node
  | .leaf d => .leaf d
  | .branch ch _ => .branch ch true

/-- The effect of a mutation `f` made through a pointer to the node that is
reached from `n` along `path`. -/
def update_at [plain_char] (f : Node → Node) : List Char → Node → Node
  | [], n => f n
  | c :: path, n =>
    match find n.children c with
    | none => n
    | some child => n.set_child c (update_at f path child)

/-- `detail::build_branches(first, last)`: the root of a chain of branches, one
hop per character; the returned pointer is the node at the end of the path
`[first, last)`. -/
def build_branches : List Char → Node × List Char
  | [] => (.branch [] false, [])
  | c :: s => (.branch [(c, (build_branches s).1)] false, c :: s)

/-- `detail::make_leaf(first, last)`. -/
def make_leaf (s : List Char) : Node := .leaf s

/-- `detail::breakup_leaf(leaf, common_first, common_second)`; `none` is the
null pointer. `r1` and `r2` are the ranges `[first1, last1)` and
`[first2, last2)` after the mismatch loop. -/
def breakup_leaf [plain_char] (data : List Char) (common : List Char) : Option Node :=
  let n := mismatch data common
  let r1 := data.drop n
  let r2 := common.drop n
  if r1 = [] ∧ r2 = [] then none
  else if r1 = [] then
    let root_leaf := build_branches data
    some (update_at
      (fun b => b.set_is_word.set_child (r2.headD default) (make_leaf r2.tail))
      root_leaf.2 root_leaf.1)
  else if r2 = [] then
    let root_leaf := build_branches common
    some (update_at
      (fun b => b.set_is_word.set_child (r1.headD default) (make_leaf r1.tail))
      root_leaf.2 root_leaf.1)
  else
    let root_leaf := build_branches (data.take n)
    some (update_at
      (fun b => (b.set_child (r1.headD default) (make_leaf r1.tail)).set_child
        (r2.headD default) (make_leaf r2.tail))
      root_leaf.2 root_leaf.1)

/-- The `insert_visitor` of `trie::insert`, applied to a node with the input
`[first, last)`: the result is the node that the parent holds in the visited
slot afterwards. -/
def insert_visitor [plain_char] : List Char → Node → Node
  | rest, .leaf data =>
    match breakup_leaf data rest with
    | none => .leaf data
    | some new_node => new_node
  | [], .branch ch _ => .branch ch true
  | c :: rest, .branch ch w =>
    match find ch c with
    | none => .branch (set ch c (make_leaf rest)) w
    | some next => .branch (set ch c (insert_visitor rest next)) w

/-- The class `impl2::trie`: the root branch `root_`, given by its `children`;
`root_.is_word` is initialised to `false` and never assigned. -/
structure trie where
  root_ : List (Char × Node)

/-- The default-constructed trie. -/
def trie.empty : trie := ⟨[]⟩

/-- `trie::insert(word)`. -/
def trie.insert [plain_char] (t : trie) (word : List Char) : trie :=
  match word with
  | [] => t
  | c :: rest =>
    match find t.root_ c with
    | none => ⟨set t.root_ c (make_leaf rest)⟩
    | some first => ⟨set t.root_ c (insert_visitor rest first)⟩

/-- The character delivered by `**first` when `first` is `i` positions after
`std::begin(word)`: inside the word its character, from `std::end(word)` on
whatever lies there, given by `oob`. -/
def char_at (word : List Char) (oob : Nat → Char) (i : Nat) : Char :=
  word.getD i (oob i)

mutual
/-- The `exists_visitor` of `trie::exists`, applied to a node when `first` is
`i` positions after `std::begin(word)`: the content of `result` afterwards. The
branch case looks up `**first` also when `first == last`. -/
def exists_visitor (word : List Char) (oob : Nat → Char) : Node → Nat → Bool
  | .leaf data, i =>
    decide ((data.length : Int) = (word.length : Int) - (i : Int)) &&
      decide (data = (word.drop i).take data.length)
  | .branch ch is_word, i =>
    if i = word.length ∧ is_word = true then true
    else exists_next word oob ch (char_at word oob i) (i + 1)
/-- The steps `branch.children.find(**first)`, `++*first` and
`next->second->accept(*this)` of `exists_visitor`, for the character `c` read. -/
def exists_next (word : List Char) (oob : Nat → Char) : List (Char × Node) → Char → Nat → Bool
  | [], _, _ => false
  | (k, next) :: m, c, i =>
    if c = k then exists_visitor word oob next i else exists_next word oob m c i
end

/-- `trie::exists(word)`. -/
def trie.exists (oob : Nat → Char) (t : trie) (word : List Char) : Bool :=
  match word with
  | [] => false
  | _ :: _ => exists_visitor word oob (.branch t.root_ false) 0

mutual
/-- The positions of `word`, counted from `std::begin(word)`, at which the
`exists_visitor` dereferences `*first`, in the order of the reads: `**first` in
the branch case, and in the leaf case the reads of `std::equal`, which is only
called when the two distances are equal and which stops after the first
character that differs. -/
def exists_visitor_reads (word : List Char) (oob : Nat → Char) : Node → Nat → List Nat
  | .leaf data, i =>
    if (data.length : Int) = (word.length : Int) - (i : Int) then
      List.range' i (min data.length (mismatch data (word.drop i) + 1))
    else []
  | .branch ch is_word, i =>
    if i = word.length ∧ is_word = true then []
    else i :: exists_next_reads word oob ch (char_at word oob i) (i + 1)
/-- The reads made after the step `branch.children.find(**first)` for the
character `c` read. -/
def exists_next_reads (word : List Char) (oob : Nat → Char) :
    List (Char × Node) → Char → Nat → List Nat
  | [], _, _ => []
  | (k, next) :: m, c, i =>
    if c = k then exists_visitor_reads word oob next i
    else exists_next_reads word oob m c i
end

/-- The positions of `word` that `trie::exists(word)` reads. -/
def trie.exists_reads (oob : Nat → Char) (t : trie) (word : List Char) : List Nat :=
  match word with
  | [] => []
  | _ :: _ => exists_visitor_reads word oob (.branch t.root_ false) 0

/-- The `prefix_match_visitor` of `trie::prefix_match` once `first == last`,
applied to a node with the current content of `match`: the pair of `result` and
`match` afterwards, or `none` when the assertion fails. -/
def prefix_match_first : Node → List Char → Option (Bool × List Char)
  | .branch _ true, m => some (true, m)
  | .branch [] false, _ => none
  | .branch ((k, next) :: _) false, m => prefix_match_first next (m ++ [k])
  | .leaf data, m => some (true, m ++ data)

/-- The `prefix_match_visitor` of `trie::prefix_match`, applied to a node with
the input `[first, last)` and the current content of `match`. -/
def prefix_match_visitor : List Char → Node → List Char → Option (Bool × List Char)
  | [], node, m => prefix_match_first node m
  | c :: rest, .branch ch _, m =>
    match find ch c with
    | none => some (false, m)
    | some next => prefix_match_visitor rest next (m ++ [c])
  | c :: rest, .leaf data, m =>
    if (c :: rest).length ≤ data.length ∧ c :: rest = data.take (c :: rest).length then
      some (true, m ++ data)
    else some (false, [])

/-- `trie::prefix_match(prefix, matching_word)`: the returned flag and the
content of `matching_word` after the call, or `none` when the assertion in the
visitor fails. -/
def trie.prefix_match (t : trie) (pfx : List Char) (matching_word : List Char) :
    Option (Bool × List Char) :=
  match pfx with
  | [] => some (false, matching_word)
  | _ :: _ => prefix_match_visitor pfx (.branch t.root_ false) matching_word

mutual
/-- The `print_visitor` of `trie::get_words`, applied to a node: it maps the
pair of `working_prefix` and `result` before the visit to the pair afterwards. -/
def print_visitor : Node → List Char × List (List Char) → List Char × List (List Char)
  | .branch ch is_word, s =>
    print_children ch (s.1, if is_word = true then s.2 ++ [s.1] else s.2)
  | .leaf data, s => (s.1, s.2 ++ [s.1 ++ data])
/-- The loop `for (const auto& child : branch.children)` of `print_visitor`. -/
def print_children : List (Char × Node) → List Char × List (List Char) →
    List Char × List (List Char)
  | [], s => s
  | (c, child) :: m, s =>
    let s1 := print_visitor child (s.1 ++ [c], s.2)
    print_children m (s1.1.dropLast, s1.2)
end

/-- `trie::get_words()`. -/
def trie.get_words (t : trie) : List (List Char) :=
  (print_visitor (.branch t.root_ false) ([], [])).2

/-- The trie obtained from the empty trie by the calls `insert(word)` for the
words of `ws`, in order. -/
def build [plain_char] (ws : List (List Char)) : trie :=
  ws.foldl trie.insert trie.empty

end impl2

namespace impl1

/-- The struct `trie_node_t_`. -/
inductive trie_node_t_ : Type
  | mk (children : List (Char × trie_node_t_)) (is_word : Bool) : trie_node_t_

/-- The member `children`. -/
def trie_node_t_.children : trie_node_t_ → List (Char × trie_node_t_)
  | .mk ch _ => ch

/-- The member `is_word`. -/
def trie_node_t_.is_word : trie_node_t_ → Bool
  | .mk _ w => w

/-- The default-constructed node. -/
def trie_node_t_.new : trie_node_t_ := .mk [] false

/-- The loop of `trie::insert` from the node `first` on, followed by
`first->is_word = true`: `children[c]` creates a default node when `c` has none. -/
def insert_from [plain_char] : List Char → trie_node_t_ → trie_node_t_
  | [], .mk ch _ => .mk ch true
  | c :: rest, .mk ch w =>
    .mk (set ch c (insert_from rest ((find ch c).getD trie_node_t_.new))) w

/-- The class `impl1::trie`: its only member is the node `root_`. -/
structure trie where
  root_ : trie_node_t_

/-- The default-constructed trie. -/
def trie.empty : trie := ⟨trie_node_t_.new⟩

/-- `trie::insert(word)`. -/
def trie.insert [plain_char] (t : trie) (word : List Char) : trie :=
  ⟨insert_from word t.root_⟩

/-- The loop of `trie::exists` from the node `first` on, followed by
`return first->is_word`. -/
def exists_from : List Char → trie_node_t_ → Bool
  | [], node => node.is_word
  | c :: rest, node =>
    match find node.children c with
    | none => false
    | some found => exists_from rest found

/-- `trie::exists(word)`. -/
def trie.exists (t : trie) (word : List Char) : Bool :=
  exists_from word t.root_

/-- The first loop of `trie::prefix_match`: the node reached by the characters
of the range, or `none` where the loop returns `false`. -/
def walk : List Char → trie_node_t_ → Option trie_node_t_
  | [], node => some node
  | c :: rest, node =>
    match find node.children c with
    | none => none
    | some found => walk rest found

/-- The loop `while (!first->is_word)` of `trie::prefix_match` with the current
content of `matching_word`: the content at the end of the loop, or `none` when
`assert(false)` is reached. -/
def first_word : trie_node_t_ → List Char → Option (List Char)
  | .mk _ true, m => some m
  | .mk [] false, _ => none
  | .mk ((k, next) :: _) false, m => first_word next (m ++ [k])

/-- `trie::prefix_match(prefix, matching_word)`: the returned flag and the
content of `matching_word` after the call, or `none` when `assert(false)` is
reached. -/
def trie.prefix_match (t : trie) (pfx : List Char) (matching_word : List Char) :
    Option (Bool × List Char) :=
  match walk pfx t.root_ with
  | none => some (false, matching_word)
  | some first =>
    match first_word first pfx with
    | none => none
    | some m => some (true, m)

mutual
/-- `trie::get_words_impl_(words, prefix, node)`: the content of `words`
afterwards. -/
def get_words_impl_ : List (List Char) → List Char → trie_node_t_ → List (List Char)
  | words, pfx, .mk ch is_word =>
    get_words_children (if is_word = true then words ++ [pfx] else words) pfx ch
/-- The loop `for (const auto& child : node.children)` of `get_words_impl_`. -/
def get_words_children : List (List Char) → List Char → List (Char × trie_node_t_) →
    List (List Char)
  | words, _, [] => words
  | words, pfx, (c, child) :: m =>
    get_words_children (get_words_impl_ words (pfx ++ [c]) child) pfx m
end

/-- `trie::get_words()`. -/
def trie.get_words (t : trie) : List (List Char) :=
  t.root_.children.foldl (fun ret child => get_words_impl_ ret [child.1] child.2) []

/-- The trie obtained from the empty trie by the calls `insert(word)` for the
words of `ws`, in order. -/
def build [plain_char] (ws : List (List Char)) : trie :=
  ws.foldl trie.insert trie.empty

end impl1

/-! ## Definitions used to state and prove the properties -/

namespace impl3
variable {T : Type}

/-- The chain of plain branches, one hop per character of `s`, that ends in the
node `bottom`. -/
def chain : List Char → Node T → Node T
  | [], bottom => bottom
  | c :: s, bottom => .branch [(c, chain s bottom)]

/-- The value a node carries, if it carries one. -/
def Node.value? : Node T → Option T
  | .leaf _ v => some v
  | .branch _ => none
  | .vbranch _ v => some v

/-- The value stored under the key `q` below the node `n`: the value of the
node that `lookup_visitor` finds. -/
def get (n : Node T) (q : List Char) : Option T :=
  (lookup_visitor q n).bind Node.value?

/-- The node `breakup_leaf` puts below the chain of the common part: `r1` is
what is left of the residue and `r2` what is left of the input. -/
def fork [plain_char] (r1 r2 : List Char) (lv v : T) : Option (Node T) :=
  match r1, r2 with
  | [], [] => none
  | [], c2 :: t2 => some (.vbranch [(c2, .leaf t2 v)] lv)
  | c1 :: t1, [] => some (.vbranch [(c1, .leaf t1 lv)] v)
  | c1 :: t1, c2 :: t2 => some (.branch (set [(c1, .leaf t1 lv)] c2 (.leaf t2 v)))

mutual
/-- The keys stored below a node, each as the part of the key that follows the
path to the node; in the order of `print_visitor`. -/
def words : Node T → List (List Char)
  | .leaf data _ => [data]
  | .branch ch => words_children ch
  | .vbranch ch _ => [] :: words_children ch
/-- The keys stored below the children of a branch. -/
def words_children : List (Char × Node T) → List (List Char)
  | [] => []
  | (c, n) :: m => (words n).map (fun w => c :: w) ++ words_children m
end

/-- Well-formed nodes: every `children` member is a `std::map`, that is, its
keys are strictly increasing in the order of `std::less<char>`. -/
inductive WF [plain_char] : Node T → Prop
  | leaf (d : List Char) (v : T) : WF (.leaf d v)
  | branch (ch : List (Char × Node T)) :
      (keys ch).Pairwise (fun a b => char_value a < char_value b) → (∀ p ∈ ch, WF p.2) → WF
          (.branch ch)
  | vbranch (ch : List (Char × Node T)) (v : T) :
      (keys ch).Pairwise (fun a b => char_value a < char_value b) → (∀ p ∈ ch, WF p.2) → WF
          (.vbranch ch v)

/-- Nodes below which no plain branch is without children. -/
inductive NoEmptyBranch : Node T → Prop
  | leaf (d : List Char) (v : T) : NoEmptyBranch (.leaf d v)
  | branch (ch : List (Char × Node T)) :
      ch ≠ [] → (∀ p ∈ ch, NoEmptyBranch p.2) → NoEmptyBranch (.branch ch)
  | vbranch (ch : List (Char × Node T)) (v : T) :
      (∀ p ∈ ch, NoEmptyBranch p.2) → NoEmptyBranch (.vbranch ch v)

mutual
/-- The leaves below a node: for each leaf the path (the characters) from the
node to the leaf, and the `data` of the leaf. -/
def leaves : Node T → List (List Char × List Char)
  | .leaf data _ => [([], data)]
  | .branch ch => leaves_children ch
  | .vbranch ch _ => leaves_children ch
/-- The leaves below the children of a branch. -/
def leaves_children : List (Char × Node T) → List (List Char × List Char)
  | [] => []
  | (c, n) :: m => (leaves n).map (fun l => (c :: l.1, l.2)) ++ leaves_children m
end

/-- The leaves of a trie, each with its path from the root and its `data`. -/
def trie.leaves (t : trie T) : List (List Char × List Char) := leaves_children t.root_

/-- The node reached from `n` by following the characters of `path` through the
children maps, if there is one. -/
def descend : List Char → Node T → Option (Node T)
  | [], n => some n
  | c :: path, n =>
    match find n.children c with
    | none => none
    | some child => descend path child

mutual
/-- The number of nodes of the subtree of a node, the node included. -/
def size : Node T → Nat
  | .leaf _ _ => 1
  | .branch ch => 1 + size_children ch
  | .vbranch ch _ => 1 + size_children ch
/-- The number of nodes below the children of a branch. -/
def size_children : List (Char × Node T) → Nat
  | [] => 0
  | (_, n) :: m => size n + size_children m
end

mutual
/-- The nodes of the subtree of a node, each given by the path (the characters)
that leads to it from the node; the node itself is the empty path. -/
def paths : Node T → List (List Char)
  | .leaf _ _ => [[]]
  | .branch ch => [] :: paths_children ch
  | .vbranch ch _ => [] :: paths_children ch
/-- The nodes below the children of a branch, by their paths. -/
def paths_children : List (Char × Node T) → List (List Char)
  | [] => []
  | (c, n) :: m => (paths n).map (fun p => c :: p) ++ paths_children m
end

/-- Compressed nodes: below them every value-branch has a child and every
plain branch stores at least two keys. -/
inductive Compressed : Node T → Prop
  | leaf (d : List Char) (v : T) : Compressed (.leaf d v)
  | branch (ch : List (Char × Node T)) :
      2 ≤ (words_children ch).length → (∀ p ∈ ch, Compressed p.2) → Compressed (.branch ch)
  | vbranch (ch : List (Char × Node T)) (v : T) :
      ch ≠ [] → (∀ p ∈ ch, Compressed p.2) → Compressed (.vbranch ch v)

end impl3

namespace impl2

/-- The chain of branches that are not words, one hop per character of `s`,
that ends in the node `bottom`. -/
def chain : List Char → Node → Node
  | [], bottom => bottom
  | c :: s, bottom => .branch [(c, chain s bottom)] false

/-- The node `breakup_leaf` puts below the chain of the common part: `r1` is
what is left of the residue and `r2` what is left of the input. -/
def fork [plain_char] (r1 r2 : List Char) : Option Node :=
  match r1, r2 with
  | [], [] => none
  | [], c2 :: t2 => some (.branch [(c2, .leaf t2)] true)
  | c1 :: t1, [] => some (.branch [(c1, .leaf t1)] true)
  | c1 :: t1, c2 :: t2 => some (.branch (set [(c1, .leaf t1)] c2 (.leaf t2)) false)

mutual
/-- The leaves below a node: for each leaf the path (the characters) from the
node to the leaf, and the `data` of the leaf. -/
def leaves : Node → List (List Char × List Char)
  | .leaf data => [([], data)]
  | .branch ch _ => leaves_children ch
/-- The leaves below the children of a branch. -/
def leaves_children : List (Char × Node) → List (List Char × List Char)
  | [] => []
  | (c, n) :: m => (leaves n).map (fun l => (c :: l.1, l.2)) ++ leaves_children m
end

/-- The leaves of a trie, each with its path from the root and its `data`. -/
def trie.leaves (t : trie) : List (List Char × List Char) := leaves_children t.root_

mutual
/-- The number of nodes of the subtree of a node, the node included. -/
def size : Node → Nat
  | .leaf _ => 1
  | .branch ch _ => 1 + size_children ch
/-- The number of nodes below the children of a branch. -/
def size_children : List (Char × Node) → Nat
  | [] => 0
  | (_, n) :: m => size n + size_children m
end

/-- The number of nodes of a trie, the root included. -/
def trie.size (t : trie) : Nat := impl2.size (.branch t.root_ false)

mutual
/-- The keys stored below a node, in the order of `print_visitor`: for each
key the part of it that follows the path to the node, and the number of child
hops from the node down to the leaf or branch that stores the key. -/
def key_depths : Node → List (List Char × Nat)
  | .leaf data => [(data, 0)]
  | .branch ch is_word => (if is_word = true then [([], 0)] else []) ++ key_depths_children ch
/-- The keys stored below the children of a branch, with their depths. -/
def key_depths_children : List (Char × Node) → List (List Char × Nat)
  | [] => []
  | (c, n) :: m => (key_depths n).map (fun e => (c :: e.1, e.2 + 1)) ++ key_depths_children m
end

/-- The stored keys of a trie, each with the number of child hops from the root
to the node that stores it. -/
def trie.key_depths (t : trie) : List (List Char × Nat) :=
  impl2.key_depths (.branch t.root_ false)

/-- Well-formed nodes: every `children` member is a `std::map`, that is, its
keys are strictly increasing in the order of `std::less<char>`. -/
inductive WF [plain_char] : Node → Prop
  | leaf (d : List Char) : WF (.leaf d)
  | branch (ch : List (Char × Node)) (w : Bool) :
      (keys ch).Pairwise (fun a b => char_value a < char_value b) → (∀ p ∈ ch, WF p.2) → WF
          (.branch ch w)

mutual
/-- The impl3 node over `Unit` of the same shape as an impl2 node. -/
def lift : Node → impl3.Node Unit
  | .leaf d => .leaf d ()
  | .branch ch true => .vbranch (lift_children ch) ()
  | .branch ch false => .branch (lift_children ch)
/-- The impl3 children map of the same shape. -/
def lift_children : List (Char × Node) → List (Char × impl3.Node Unit)
  | [] => []
  | (c, n) :: m => (c, lift n) :: lift_children m
end

end impl2

namespace impl3
variable {T : Type}

mutual
/-- The impl2 node of the same shape: values are dropped, a value-branch
becomes a branch with `is_word = true` and a plain branch one with
`is_word = false`. -/
def erase : Node T → impl2.Node
  | .leaf d _ => .leaf d
  | .branch ch => .branch (erase_children ch) false
  | .vbranch ch _ => .branch (erase_children ch) true
/-- The impl2 children map of the same shape. -/
def erase_children : List (Char × Node T) → List (Char × impl2.Node)
  | [] => []
  | (c, n) :: m => (c, erase n) :: erase_children m
end

/-- The impl2 trie of the same shape. -/
def trie.erase (t : trie T) : impl2.trie := ⟨erase_children t.root_⟩

end impl3

namespace impl1

mutual
/-- The words stored below a node, each as the part of the word that follows
the path to the node; in the order of `get_words_impl_`. -/
def words : trie_node_t_ → List (List Char)
  | .mk ch is_word => (if is_word = true then [[]] else []) ++ words_children ch
/-- The words stored below the children of a node. -/
def words_children : List (Char × trie_node_t_) → List (List Char)
  | [] => []
  | (c, n) :: m => (words n).map (fun w => c :: w) ++ words_children m
end

/-- Well-formed nodes: every `children` member is a `std::map`, that is, its
keys are strictly increasing in the order of `std::less<char>`. -/
inductive WF [plain_char] : trie_node_t_ → Prop
  | mk (ch : List (Char × trie_node_t_)) (w : Bool) :
      (keys ch).Pairwise (fun a b => char_value a < char_value b) → (∀ p ∈ ch, WF p.2) → WF
          (.mk ch w)

/-- Nodes below which every node is a word or has a child. -/
inductive NoDeadEnd : trie_node_t_ → Prop
  | mk (ch : List (Char × trie_node_t_)) (w : Bool) :
      (w = true ∨ ch ≠ []) → (∀ p ∈ ch, NoDeadEnd p.2) → NoDeadEnd (.mk ch w)

mutual
/-- The number of nodes of the subtree of a node, the node included. -/
def size : trie_node_t_ → Nat
  | .mk ch _ => 1 + size_children ch
/-- The number of nodes below the children of a node. -/
def size_children : List (Char × trie_node_t_) → Nat
  | [] => 0
  | (_, n) :: m => size n + size_children m
end

/-- The number of nodes of a trie, the root included. -/
def trie.size (t : trie) : Nat := impl1.size t.root_

mutual
/-- The nodes of the subtree of a node, each given by the path (the characters)
that leads to it from the node; the node itself is the empty path. -/
def paths : trie_node_t_ → List (List Char)
  | .mk ch _ => [] :: paths_children ch
/-- The nodes below the children of a node, by their paths. -/
def paths_children : List (Char × trie_node_t_) → List (List Char)
  | [] => []
  | (c, n) :: m => (paths n).map (fun p => c :: p) ++ paths_children m
end

end impl1

/-! ## The order of plain `char` -/

/-- On both kinds of platform distinct characters have distinct values, so
`std::less<char>` is a strict total order. -/
theorem char_value_inj [plain_char] (a b : Char) (h : char_value a = char_value b) : a = b := by
  have hn : a.toNat = b.toNat := by
    unfold char_value at h
    split at h <;> split at h <;> omega
  rw [← Char.ofNat_toNat a, ← Char.ofNat_toNat b, hn]

theorem ne_of_char_lt [plain_char] {a b : Char} (h : char_value a < char_value b) : a ≠ b := by
  intro he
  subst he
  exact lt_irrefl _ h

/-- On a platform with signed plain `char` the bytes from `0x80` on come
before the ASCII characters, on one with unsigned plain `char` after them. -/
theorem char_value_platforms :
    (@char_value ⟨true⟩ (Char.ofNat 0xE9) < @char_value ⟨true⟩ 'a') ∧
    (@char_value ⟨false⟩ 'a' < @char_value ⟨false⟩ (Char.ofNat 0xE9)) := by
  decide

/-! ## Lemmas on maps -/

theorem find_set_self {β : Type} [plain_char] (m : List (Char × β)) (c : Char) (x : β) :
    find (set m c x) c = some x := by
  induction m with
  | nil => simp [set, find]
  | cons p m ih =>
    obtain ⟨k, y⟩ := p
    by_cases h1 : char_value c < char_value k
    · simp [set, find, h1]
    · by_cases h2 : c = k
      · subst h2; simp [set, find]
      · simp [set, find, h1, h2, ih]

theorem find_set_ne {β : Type} [plain_char] (m : List (Char × β)) {c d : Char} (x : β) (h : d ≠ c) :
    find (set m c x) d = find m d := by
  induction m with
  | nil => simp [set, find, h]
  | cons p m ih =>
    obtain ⟨k, y⟩ := p
    by_cases h1 : char_value c < char_value k
    · simp [set, find, h1, h]
    · by_cases h2 : c = k
      · subst h2; simp [set, find, h]
      · simp [set, find, h1, h2, ih]

theorem find_set {β : Type} [plain_char] (m : List (Char × β)) (c d : Char) (x : β) :
    find (set m c x) d = if d = c then some x else find m d := by
  by_cases h : d = c
  · subst h; simp [find_set_self]
  · simp [h, find_set_ne m x h]

theorem mem_keys_set {β : Type} [plain_char] (m : List (Char × β)) (c k : Char) (x : β) :
    k ∈ keys (set m c x) ↔ k = c ∨ k ∈ keys m := by
  induction m with
  | nil => simp [set, keys]
  | cons p m ih =>
    obtain ⟨a, y⟩ := p
    by_cases h1 : char_value c < char_value a
    · simp [set, keys, h1]
    · by_cases h2 : c = a
      · subst h2; simp [set, keys]
      · have ih' : k ∈ List.map Prod.fst (set m c x) ↔ k = c ∨ k ∈ List.map Prod.fst m := ih
        simp only [set, h1, h2, if_false, keys, List.map_cons, List.mem_cons, ih']
        tauto

theorem sorted_set {β : Type} [plain_char] (m : List (Char × β)) (c : Char) (x : β)
    (h : (keys m).Pairwise (fun a b => char_value a < char_value b)) :
    (keys (set m c x)).Pairwise (fun a b => char_value a < char_value b) := by
  induction m with
  | nil => simp [set, keys]
  | cons p m ih =>
    obtain ⟨a, y⟩ := p
    have h' : (a :: keys m).Pairwise (fun a b => char_value a < char_value b) := h
    rw [List.pairwise_cons] at h'
    by_cases h1 : char_value c < char_value a
    · simp only [set, h1, if_true]
      show (c :: a :: keys m).Pairwise (fun a b => char_value a < char_value b)
      rw [List.pairwise_cons]
      refine ⟨?_, h⟩
      intro b hb
      rcases List.mem_cons.1 hb with rfl | hb
      · exact h1
      · exact lt_trans h1 (h'.1 b hb)
    · by_cases h2 : c = a
      · subst h2
        simpa [set, keys] using h
      · simp only [set, h1, h2, if_false]
        show (a :: keys (set m c x)).Pairwise (fun a b => char_value a < char_value b)
        rw [List.pairwise_cons]
        refine ⟨?_, ih h'.2⟩
        intro b hb
        rcases (mem_keys_set m c b x).1 hb with rfl | hb
        · exact lt_of_le_of_ne (not_lt.1 h1) (fun he => h2 (char_value_inj _ _ he).symm)
        · exact h'.1 b hb

theorem mem_set {β : Type} [plain_char] (m : List (Char × β)) (c : Char) (x : β) (p : Char × β)
    (h : p ∈ set m c x) : p = (c, x) ∨ p ∈ m := by
  induction m with
  | nil => simpa [set] using h
  | cons q m ih =>
    obtain ⟨a, y⟩ := q
    by_cases h1 : char_value c < char_value a
    · simp only [set, h1, if_true, List.mem_cons] at h
      simpa using h
    · by_cases h2 : c = a
      · subst h2
        simp only [set, h1, if_false, if_true, List.mem_cons] at h
        rcases h with h | h
        · exact Or.inl h
        · exact Or.inr (List.mem_cons_of_mem _ h)
      · simp only [set, h1, h2, if_false, List.mem_cons] at h
        rcases h with h | h
        · exact Or.inr (by simp [h])
        · rcases ih h with h | h
          · exact Or.inl h
          · exact Or.inr (List.mem_cons_of_mem _ h)

theorem find_some_mem {β : Type} (m : List (Char × β)) (c : Char) (x : β)
    (h : find m c = some x) : (c, x) ∈ m := by
  induction m with
  | nil => simp [find] at h
  | cons q m ih =>
    obtain ⟨a, y⟩ := q
    by_cases h1 : c = a
    · subst h1
      simp only [find, if_true, Option.some.injEq] at h
      simp [h]
    · simp only [find, h1, if_false] at h
      exact List.mem_cons_of_mem _ (ih h)

theorem mem_iff_find {β : Type} [plain_char] (m : List (Char × β)) (c : Char) (x : β)
    (h : (keys m).Pairwise (fun a b => char_value a < char_value b)) : (c, x) ∈ m ↔ find m c = some
        x := by
  refine ⟨?_, find_some_mem m c x⟩
  induction m with
  | nil => simp
  | cons q m ih =>
    obtain ⟨a, y⟩ := q
    have h' : (a :: keys m).Pairwise (fun a b => char_value a < char_value b) := h
    rw [List.pairwise_cons] at h'
    intro hm
    rcases List.mem_cons.1 hm with he | hm
    · simp only [Prod.mk.injEq] at he
      simp [find, he.1, he.2]
    · have hc : c ∈ keys m := List.mem_map.2 ⟨(c, x), hm, rfl⟩
      have hne : c ≠ a := (ne_of_char_lt (h'.1 c hc)).symm
      simp only [find, hne, if_false]
      exact ih h'.2 hm

theorem find_eq_none {β : Type} (m : List (Char × β)) (c : Char) (h : c ∉ keys m) :
    find m c = none := by
  induction m with
  | nil => rfl
  | cons q m ih =>
    obtain ⟨a, y⟩ := q
    simp only [keys, List.map_cons, List.mem_cons, not_or] at h
    simp only [find, h.1, if_false]
    exact ih h.2

theorem mismatch_spec (a b : List Char) :
    ∃ p r1 r2, a = p ++ r1 ∧ b = p ++ r2 ∧ mismatch a b = p.length ∧
      (r1 = [] ∨ r2 = [] ∨ r1.head? ≠ r2.head?) := by
  induction a generalizing b with
  | nil => exact ⟨[], [], b, by simp [mismatch]⟩
  | cons x a ih =>
    cases b with
    | nil => exact ⟨[], x :: a, [], by simp [mismatch]⟩
    | cons y b =>
      by_cases h : x = y
      · subst h
        obtain ⟨p, r1, r2, h1, h2, h3, h4⟩ := ih b
        exact ⟨x :: p, r1, r2, by simp [h1.symm], by simp [h2.symm], by simp [mismatch, h3], h4⟩
      · exact ⟨[], x :: a, y :: b, by simp [mismatch, h]⟩

namespace impl3
variable {T : Type}

/-! ## impl3: chains and `breakup_leaf` -/

theorem chain_append (s t : List Char) (b : Node T) :
    chain (s ++ t) b = chain s (chain t b) := by
  induction s with
  | nil => rfl
  | cons c s ih => simp [chain, ih]

theorem build_branches_eq (s : List Char) :
    (build_branches s : Node T × List Char) = (chain s (.branch []), s) := by
  induction s with
  | nil => rfl
  | cons c s ih => simp [build_branches, chain, ih]

theorem update_at_chain [plain_char] (f : Node T → Node T) (s : List Char) (b : Node T) :
    update_at f s (chain s b) = chain s (f b) := by
  induction s with
  | nil => rfl
  | cons c s ih =>
    simp [chain, update_at, Node.children, find, Node.set_child, set, ih]

theorem build_branches_to_value_eq [plain_char] (s : List Char) (v : T) :
    build_branches_to_value s v = (chain s (.vbranch [] v), s) := by
  cases s with
  | nil => rfl
  | cons c s =>
    simp only [build_branches_to_value, build_branches_eq, update_at_chain]
    have h : chain (c :: s) (.vbranch [] v) =
        chain ((c :: s).dropLast ++ [(c :: s).getLast (List.cons_ne_nil c s)]) (.vbranch [] v) := by
      rw [List.dropLast_append_getLast]
    rw [h, chain_append]
    simp [chain, Node.set_child, set]

/-- The subtree `breakup_leaf` returns: the chain of the common part above the
fork. -/
theorem breakup_leaf_eq [plain_char] (p r1 r2 : List Char) (lv v : T)
    (h : r1 = [] ∨ r2 = [] ∨ r1.head? ≠ r2.head?) :
    breakup_leaf (p ++ r1) lv (p ++ r2) v = (fork r1 r2 lv v).map (chain p) := by
  have hm : mismatch (p ++ r1) (p ++ r2) = p.length := by
    induction p with
    | nil =>
      cases r1 with
      | nil => simp [mismatch]
      | cons a r1 =>
        cases r2 with
        | nil => simp [mismatch]
        | cons b r2 =>
          have : a ≠ b := by simpa using h
          simp [mismatch, this]
    | cons c p ih => simp [mismatch, ih]
  unfold breakup_leaf
  simp only [hm, List.drop_left, List.take_left]
  cases r1 with
  | nil =>
    cases r2 with
    | nil => simp [fork]
    | cons c2 t2 =>
      simp [fork, build_branches_to_value_eq, update_at_chain, Node.set_child, set, make_leaf]
  | cons c1 t1 =>
    cases r2 with
    | nil =>
      simp [fork, build_branches_to_value_eq, update_at_chain, Node.set_child, set, make_leaf]
    | cons c2 t2 =>
      simp [fork, build_branches_eq, update_at_chain, Node.set_child, make_leaf]
      rfl

/-! ## impl3: the value stored under a key -/

theorem leaf_test_iff (data q : List Char) :
    (data.length = q.length ∧ data = q.take data.length) ↔ data = q := by
  constructor
  · rintro ⟨h1, h2⟩
    rw [h1, List.take_length] at h2
    exact h2
  · rintro rfl
    simp

@[simp] theorem get_leaf (data : List Char) (lv : T) (q : List Char) :
    get (.leaf data lv) q = if data = q then some lv else none := by
  unfold get
  cases q <;> simp only [lookup_visitor, leaf_test_iff] <;> split <;> simp [Node.value?]

@[simp] theorem get_branch_nil (ch : List (Char × Node T)) : get (.branch ch) [] = none := by
  simp [get, lookup_visitor]

@[simp] theorem get_vbranch_nil (ch : List (Char × Node T)) (u : T) :
    get (.vbranch ch u) [] = some u := by
  simp [get, lookup_visitor, Node.value?]

@[simp] theorem get_branch_cons (ch : List (Char × Node T)) (c : Char) (q : List Char) :
    get (.branch ch) (c :: q) = (find ch c).bind (fun n => get n q) := by
  unfold get
  simp only [lookup_visitor]
  cases find ch c <;> rfl

@[simp] theorem get_vbranch_cons (ch : List (Char × Node T)) (u : T) (c : Char) (q : List Char) :
    get (.vbranch ch u) (c :: q) = (find ch c).bind (fun n => get n q) := by
  unfold get
  simp only [lookup_visitor]
  cases find ch c <;> rfl

/-- What `lookup_visitor` finds carries a value: it is never a plain branch. -/
theorem lookup_visitor_isSome (q : List Char) (n : Node T) :
    (lookup_visitor q n).isSome = (get n q).isSome := by
  induction q generalizing n with
  | nil =>
    cases n with
    | leaf d v => unfold get; simp only [lookup_visitor]; split <;> simp [Node.value?]
    | branch ch => simp [get, lookup_visitor]
    | vbranch ch u => simp [get, lookup_visitor, Node.value?]
  | cons c q ih =>
    cases n with
    | leaf d v => unfold get; simp only [lookup_visitor]; split <;> simp [Node.value?]
    | branch ch =>
      rw [get_branch_cons]; simp only [lookup_visitor]
      cases find ch c with
      | none => rfl
      | some n => exact ih n
    | vbranch ch u =>
      rw [get_vbranch_cons]; simp only [lookup_visitor]
      cases find ch c with
      | none => rfl
      | some n => exact ih n

theorem get_chain_append (p : List Char) (b : Node T) (q : List Char) :
    get (chain p b) (p ++ q) = get b q := by
  induction p with
  | nil => rfl
  | cons c p ih => simp [chain, find, ih]

theorem get_chain_none (p : List Char) (b : Node T) (q : List Char) (h : ¬ p <+: q) :
    get (chain p b) q = none := by
  induction p generalizing q with
  | nil => simp at h
  | cons c p ih =>
    cases q with
    | nil => simp [chain]
    | cons d q =>
      by_cases h1 : d = c
      · subst h1
        have : ¬ p <+: q := fun hp => h (by simpa using hp)
        simp [chain, find, ih q this]
      · simp [chain, find, h1]

theorem get_fork [plain_char] (r1 r2 : List Char) (lv v : T) (b : Node T)
    (hd : r1 = [] ∨ r2 = [] ∨ r1.head? ≠ r2.head?)
    (h : fork r1 r2 lv v = some b) (q : List Char) :
    get b q = if q = r1 then some lv else if q = r2 then some v else none := by
  cases r1 with
  | nil =>
    cases r2 with
    | nil => simp [fork] at h
    | cons c2 t2 =>
      simp only [fork, Option.some.injEq] at h; subst h
      cases q with
      | nil => simp
      | cons d q' =>
        by_cases h1 : d = c2
        · subst h1; simp [find, eq_comm]
        · simp [find, h1]
  | cons c1 t1 =>
    cases r2 with
    | nil =>
      simp only [fork, Option.some.injEq] at h; subst h
      cases q with
      | nil => simp
      | cons d q' =>
        by_cases h1 : d = c1
        · subst h1; simp [find, eq_comm]
        · simp [find, h1]
    | cons c2 t2 =>
      simp only [fork, Option.some.injEq] at h; subst h
      have hne : c1 ≠ c2 := by simpa using hd
      cases q with
      | nil => simp
      | cons d q' =>
        simp only [get_branch_cons, find_set, find]
        by_cases h2 : d = c2
        · subst h2
          simp [Ne.symm hne, hne, eq_comm]
        · by_cases h1 : d = c1
          · subst h1; simp [h2, Ne.symm h2, eq_comm]
          · simp [h1, h2]

/-- The subtree built by `breakup_leaf` stores the old key with the old value,
the new key with the new value, and nothing else. -/
theorem get_breakup_leaf [plain_char] (data : List Char) (lv : T) (r : List Char) (v : T)
    (n : Node T)
    (h : breakup_leaf data lv r v = some n) (q : List Char) :
    get n q = if q = data then some lv else if q = r then some v else none := by
  obtain ⟨p, r1, r2, rfl, rfl, -, hd⟩ := mismatch_spec data r
  rw [breakup_leaf_eq p r1 r2 lv v hd] at h
  cases hf : fork r1 r2 lv v with
  | none => simp [hf] at h
  | some b =>
    simp only [hf, Option.map_some', Option.some.injEq] at h
    subst h
    by_cases hp : p <+: q
    · obtain ⟨q', rfl⟩ := hp
      rw [get_chain_append, get_fork r1 r2 lv v b hd hf]
      simp
    · rw [get_chain_none p b q hp]
      have h1 : q ≠ p ++ r1 := fun e => hp ⟨r1, e.symm⟩
      have h2 : q ≠ p ++ r2 := fun e => hp ⟨r2, e.symm⟩
      simp [h1, h2]

theorem breakup_leaf_eq_none [plain_char] (data : List Char) (lv : T) (r : List Char) (v : T) :
    breakup_leaf data lv r v = none ↔ data = r := by
  obtain ⟨p, r1, r2, rfl, rfl, -, hd⟩ := mismatch_spec data r
  rw [breakup_leaf_eq p r1 r2 lv v hd]
  cases r1 with
  | nil => cases r2 <;> simp [fork]
  | cons c1 t1 =>
    cases r2 with
    | nil => simp [fork]
    | cons c2 t2 =>
      have hne : c1 ≠ c2 := by simpa using hd
      simp [fork, hne]

/-! ## impl3: lookups after `insert` -/

theorem insert_visitor_leaf [plain_char] (moved : T → T) (r data : List Char) (lv v : T) :
    insert_visitor moved r (.leaf data lv) v =
      match breakup_leaf data lv r v with
      | none => .leaf data (moved lv)
      | some n => n := by
  cases r <;> simp [insert_visitor]

/-- Frame property of the insert visitor: a key other than the inserted one
keeps its value, or its absence. -/
theorem get_insert_visitor_ne [plain_char] (moved : T → T) (r : List Char) (n : Node T) (v : T)
    (q : List Char) (hq : q ≠ r) :
    get (insert_visitor moved r n v) q = get n q := by
  induction r generalizing n q with
  | nil =>
    cases n with
    | leaf data lv =>
      rw [insert_visitor_leaf]
      cases hb : breakup_leaf data lv [] v with
      | none =>
        have := (breakup_leaf_eq_none data lv [] v).1 hb
        subst this
        simp [Ne.symm hq]
      | some n' =>
        simp only [get_breakup_leaf data lv [] v n' hb, hq, if_false, get_leaf]
        simp [eq_comm]
    | branch ch =>
      cases q with
      | nil => exact absurd rfl hq
      | cons d q' => simp [insert_visitor]
    | vbranch ch u => simp [insert_visitor]
  | cons c rest ih =>
    cases n with
    | leaf data lv =>
      rw [insert_visitor_leaf]
      cases hb : breakup_leaf data lv (c :: rest) v with
      | none =>
        have := (breakup_leaf_eq_none data lv (c :: rest) v).1 hb
        subst this
        simp [Ne.symm hq]
      | some n' =>
        simp only [get_breakup_leaf data lv (c :: rest) v n' hb, hq, if_false, get_leaf]
        simp [eq_comm]
    | branch ch =>
      cases q with
      | nil => cases hf : find ch c <;> simp [insert_visitor, hf]
      | cons d q' =>
        by_cases hd : d = c
        · subst hd
          have hq' : q' ≠ rest := fun e => hq (by rw [e])
          cases hf : find ch d with
          | none => simp [insert_visitor, hf, find_set, make_leaf, Ne.symm hq']
          | some next => simp [insert_visitor, hf, find_set, ih next q' hq']
        · cases hf : find ch c <;> simp [insert_visitor, hf, find_set, hd]
    | vbranch ch u =>
      cases q with
      | nil => cases hf : find ch c <;> simp [insert_visitor, hf]
      | cons d q' =>
        by_cases hd : d = c
        · subst hd
          have hq' : q' ≠ rest := fun e => hq (by rw [e])
          cases hf : find ch d with
          | none => simp [insert_visitor, hf, find_set, make_leaf, Ne.symm hq']
          | some next => simp [insert_visitor, hf, find_set, ih next q' hq']
        · cases hf : find ch c <;> simp [insert_visitor, hf, find_set, hd]

/-- After the insert visitor ran with the key `r`, the key `r` is stored; it
carries the inserted value when it was absent before. -/
theorem get_insert_visitor_self [plain_char] (moved : T → T) (r : List Char) (n : Node T) (v : T) :
    ∃ u, get (insert_visitor moved r n v) r = some u ∧ (get n r = none → u = v) ∧
      (∀ w, get n r = some w → u = w ∨ u = moved w) := by
  induction r generalizing n with
  | nil =>
    cases n with
    | leaf data lv =>
      rw [insert_visitor_leaf]
      cases hb : breakup_leaf data lv [] v with
      | none =>
        have := (breakup_leaf_eq_none data lv [] v).1 hb
        subst this
        exact ⟨moved lv, by simp, by simp, by simp⟩
      | some n' =>
        have hne : data ≠ [] := fun e => by
          rw [(breakup_leaf_eq_none data lv [] v).2 e] at hb; cases hb
        refine ⟨v, ?_, by simp, by simp [hne]⟩
        rw [get_breakup_leaf data lv [] v n' hb]
        simp [Ne.symm hne]
    | branch ch => exact ⟨v, by simp [insert_visitor], by simp, by simp⟩
    | vbranch ch u => exact ⟨u, by simp [insert_visitor], by simp, by simp⟩
  | cons c rest ih =>
    cases n with
    | leaf data lv =>
      rw [insert_visitor_leaf]
      cases hb : breakup_leaf data lv (c :: rest) v with
      | none =>
        have := (breakup_leaf_eq_none data lv (c :: rest) v).1 hb
        subst this
        exact ⟨moved lv, by simp, by simp, by simp⟩
      | some n' =>
        have hne : data ≠ c :: rest := fun e => by
          rw [(breakup_leaf_eq_none data lv (c :: rest) v).2 e] at hb; cases hb
        refine ⟨v, ?_, by simp, by simp [hne]⟩
        rw [get_breakup_leaf data lv (c :: rest) v n' hb]
        simp [Ne.symm hne]
    | branch ch =>
      cases hf : find ch c with
      | none => exact ⟨v, by simp [insert_visitor, hf, find_set, make_leaf], by simp, by simp [hf]⟩
      | some next =>
        obtain ⟨u, h1, h2, h3⟩ := ih next
        exact ⟨u, by simp [insert_visitor, hf, find_set, h1], by simpa [hf] using h2,
          by simpa [hf] using h3⟩
    | vbranch ch u0 =>
      cases hf : find ch c with
      | none => exact ⟨v, by simp [insert_visitor, hf, find_set, make_leaf], by simp, by simp [hf]⟩
      | some next =>
        obtain ⟨u, h1, h2, h3⟩ := ih next
        exact ⟨u, by simp [insert_visitor, hf, find_set, h1], by simpa [hf] using h2,
          by simpa [hf] using h3⟩

/-- At the root, `trie::insert` does what the insert visitor does at a plain
branch. -/
theorem trie_insert_root [plain_char] (moved : T → T) (t : trie T) (c : Char) (rest : List Char)
    (v : T) :
    Node.branch (t.insert moved (c :: rest) v).root_ =
      insert_visitor moved (c :: rest) (.branch t.root_) v := by
  simp only [trie.insert, insert_visitor]
  cases find t.root_ c <;> rfl

theorem lookup_node_eq (t : trie T) (q : List Char) :
    t.lookup_node_ q = lookup_visitor q (.branch t.root_) := by
  cases q <;> simp [trie.lookup_node_, lookup_visitor]

theorem exists_eq (t : trie T) (q : List Char) :
    t.exists q = (get (.branch t.root_) q).isSome := by
  rw [trie.exists, lookup_node_eq, lookup_visitor_isSome]

theorem value_extract_visitor_eq (x : T) (n : Node T) :
    value_extract_visitor x n = (n.value?.isSome, n.value?.getD x) := by
  cases n <;> rfl

theorem value_at_eq (t : trie T) (q : List Char) (x : T) :
    t.value_at q x =
      ((get (.branch t.root_) q).isSome, (get (.branch t.root_) q).getD x) := by
  rw [trie.value_at, lookup_node_eq, get]
  cases lookup_visitor q (.branch t.root_) with
  | none => rfl
  | some n => simp [value_extract_visitor_eq]

theorem get_insert_ne [plain_char] (moved : T → T) (t : trie T) (k : List Char) (v : T)
    (q : List Char)
    (hq : q ≠ k) :
    get (.branch (t.insert moved k v).root_) q = get (.branch t.root_) q := by
  cases k with
  | nil => rfl
  | cons c rest => rw [trie_insert_root, get_insert_visitor_ne moved _ _ v q hq]

theorem get_insert_self [plain_char] (moved : T → T) (t : trie T) (k : List Char) (v : T)
    (hk : k ≠ []) :
    ∃ u, get (.branch (t.insert moved k v).root_) k = some u ∧
      (get (.branch t.root_) k = none → u = v) ∧
      (∀ w, get (.branch t.root_) k = some w → u = w ∨ u = moved w) := by
  cases k with
  | nil => exact absurd rfl hk
  | cons c rest =>
    rw [trie_insert_root]
    exact get_insert_visitor_self moved (c :: rest) (.branch t.root_) v

/-! ## impl3: well-formedness is preserved by `insert` -/

theorem wf_chain [plain_char] (p : List Char) (b : Node T) (h : WF b) : WF (chain p b) := by
  induction p with
  | nil => exact h
  | cons c p ih =>
    refine WF.branch _ (by simp [keys]) ?_
    intro q hq
    simp only [List.mem_singleton] at hq
    subst hq
    exact ih

theorem wf_fork [plain_char] (r1 r2 : List Char) (lv v : T) (b : Node T)
    (h : fork r1 r2 lv v = some b) :
    WF b := by
  cases r1 with
  | nil =>
    cases r2 with
    | nil => simp [fork] at h
    | cons c2 t2 =>
      simp only [fork, Option.some.injEq] at h; subst h
      refine WF.vbranch _ _ (by simp [keys]) ?_
      intro q hq
      simp only [List.mem_singleton] at hq
      subst hq
      exact WF.leaf _ _
  | cons c1 t1 =>
    cases r2 with
    | nil =>
      simp only [fork, Option.some.injEq] at h; subst h
      refine WF.vbranch _ _ (by simp [keys]) ?_
      intro q hq
      simp only [List.mem_singleton] at hq
      subst hq
      exact WF.leaf _ _
    | cons c2 t2 =>
      simp only [fork, Option.some.injEq] at h; subst h
      refine WF.branch _ (sorted_set _ _ _ (by simp [keys])) ?_
      intro q hq
      rcases mem_set _ _ _ _ hq with rfl | hq
      · exact WF.leaf _ _
      · simp only [List.mem_singleton] at hq
        subst hq
        exact WF.leaf _ _

theorem wf_breakup_leaf [plain_char] (data : List Char) (lv : T) (r : List Char) (v : T)
    (n : Node T)
    (h : breakup_leaf data lv r v = some n) : WF n := by
  obtain ⟨p, r1, r2, rfl, rfl, -, hd⟩ := mismatch_spec data r
  rw [breakup_leaf_eq p r1 r2 lv v hd] at h
  cases hf : fork r1 r2 lv v with
  | none => simp [hf] at h
  | some b =>
    simp only [hf, Option.map_some', Option.some.injEq] at h
    subst h
    exact wf_chain p b (wf_fork r1 r2 lv v b hf)

theorem wf_children_set [plain_char] (ch : List (Char × Node T)) (c : Char) (x : Node T)
    (hch : ∀ p ∈ ch, WF p.2) (hx : WF x) : ∀ p ∈ set ch c x, WF p.2 := by
  intro p hp
  rcases mem_set _ _ _ _ hp with rfl | hp
  · exact hx
  · exact hch p hp

theorem wf_insert_visitor [plain_char] (moved : T → T) (r : List Char) (n : Node T) (v : T)
    (h : WF n) :
    WF (insert_visitor moved r n v) := by
  induction r generalizing n with
  | nil =>
    cases h with
    | leaf data lv =>
      rw [insert_visitor_leaf]
      cases hb : breakup_leaf data lv [] v with
      | none => exact WF.leaf _ _
      | some n' => exact wf_breakup_leaf _ _ _ _ _ hb
    | branch ch h1 h2 => exact WF.vbranch _ _ h1 h2
    | vbranch ch u h1 h2 => exact WF.vbranch _ _ h1 h2
  | cons c rest ih =>
    cases h with
    | leaf data lv =>
      rw [insert_visitor_leaf]
      cases hb : breakup_leaf data lv (c :: rest) v with
      | none => exact WF.leaf _ _
      | some n' => exact wf_breakup_leaf _ _ _ _ _ hb
    | branch ch h1 h2 =>
      cases hf : find ch c with
      | none =>
        simp only [insert_visitor, hf]
        exact WF.branch _ (sorted_set _ _ _ h1) (wf_children_set _ _ _ h2 (WF.leaf _ _))
      | some next =>
        simp only [insert_visitor, hf]
        exact WF.branch _ (sorted_set _ _ _ h1)
          (wf_children_set _ _ _ h2 (ih next (h2 _ (find_some_mem _ _ _ hf))))
    | vbranch ch u h1 h2 =>
      cases hf : find ch c with
      | none =>
        simp only [insert_visitor, hf]
        exact WF.vbranch _ _ (sorted_set _ _ _ h1) (wf_children_set _ _ _ h2 (WF.leaf _ _))
      | some next =>
        simp only [insert_visitor, hf]
        exact WF.vbranch _ _ (sorted_set _ _ _ h1)
          (wf_children_set _ _ _ h2 (ih next (h2 _ (find_some_mem _ _ _ hf))))

theorem wf_insert [plain_char] (moved : T → T) (t : trie T) (k : List Char) (v : T)
    (h : WF (.branch t.root_)) : WF (.branch (t.insert moved k v).root_) := by
  cases k with
  | nil => exact h
  | cons c rest =>
    rw [trie_insert_root]
    exact wf_insert_visitor moved _ _ v h

theorem wf_build_from [plain_char] (moved : T → T) (ops : List (List Char × T)) (t : trie T)
    (h : WF (.branch t.root_)) :
    WF (.branch (ops.foldl (fun t op => t.insert moved op.1 op.2) t).root_) := by
  induction ops generalizing t with
  | nil => exact h
  | cons op ops ih => exact ih _ (wf_insert moved t op.1 op.2 h)

theorem wf_build [plain_char] (moved : T → T) (ops : List (List Char × T)) :
    WF (.branch (build moved ops).root_) :=
  wf_build_from moved ops trie.empty (WF.branch _ (by simp [keys, trie.empty]) (by simp [trie.empty]))

/-! ## impl3: `get_words` -/

mutual
theorem print_visitor_eq : ∀ (n : Node T) (wp : List Char) (res : List (List Char)),
    print_visitor n (wp, res) = (wp, res ++ (words n).map (fun w => wp ++ w))
  | .leaf data _, wp, res => by simp [print_visitor, words]
  | .branch ch, wp, res => by
    simp only [print_visitor, words]
    exact print_children_eq ch wp res
  | .vbranch ch _, wp, res => by
    simp only [print_visitor, words]
    rw [print_children_eq ch wp (res ++ [wp])]
    simp
theorem print_children_eq : ∀ (m : List (Char × Node T)) (wp : List Char)
    (res : List (List Char)),
    print_children m (wp, res) = (wp, res ++ (words_children m).map (fun w => wp ++ w))
  | [], wp, res => by simp [print_children, words_children]
  | (c, child) :: m, wp, res => by
    simp only [print_children, words_children]
    rw [print_visitor_eq child (wp ++ [c]) res]
    simp only [List.dropLast_concat]
    rw [print_children_eq m wp _]
    simp [List.map_append, Function.comp_def]
end

theorem get_words_eq (t : trie T) : t.get_words = words (.branch t.root_) := by
  simp [trie.get_words, print_visitor_eq]

theorem mem_words_children (ch : List (Char × Node T)) (w : List Char) :
    w ∈ words_children ch ↔ ∃ p ∈ ch, ∃ w' ∈ words p.2, w = p.1 :: w' := by
  induction ch with
  | nil => simp [words_children]
  | cons p m ih =>
    obtain ⟨c, n⟩ := p
    simp only [words_children, List.mem_append, List.mem_map, ih, List.mem_cons]
    constructor
    · rintro (⟨w', hw', rfl⟩ | ⟨p, hp, w', hw', rfl⟩)
      · exact ⟨(c, n), Or.inl rfl, w', hw', rfl⟩
      · exact ⟨p, Or.inr hp, w', hw', rfl⟩
    · rintro ⟨p, rfl | hp, w', hw', rfl⟩
      · exact Or.inl ⟨w', hw', rfl⟩
      · exact Or.inr ⟨p, hp, w', hw', rfl⟩

theorem mem_words_children_cons [plain_char] (ch : List (Char × Node T))
    (hs : (keys ch).Pairwise (fun a b => char_value a < char_value b)) (c : Char) (w : List Char) :
    c :: w ∈ words_children ch ↔ ∃ n, find ch c = some n ∧ w ∈ words n := by
  rw [mem_words_children]
  constructor
  · rintro ⟨⟨k, n⟩, hp, w', hw', he⟩
    simp only [List.cons.injEq] at he
    obtain ⟨rfl, rfl⟩ := he
    exact ⟨n, (mem_iff_find ch c n hs).1 hp, hw'⟩
  · rintro ⟨n, hf, hw⟩
    exact ⟨(c, n), find_some_mem ch c n hf, w, hw, rfl⟩

theorem nil_not_mem_words_children (ch : List (Char × Node T)) : [] ∉ words_children ch := by
  rw [mem_words_children]
  rintro ⟨p, -, w', -, he⟩
  cases he

/-- On a well-formed node the enumeration and the lookup agree. -/
theorem mem_words_iff [plain_char] (n : Node T) (h : WF n) :
    ∀ w, w ∈ words n ↔ (get n w).isSome = true := by
  induction h with
  | leaf d v =>
    intro w
    by_cases hw : d = w <;> simp [words, hw, eq_comm]
  | branch ch h1 h2 ih =>
    intro w
    cases w with
    | nil => simp [words, nil_not_mem_words_children]
    | cons c w =>
      rw [words, mem_words_children_cons ch h1, get_branch_cons]
      cases hf : find ch c with
      | none => simp
      | some n => simp [ih (c, n) (find_some_mem ch c n hf) w]
  | vbranch ch u h1 h2 ih =>
    intro w
    cases w with
    | nil => simp [words]
    | cons c w =>
      rw [words, List.mem_cons, mem_words_children_cons ch h1, get_vbranch_cons]
      cases hf : find ch c with
      | none => simp
      | some n => simp [ih (c, n) (find_some_mem ch c n hf) w]

theorem nodup_words_children [plain_char] (ch : List (Char × Node T))
    (hs : (keys ch).Pairwise (fun a b => char_value a < char_value b))
        (hn : ∀ p ∈ ch, (words p.2).Nodup) :
    (words_children ch).Nodup := by
  induction ch with
  | nil => simp [words_children]
  | cons p m ih =>
    obtain ⟨c, n⟩ := p
    have hs' : (c :: keys m).Pairwise (fun a b => char_value a < char_value b) := hs
    rw [List.pairwise_cons] at hs'
    simp only [words_children]
    rw [List.nodup_append]
    refine ⟨?_, ih hs'.2 (fun p hp => hn p (List.mem_cons_of_mem _ hp)), ?_⟩
    · exact (hn (c, n) (List.mem_cons_self _ _)).map (fun a b hab => by simpa using hab)
    · intro w hw1 hw2
      obtain ⟨w', -, rfl⟩ := List.mem_map.1 hw1
      obtain ⟨p, hp, w'', -, he⟩ := (mem_words_children m _).1 hw2
      simp only [List.cons.injEq] at he
      have : char_value c < char_value p.1 := hs'.1 p.1 (List.mem_map.2 ⟨p, hp, rfl⟩)
      exact absurd he.1 (ne_of_char_lt this)

/-- On a well-formed node the enumeration has no duplicates. -/
theorem nodup_words [plain_char] (n : Node T) (h : WF n) : (words n).Nodup := by
  induction h with
  | leaf d v => simp [words]
  | branch ch h1 h2 ih => exact nodup_words_children ch h1 ih
  | vbranch ch u h1 h2 ih =>
    rw [words, List.nodup_cons]
    exact ⟨nil_not_mem_words_children ch, nodup_words_children ch h1 ih⟩

/-! ## impl3: tries built by a sequence of inserts -/

theorem get_insert_isSome [plain_char] (moved : T → T) (t : trie T) (k : List Char) (v : T)
    (q : List Char) :
    (get (.branch (t.insert moved k v).root_) q).isSome = true ↔
      (get (.branch t.root_) q).isSome = true ∨ (q = k ∧ k ≠ []) := by
  by_cases hq : q = k
  · subst hq
    by_cases hk : q = []
    · subst hk
      simp [trie.insert]
    · obtain ⟨u, hu, -⟩ := get_insert_self moved t q v hk
      simp [hu, hk]
  · rw [get_insert_ne moved t k v q hq]
    simp [hq]

theorem get_build_from_isSome [plain_char] (moved : T → T) (ops : List (List Char × T)) (t : trie T)
    (q : List Char) :
    (get (.branch (ops.foldl (fun t op => t.insert moved op.1 op.2) t).root_) q).isSome = true ↔
      (get (.branch t.root_) q).isSome = true ∨ (q ≠ [] ∧ q ∈ ops.map Prod.fst) := by
  induction ops generalizing t with
  | nil => simp
  | cons op ops ih =>
    rw [List.foldl_cons, ih, get_insert_isSome]
    simp only [List.map_cons, List.mem_cons]
    constructor
    · rintro ((h | ⟨h1, h2⟩) | ⟨h1, h2⟩)
      · exact Or.inl h
      · exact Or.inr ⟨h1 ▸ h2, Or.inl h1⟩
      · exact Or.inr ⟨h1, Or.inr h2⟩
    · rintro (h | ⟨h1, h2 | h2⟩)
      · exact Or.inl (Or.inl h)
      · exact Or.inl (Or.inr ⟨h2, h2 ▸ h1⟩)
      · exact Or.inr ⟨h1, h2⟩

theorem get_empty (q : List Char) : get (.branch (trie.empty : trie T).root_) q = none := by
  cases q <;> simp [trie.empty, find]

/-- Membership in a trie built by inserts: exactly the non-empty inserted keys. -/
theorem exists_build_iff [plain_char] (moved : T → T) (ops : List (List Char × T)) (q : List Char) :
    (build moved ops).exists q = true ↔ q ≠ [] ∧ q ∈ ops.map Prod.fst := by
  rw [exists_eq, build, get_build_from_isSome, get_empty]
  simp only [Option.isSome_none, Bool.false_eq_true, false_or]

/-- With a value type whose move is a copy, a key keeps the value of its first
insert through every later insert. -/
theorem get_build_from_copy [plain_char] (ops : List (List Char × T)) (t : trie T) (K : List Char)
    (v : T)
    (h : get (.branch t.root_) K = some v) :
    get (.branch (ops.foldl (fun t op => t.insert id op.1 op.2) t).root_) K = some v := by
  induction ops generalizing t with
  | nil => exact h
  | cons op ops ih =>
    rw [List.foldl_cons]
    apply ih
    by_cases hk : K = op.1
    · by_cases hK : K = []
      · subst hK
        simp [← hk, trie.insert, h]
      · obtain ⟨u, hu, -, h3⟩ := get_insert_self id t K op.2 hK
        rw [← hk, hu]
        rcases h3 v h with e | e <;> simp [e]
    · rw [get_insert_ne id t op.1 op.2 K hk, h]

/-- The value round trip for a value type whose move is a copy (such as `int`):
`value_at` yields the value of the first insert of the key. -/
theorem value_at_first_insert_copy [plain_char] (pre post : List (List Char × T)) (K : List Char)
    (v x : T)
    (hK : K ≠ []) (hpre : K ∉ pre.map Prod.fst) :
    (build id (pre ++ (K, v) :: post)).value_at K x = (true, v) := by
  have h0 : get (.branch (build id pre).root_) K = none := by
    have := (exists_build_iff id pre K).not.2 (fun h => hpre h.2)
    rw [exists_eq] at this
    simpa using this
  have h1 : get (.branch ((build id pre).insert id K v).root_) K = some v := by
    obtain ⟨u, hu, h2, -⟩ := get_insert_self id (build id pre) K v hK
    rw [hu, h2 h0]
  have h2 := get_build_from_copy post _ K v h1
  rw [value_at_eq]
  simp only [build, List.foldl_append, List.foldl_cons] at h2 ⊢
  rw [h2]
  rfl

/-- C1. impl3 round trip for membership: after any sequence of inserts on the
empty trie, `exists(K)` is true for every non-empty key `K` of the sequence. -/
theorem exists_of_inserted [plain_char] (moved : T → T) (ops : List (List Char × T)) (K : List Char)
    (hK : K ≠ []) (hmem : K ∈ ops.map Prod.fst) :
    (build moved ops).exists K = true :=
  (exists_build_iff moved ops K).2 ⟨hK, hmem⟩

/-- Witness of C1: "cat" after inserting "cat", "bat" and "cake". -/
theorem exists_of_inserted_witness :
    (build moved_int [("cat".toList, 1), ("bat".toList, 2), ("cake".toList, 3)]).exists
      "cat".toList = true :=
  exists_of_inserted moved_int [("cat".toList, 1), ("bat".toList, 2), ("cake".toList, 3)]
    "cat".toList (by decide) (by decide)

/-- C2 (evaluation at the failing input). With `T = std::string`, inserting
("a", "x") and then ("a", "y") leaves the key "a" with the moved-from (empty)
value: `value_at("a")` returns true and writes "", not the value "x" of the
first insert. -/
theorem value_at_after_reinsert_of_leaf :
    ((trie.empty.insert moved_string ['a'] ['x']).insert moved_string ['a'] ['y']).value_at
      ['a'] ['z'] = (true, []) := by
  decide

/-- C3. impl3 negative lookup: after any sequence of inserts on the empty trie,
`exists(w)` is false for every string `w` that is not one of the inserted keys. -/
theorem not_exists_of_not_inserted [plain_char] (moved : T → T) (ops : List (List Char × T))
    (w : List Char) (hw : w ∉ ops.map Prod.fst) :
    (build moved ops).exists w = false := by
  have := (exists_build_iff moved ops w).not.2 (fun h => hw h.2)
  simpa using this

/-- Witness of C3: "ca" over the keys "cat" and "cake". -/
theorem not_exists_of_not_inserted_witness :
    (build moved_int [("cat".toList, 1), ("cake".toList, 3)]).exists "ca".toList = false :=
  not_exists_of_not_inserted moved_int [("cat".toList, 1), ("cake".toList, 3)] "ca".toList
    (by decide)

/-- C4. impl3 insert changes nothing but the inserted key: for a trie built by
inserts, a non-empty key `k`, a value `v` and a string `k'` other than `k`,
`exists(k')` and the result of `value_at(k')` (the flag and the content of the
output) are the same after `insert(k, v)` as before. -/
theorem insert_frame [plain_char] (moved : T → T) (ops : List (List Char × T)) (k : List Char)
    (v : T)
    (k' : List Char) (x : T) (_hk : k ≠ []) (hk' : k' ≠ k) :
    ((build moved ops).insert moved k v).exists k' = (build moved ops).exists k' ∧
      ((build moved ops).insert moved k v).value_at k' x = (build moved ops).value_at k' x := by
  simp only [exists_eq, value_at_eq, get_insert_ne moved (build moved ops) k v k' hk', and_self]

/-- Witness of C4: inserting "cake" into the trie of "cat" splits the leaf of
"cat" and leaves its lookup as it was. -/
theorem insert_frame_witness :
    ((build moved_int [("cat".toList, 1)]).insert moved_int "cake".toList 3).exists
        "cat".toList = (build moved_int [("cat".toList, 1)]).exists "cat".toList ∧
      ((build moved_int [("cat".toList, 1)]).insert moved_int "cake".toList 3).value_at
        "cat".toList 0 = (build moved_int [("cat".toList, 1)]).value_at "cat".toList 0 :=
  insert_frame moved_int [("cat".toList, 1)] "cake".toList 3 "cat".toList 0 (by decide)
    (by decide)

/-- On a trie built by inserts of non-empty keys, `get_words()` has no
duplicates and its elements are exactly the inserted keys. -/
theorem get_words_build [plain_char] (moved : T → T) (ops : List (List Char × T))
    (hne : ∀ k ∈ ops.map Prod.fst, k ≠ []) :
    (build moved ops).get_words.Nodup ∧
      (∀ w, w ∈ (build moved ops).get_words ↔ w ∈ ops.map Prod.fst) := by
  have hwf := wf_build moved ops
  refine ⟨?_, ?_⟩
  · rw [get_words_eq]; exact nodup_words _ hwf
  · intro w
    rw [get_words_eq, mem_words_iff _ hwf, ← exists_eq, exists_build_iff]
    exact ⟨fun h => h.2, fun h => ⟨hne w h, h⟩⟩

/-- A list without duplicates that has the elements of `ks` has as many
elements as `ks` has distinct ones. -/
theorem length_eq_dedup_length (l ks : List (List Char)) (hnd : l.Nodup)
    (hmem : ∀ w, w ∈ l ↔ w ∈ ks) : l.length = ks.dedup.length := by
  apply List.Perm.length_eq
  rw [List.perm_ext_iff_of_nodup hnd (List.nodup_dedup _)]
  intro w
  rw [hmem, List.mem_dedup]

/-- C5. impl3 enumeration is exact: after any sequence of inserts of non-empty
keys on the empty trie, `get_words()` has no duplicates, its elements are
exactly the inserted keys, and its length is the number of distinct inserted
keys. -/
theorem get_words_exact [plain_char] (moved : T → T) (ops : List (List Char × T))
    (hne : ∀ k ∈ ops.map Prod.fst, k ≠ []) :
    (build moved ops).get_words.Nodup ∧
      (∀ w, w ∈ (build moved ops).get_words ↔ w ∈ ops.map Prod.fst) ∧
      (build moved ops).get_words.length = (ops.map Prod.fst).dedup.length :=
  ⟨(get_words_build moved ops hne).1, (get_words_build moved ops hne).2,
    length_eq_dedup_length _ _ (get_words_build moved ops hne).1
      (get_words_build moved ops hne).2⟩

/-- Witness of C5: "cat", "cake" and "cat" again give two words. -/
theorem get_words_exact_witness :
    (build moved_int [("cat".toList, 1), ("cake".toList, 3), ("cat".toList, 5)]).get_words.Nodup ∧
      (∀ w, w ∈ (build moved_int
          [("cat".toList, 1), ("cake".toList, 3), ("cat".toList, 5)]).get_words ↔
        w ∈ [("cat".toList, (1 : Int)), ("cake".toList, 3), ("cat".toList, 5)].map Prod.fst) ∧
      (build moved_int [("cat".toList, 1), ("cake".toList, 3), ("cat".toList, 5)]).get_words.length
        = ([("cat".toList, (1 : Int)), ("cake".toList, 3), ("cat".toList, 5)].map
            Prod.fst).dedup.length :=
  get_words_exact moved_int [("cat".toList, 1), ("cake".toList, 3), ("cat".toList, 5)]
    (by decide)

/-- C6 (evaluation at the failing input). With `T = std::string`, the second
insert of ("a", _) changes the tree built by the first: the leaf under 'a'
carries the value "x" after one insert and the moved-from (empty) value after
two. -/
theorem reinsert_changes_leaf_value :
    (trie.empty.insert moved_string ['a'] ['x']).root_ = [('a', Node.leaf [] ['x'])] ∧
      ((trie.empty.insert moved_string ['a'] ['x']).insert moved_string ['a'] ['y']).root_ =
        [('a', Node.leaf [] [])] :=
  ⟨rfl, rfl⟩

end impl3

/-! ## impl2 as impl3 without values -/

namespace impl2

theorem chain_append2 (s t : List Char) (b : Node) :
    chain (s ++ t) b = chain s (chain t b) := by
  induction s with
  | nil => rfl
  | cons c s ih => simp [chain, ih]

theorem build_branches_eq2 (s : List Char) :
    build_branches s = (chain s (.branch [] false), s) := by
  induction s with
  | nil => rfl
  | cons c s ih => simp [build_branches, chain, ih]

theorem update_at_chain2 [plain_char] (f : Node → Node) (s : List Char) (b : Node) :
    update_at f s (chain s b) = chain s (f b) := by
  induction s with
  | nil => rfl
  | cons c s ih =>
    simp [chain, update_at, Node.children, find, Node.set_child, set, ih]

/-- The subtree `breakup_leaf` returns: the chain of the common part above the
fork. In the two cases that end in a word branch the chain is built for the
whole residue or the whole input, which is the common part. -/
theorem breakup_leaf_eq2 [plain_char] (p r1 r2 : List Char)
    (h : r1 = [] ∨ r2 = [] ∨ r1.head? ≠ r2.head?) :
    breakup_leaf (p ++ r1) (p ++ r2) = (fork r1 r2).map (chain p) := by
  have hm : mismatch (p ++ r1) (p ++ r2) = p.length := by
    induction p with
    | nil =>
      cases r1 with
      | nil => simp [mismatch]
      | cons a r1 =>
        cases r2 with
        | nil => simp [mismatch]
        | cons b r2 =>
          have : a ≠ b := by simpa using h
          simp [mismatch, this]
    | cons c p ih => simp [mismatch, ih]
  unfold breakup_leaf
  simp only [hm, List.drop_left, List.take_left]
  cases r1 with
  | nil =>
    cases r2 with
    | nil => simp [fork]
    | cons c2 t2 =>
      simp [fork, build_branches_eq2, update_at_chain2, Node.set_child, Node.set_is_word, set,
        make_leaf]
  | cons c1 t1 =>
    cases r2 with
    | nil =>
      simp [fork, build_branches_eq2, update_at_chain2, Node.set_child, Node.set_is_word, set,
        make_leaf]
    | cons c2 t2 =>
      simp [fork, build_branches_eq2, update_at_chain2, Node.set_child, make_leaf]
      rfl

theorem insert_visitor_leaf2 [plain_char] (r data : List Char) :
    insert_visitor r (.leaf data) =
      match breakup_leaf data r with
      | none => .leaf data
      | some n => n := by
  cases r <;> simp [insert_visitor]

end impl2

namespace impl3
variable {T : Type}

theorem find_erase (m : List (Char × Node T)) (c : Char) :
    find (erase_children m) c = (find m c).map erase := by
  induction m with
  | nil => rfl
  | cons p m ih =>
    obtain ⟨k, n⟩ := p
    by_cases h : c = k <;> simp [erase_children, find, h, ih]

theorem set_erase [plain_char] (m : List (Char × Node T)) (c : Char) (x : Node T) :
    set (erase_children m) c (erase x) = erase_children (set m c x) := by
  induction m with
  | nil => rfl
  | cons p m ih =>
    obtain ⟨k, n⟩ := p
    by_cases h1 : char_value c < char_value k
    · simp [erase_children, set, h1]
    · by_cases h2 : c = k <;> simp [erase_children, set, h1, h2, ih]

theorem erase_chain (p : List Char) (b : Node T) :
    erase (chain p b) = impl2.chain p (erase b) := by
  induction p with
  | nil => rfl
  | cons c p ih => simp [chain, impl2.chain, erase, erase_children, ih]

theorem erase_fork [plain_char] (r1 r2 : List Char) (lv v : T) :
    (fork r1 r2 lv v).map erase = impl2.fork r1 r2 := by
  cases r1 with
  | nil => cases r2 <;> simp [fork, impl2.fork, erase, erase_children]
  | cons c1 t1 =>
    cases r2 with
    | nil => simp [fork, impl2.fork, erase, erase_children]
    | cons c2 t2 =>
      simp only [fork, impl2.fork, Option.map_some', erase, Option.some.injEq,
        impl2.Node.branch.injEq, and_true]
      rw [← set_erase]
      rfl

theorem erase_breakup_leaf [plain_char] (data : List Char) (lv : T) (r : List Char) (v : T) :
    (breakup_leaf data lv r v).map erase = impl2.breakup_leaf data r := by
  obtain ⟨p, r1, r2, rfl, rfl, -, hd⟩ := mismatch_spec data r
  rw [breakup_leaf_eq p r1 r2 lv v hd, impl2.breakup_leaf_eq2 p r1 r2 hd, ← erase_fork r1 r2 lv v]
  cases fork r1 r2 lv v <;> simp [erase_chain]

/-- Erasing the values commutes with the insert visitor. -/
theorem erase_insert_visitor [plain_char] (moved : T → T) (r : List Char) (n : Node T) (v : T) :
    erase (insert_visitor moved r n v) = impl2.insert_visitor r (erase n) := by
  induction r generalizing n with
  | nil =>
    cases n with
    | leaf data lv =>
      rw [insert_visitor_leaf, erase, impl2.insert_visitor_leaf2, ← erase_breakup_leaf data lv [] v]
      cases breakup_leaf data lv [] v <;> simp [erase]
    | branch ch => simp [insert_visitor, impl2.insert_visitor, erase]
    | vbranch ch u => simp [insert_visitor, impl2.insert_visitor, erase]
  | cons c rest ih =>
    cases n with
    | leaf data lv =>
      rw [insert_visitor_leaf, erase, impl2.insert_visitor_leaf2,
        ← erase_breakup_leaf data lv (c :: rest) v]
      cases breakup_leaf data lv (c :: rest) v <;> simp [erase]
    | branch ch =>
      simp only [insert_visitor, impl2.insert_visitor, erase, find_erase]
      cases find ch c with
      | none => simp [erase, ← set_erase, make_leaf, impl2.make_leaf]
      | some next => simp [erase, ← set_erase, ih]
    | vbranch ch u =>
      simp only [insert_visitor, impl2.insert_visitor, erase, find_erase]
      cases find ch c with
      | none => simp [erase, ← set_erase, make_leaf, impl2.make_leaf]
      | some next => simp [erase, ← set_erase, ih]

theorem erase_insert [plain_char] (moved : T → T) (t : trie T) (k : List Char) (v : T) :
    (t.insert moved k v).erase = t.erase.insert k := by
  cases k with
  | nil => rfl
  | cons c rest =>
    simp only [trie.insert, impl2.trie.insert, trie.erase, find_erase]
    cases find t.root_ c with
    | none => simp [← set_erase, erase, make_leaf, impl2.make_leaf]
    | some first => simp [← set_erase, erase_insert_visitor]

theorem erase_build_from [plain_char] (moved : T → T) (ops : List (List Char × T)) (t : trie T) :
    (ops.foldl (fun t op => t.insert moved op.1 op.2) t).erase =
      (ops.map Prod.fst).foldl impl2.trie.insert t.erase := by
  induction ops generalizing t with
  | nil => rfl
  | cons op ops ih => simp [ih, erase_insert]

/-- The impl2 trie built from a list of keys is the impl3 trie built from the
same keys, with values erased. -/
theorem erase_build [plain_char] (moved : T → T) (ops : List (List Char × T)) :
    (build moved ops).erase = impl2.build (ops.map Prod.fst) :=
  erase_build_from moved ops trie.empty

mutual
theorem print_visitor_erase : ∀ (n : Node T) (s : List Char × List (List Char)),
    impl2.print_visitor (erase n) s = print_visitor n s
  | .leaf data _, s => by simp [erase, impl2.print_visitor, print_visitor]
  | .branch ch, s => by
    simp only [erase, impl2.print_visitor, print_visitor]
    exact print_children_erase ch s
  | .vbranch ch _, s => by
    simp only [erase, impl2.print_visitor, print_visitor]
    exact print_children_erase ch _
theorem print_children_erase : ∀ (m : List (Char × Node T)) (s : List Char × List (List Char)),
    impl2.print_children (erase_children m) s = print_children m s
  | [], s => by simp [erase_children, impl2.print_children, print_children]
  | (c, child) :: m, s => by
    simp only [erase_children, impl2.print_children, print_children]
    rw [print_visitor_erase child, print_children_erase m]
end

theorem get_words_erase (t : trie T) : t.erase.get_words = t.get_words := by
  simp only [impl2.trie.get_words, trie.get_words, trie.erase]
  exact congrArg Prod.snd (print_visitor_erase (.branch t.root_) ([], []))

end impl3

/-! ## impl2: `exists` -/

namespace impl2

theorem exists_next_eq (word : List Char) (oob : Nat → Char) (ch : List (Char × Node))
    (c : Char) (i : Nat) :
    exists_next word oob ch c i =
      match find ch c with
      | none => false
      | some next => exists_visitor word oob next i := by
  induction ch with
  | nil => simp [exists_next, find]
  | cons p m ih =>
    obtain ⟨k, n⟩ := p
    by_cases h : c = k <;> simp [exists_next, find, h, ih]

mutual
/-- Once `first` is past `last`, the visitor answers `false` whatever it reads. -/
theorem exists_visitor_past_end (word : List Char) (oob : Nat → Char) :
    ∀ (n : Node) (i : Nat), word.length < i → exists_visitor word oob n i = false
  | .leaf data, i, h => by
    have : ¬ ((data.length : Int) = (word.length : Int) - (i : Int)) := by omega
    simp [exists_visitor, this]
  | .branch ch w, i, h => by
    have : i ≠ word.length := by omega
    simp only [exists_visitor, this, false_and, if_false]
    exact exists_next_past_end word oob ch _ (i + 1) (by omega)
theorem exists_next_past_end (word : List Char) (oob : Nat → Char) :
    ∀ (m : List (Char × Node)) (c : Char) (i : Nat), word.length < i →
      exists_next word oob m c i = false
  | [], _, _, _ => by simp [exists_next]
  | (k, next) :: m, c, i, h => by
    simp only [exists_next]
    split
    · exact exists_visitor_past_end word oob next i h
    · exact exists_next_past_end word oob m c i h
end

end impl2

namespace impl3
variable {T : Type}

/-- The impl2 `exists_visitor` on the erased node, with `first` inside the word
or at its end, finds what the impl3 `lookup_visitor` finds, whatever the reads
from `std::end(word)` on deliver. -/
theorem exists_visitor_erase (word : List Char) (oob : Nat → Char) (rest : List Char) :
    ∀ (i : Nat) (n : Node T), word.drop i = rest → i ≤ word.length →
      impl2.exists_visitor word oob (erase n) i = (lookup_visitor rest n).isSome := by
  induction rest with
  | nil =>
    intro i n hd hi
    have hi' : i = word.length := by
      have := congrArg List.length hd
      simp at this
      omega
    cases n with
    | leaf data lv =>
      simp only [erase, impl2.exists_visitor, hd, lookup_visitor, hi']
      by_cases h : data = [] <;> simp [h]
    | branch ch =>
      simp only [erase, impl2.exists_visitor, lookup_visitor]
      simp only [Bool.false_eq_true, and_false, if_false, impl2.exists_next_eq, Option.isSome_none]
      cases find (erase_children ch) (impl2.char_at word oob i) with
      | none => rfl
      | some next => exact impl2.exists_visitor_past_end word oob next (i + 1) (by omega)
    | vbranch ch u => simp [erase, impl2.exists_visitor, lookup_visitor, hi']
  | cons c rest ih =>
    intro i n hd hi
    have hlen : i < word.length := by
      have := congrArg List.length hd
      simp at this
      omega
    have hc : impl2.char_at word oob i = c := by
      have h1 : word[i]? = some c := by
        rw [← List.head?_drop, hd]; rfl
      simp [impl2.char_at, List.getD, h1]
    have hd' : word.drop (i + 1) = rest := by
      rw [← List.drop_drop, hd]
      rfl
    cases n with
    | leaf data lv =>
      simp only [erase, impl2.exists_visitor, hd, lookup_visitor]
      have h1 : ((data.length : Int) = (word.length : Int) - (i : Int)) ↔
          data.length = (c :: rest).length := by
        have := congrArg List.length hd
        simp at this
        simp
        omega
      simp only [h1]
      by_cases h : data.length = (c :: rest).length ∧ data = List.take data.length (c :: rest)
      · simp only [if_pos h, Option.isSome_some, Bool.and_eq_true, decide_eq_true_eq]
        exact h
      · simp only [h, if_false, Option.isSome_none, Bool.and_eq_false_imp, decide_eq_true_eq,
          decide_eq_false_iff_not]
        intro h1 h2
        exact h ⟨h1, h2⟩
    | branch ch =>
      simp only [erase, impl2.exists_visitor, lookup_visitor]
      simp only [Bool.false_eq_true, and_false, if_false, impl2.exists_next_eq, hc, find_erase]
      cases find ch c with
      | none => rfl
      | some next => exact ih (i + 1) next hd' (by omega)
    | vbranch ch u =>
      have hne : i ≠ word.length := by omega
      simp only [erase, impl2.exists_visitor, lookup_visitor]
      simp only [hne, false_and, if_false, impl2.exists_next_eq, hc, find_erase]
      cases find ch c with
      | none => rfl
      | some next => exact ih (i + 1) next hd' (by omega)

theorem exists_erase (oob : Nat → Char) (t : trie T) (w : List Char) :
    t.erase.exists oob w = t.exists w := by
  cases w with
  | nil => rfl
  | cons c w =>
    simp only [impl2.trie.exists, trie.exists, trie.lookup_node_, trie.erase]
    exact exists_visitor_erase (c :: w) oob (c :: w) 0 (.branch t.root_) rfl (by simp)

end impl3

namespace impl2

/-! ## impl2: tries built by a sequence of inserts -/

/-- The impl2 trie built from `ws` is the erasure of an impl3 trie built from
the same keys. -/
theorem build_eq_erase [plain_char] (ws : List (List Char)) :
    build ws = (impl3.build id (ws.map (fun k => (k, ())))).erase := by
  rw [impl3.erase_build]
  simp [Function.comp_def]

theorem keys_of_unit_ops (ws : List (List Char)) :
    (ws.map (fun k => (k, ()))).map Prod.fst = ws := by
  simp [Function.comp_def]

/-- Membership in an impl2 trie built by inserts: exactly the non-empty
inserted keys, whatever the reads from `std::end(word)` on deliver. -/
theorem exists_build_iff2 [plain_char] (oob : Nat → Char) (ws : List (List Char)) (w : List Char) :
    (build ws).exists oob w = true ↔ w ≠ [] ∧ w ∈ ws := by
  rw [build_eq_erase, impl3.exists_erase, impl3.exists_build_iff, keys_of_unit_ops]

theorem get_words_build2 [plain_char] (ws : List (List Char)) (hne : ∀ k ∈ ws, k ≠ []) :
    (build ws).get_words.Nodup ∧ (∀ w, w ∈ (build ws).get_words ↔ w ∈ ws) := by
  have h := impl3.get_words_build id (ws.map (fun k => (k, ())))
    (by rw [keys_of_unit_ops]; exact hne)
  rw [keys_of_unit_ops] at h
  rw [build_eq_erase, impl3.get_words_erase]
  exact h

/-- C7. impl2 exact membership: after any sequence of inserts of non-empty keys
on the empty trie, `exists(w)` is true for a non-empty string `w` if and only
if `w` is one of the inserted keys; this holds whatever character the visitor
reads when it dereferences `first` at or after `std::end(word)`. -/
theorem exists_iff_inserted [plain_char] (oob : Nat → Char) (ws : List (List Char)) (w : List Char)
    (_hws : ∀ k ∈ ws, k ≠ []) (hw : w ≠ []) :
    (build ws).exists oob w = true ↔ w ∈ ws := by
  rw [exists_build_iff2]
  exact ⟨fun h => h.2, fun h => ⟨hw, h⟩⟩

/-- Witness of C7: "cat" over the keys "cat" and "cake", reads past the end
delivering the terminator. -/
theorem exists_iff_inserted_witness :
    (build ["cat".toList, "cake".toList]).exists (fun _ => Char.ofNat 0) "cat".toList = true ↔
      "cat".toList ∈ ["cat".toList, "cake".toList] :=
  exists_iff_inserted (fun _ => Char.ofNat 0) ["cat".toList, "cake".toList] "cat".toList
    (by decide) (by decide)

/-- C8. impl2 enumeration is exact: after any sequence of inserts of non-empty
keys on the empty trie, `get_words()` has no duplicates, its elements are
exactly the inserted keys, and its length is the number of distinct inserted
keys. -/
theorem get_words_exact2 [plain_char] (ws : List (List Char)) (hne : ∀ k ∈ ws, k ≠ []) :
    (build ws).get_words.Nodup ∧ (∀ w, w ∈ (build ws).get_words ↔ w ∈ ws) ∧
      (build ws).get_words.length = ws.dedup.length :=
  ⟨(get_words_build2 ws hne).1, (get_words_build2 ws hne).2,
    impl3.length_eq_dedup_length _ _ (get_words_build2 ws hne).1 (get_words_build2 ws hne).2⟩

/-- Witness of C8: "cat", "cake" and "cat" again give two words. -/
theorem get_words_exact2_witness :
    (build ["cat".toList, "cake".toList, "cat".toList]).get_words.Nodup ∧
      (∀ w, w ∈ (build ["cat".toList, "cake".toList, "cat".toList]).get_words ↔
        w ∈ ["cat".toList, "cake".toList, "cat".toList]) ∧
      (build ["cat".toList, "cake".toList, "cat".toList]).get_words.length =
        ["cat".toList, "cake".toList, "cat".toList].dedup.length :=
  get_words_exact2 ["cat".toList, "cake".toList, "cat".toList] (by decide)

end impl2
namespace impl1

/-! ## impl1: the trie with one node per character -/

theorem exists_from_new (q : List Char) : exists_from q trie_node_t_.new = false := by
  cases q <;> simp [exists_from, trie_node_t_.new, trie_node_t_.is_word, trie_node_t_.children,
    find]

/-- Lookup after the insert loop: the inserted word is found, every other word
is found exactly if it was before. -/
theorem exists_from_insert_from [plain_char] (k : List Char) (n : trie_node_t_) (q : List Char) :
    exists_from q (insert_from k n) = (decide (q = k) || exists_from q n) := by
  induction k generalizing n q with
  | nil =>
    obtain ⟨ch, w⟩ := n
    cases q with
    | nil => simp [insert_from, exists_from, trie_node_t_.is_word]
    | cons d q => simp [insert_from, exists_from, trie_node_t_.children]
  | cons c rest ih =>
    obtain ⟨ch, w⟩ := n
    cases q with
    | nil => simp [insert_from, exists_from, trie_node_t_.is_word]
    | cons d q =>
      simp only [insert_from, exists_from, trie_node_t_.children, find_set]
      by_cases hd : d = c
      · subst hd
        simp only [if_true, ih, List.cons.injEq, true_and]
        cases find ch d with
        | none => simp [exists_from_new]
        | some f => simp
      · simp [hd]

theorem wf_new [plain_char] : WF trie_node_t_.new :=
  WF.mk _ _ (by simp [keys]) (by simp)

theorem wf_insert_from [plain_char] (k : List Char) (n : trie_node_t_) (h : WF n) : WF
    (insert_from k n) := by
  induction k generalizing n with
  | nil =>
    cases h with
    | mk ch w h1 h2 => exact WF.mk _ _ h1 h2
  | cons c rest ih =>
    cases h with
    | mk ch w h1 h2 =>
      refine WF.mk _ _ (sorted_set _ _ _ h1) ?_
      intro p hp
      rcases mem_set _ _ _ _ hp with rfl | hp
      · apply ih
        cases hf : find ch c with
        | none => exact wf_new
        | some f => exact h2 _ (find_some_mem _ _ _ hf)
      · exact h2 p hp

theorem wf_build_from1 [plain_char] (ws : List (List Char)) (t : trie) (h : WF t.root_) :
    WF (ws.foldl trie.insert t).root_ := by
  induction ws generalizing t with
  | nil => exact h
  | cons k ws ih => exact ih _ (wf_insert_from k t.root_ h)

theorem exists_build_from1 [plain_char] (ws : List (List Char)) (t : trie) (q : List Char) :
    (ws.foldl trie.insert t).exists q = true ↔ t.exists q = true ∨ q ∈ ws := by
  induction ws generalizing t with
  | nil => simp
  | cons k ws ih =>
    rw [List.foldl_cons, ih]
    simp only [trie.exists, trie.insert, exists_from_insert_from, Bool.or_eq_true,
      decide_eq_true_eq, List.mem_cons]
    tauto

/-- Membership in an impl1 trie built by inserts: exactly the inserted words. -/
theorem exists_build_iff1 [plain_char] (ws : List (List Char)) (q : List Char) :
    (build ws).exists q = true ↔ q ∈ ws := by
  rw [build, exists_build_from1]
  simp [trie.exists, trie.empty, exists_from_new]

mutual
theorem get_words_impl_eq : ∀ (n : trie_node_t_) (acc : List (List Char)) (pfx : List Char),
    get_words_impl_ acc pfx n = acc ++ (words n).map (fun w => pfx ++ w)
  | .mk ch true, acc, pfx => by
    simp only [get_words_impl_, words, if_true]
    rw [get_words_children_eq ch _ pfx]
    simp
  | .mk ch false, acc, pfx => by
    simp only [get_words_impl_, words, Bool.false_eq_true, if_false]
    rw [get_words_children_eq ch _ pfx]
    simp
theorem get_words_children_eq : ∀ (m : List (Char × trie_node_t_)) (acc : List (List Char))
    (pfx : List Char),
    get_words_children acc pfx m = acc ++ (words_children m).map (fun w => pfx ++ w)
  | [], acc, pfx => by simp [get_words_children, words_children]
  | (c, child) :: m, acc, pfx => by
    simp only [get_words_children, words_children]
    rw [get_words_impl_eq child acc (pfx ++ [c]), get_words_children_eq m _ pfx]
    simp [List.map_append, Function.comp_def]
end

theorem get_words_foldl (m : List (Char × trie_node_t_)) (acc : List (List Char)) :
    m.foldl (fun ret child => get_words_impl_ ret [child.1] child.2) acc =
      acc ++ words_children m := by
  induction m generalizing acc with
  | nil => simp [words_children]
  | cons p m ih =>
    obtain ⟨c, n⟩ := p
    rw [List.foldl_cons, ih, get_words_impl_eq]
    simp [words_children]

theorem get_words_eq1 (t : trie) : t.get_words = words_children t.root_.children := by
  simp [trie.get_words, get_words_foldl]

theorem mem_words_children1 (ch : List (Char × trie_node_t_)) (w : List Char) :
    w ∈ words_children ch ↔ ∃ p ∈ ch, ∃ w' ∈ words p.2, w = p.1 :: w' := by
  induction ch with
  | nil => simp [words_children]
  | cons p m ih =>
    obtain ⟨c, n⟩ := p
    simp only [words_children, List.mem_append, List.mem_map, ih, List.mem_cons]
    constructor
    · rintro (⟨w', hw', rfl⟩ | ⟨p, hp, w', hw', rfl⟩)
      · exact ⟨(c, n), Or.inl rfl, w', hw', rfl⟩
      · exact ⟨p, Or.inr hp, w', hw', rfl⟩
    · rintro ⟨p, rfl | hp, w', hw', rfl⟩
      · exact Or.inl ⟨w', hw', rfl⟩
      · exact Or.inr ⟨p, hp, w', hw', rfl⟩

theorem mem_words_children_cons1 [plain_char] (ch : List (Char × trie_node_t_))
    (hs : (keys ch).Pairwise (fun a b => char_value a < char_value b)) (c : Char) (w : List Char) :
    c :: w ∈ words_children ch ↔ ∃ n, find ch c = some n ∧ w ∈ words n := by
  rw [mem_words_children1]
  constructor
  · rintro ⟨⟨k, n⟩, hp, w', hw', he⟩
    simp only [List.cons.injEq] at he
    obtain ⟨rfl, rfl⟩ := he
    exact ⟨n, (mem_iff_find ch c n hs).1 hp, hw'⟩
  · rintro ⟨n, hf, hw⟩
    exact ⟨(c, n), find_some_mem ch c n hf, w, hw, rfl⟩

theorem nil_not_mem_words_children1 (ch : List (Char × trie_node_t_)) :
    [] ∉ words_children ch := by
  rw [mem_words_children1]
  rintro ⟨p, -, w', -, he⟩
  cases he

/-- On a well-formed node the enumeration and the lookup agree. -/
theorem mem_words_iff1 [plain_char] (n : trie_node_t_) (h : WF n) :
    ∀ w, w ∈ words n ↔ exists_from w n = true := by
  induction h with
  | mk ch iw h1 h2 ih =>
    intro w
    cases w with
    | nil =>
      cases iw <;>
        simp [words, exists_from, trie_node_t_.is_word, nil_not_mem_words_children1]
    | cons c w =>
      have hnil : c :: w ∉ (if iw = true then [[]] else ([] : List (List Char))) := by
        cases iw <;> simp
      rw [words, List.mem_append, mem_words_children_cons1 ch h1]
      simp only [hnil, false_or, exists_from, trie_node_t_.children]
      cases hf : find ch c with
      | none => simp
      | some n => simp [ih (c, n) (find_some_mem ch c n hf) w]

/-- The words enumerated from an impl1 trie built by inserts of non-empty words
are exactly the inserted words. -/
theorem mem_get_words_build1 [plain_char] (ws : List (List Char)) (hne : ∀ k ∈ ws, k ≠ [])
    (w : List Char) :
    w ∈ (build ws).get_words ↔ w ∈ ws := by
  have hwf : WF (build ws).root_ := wf_build_from1 ws trie.empty wf_new
  refine Iff.trans ?_ (exists_build_iff1 ws w)
  rw [get_words_eq1, trie.exists]
  rcases hroot : (build ws).root_ with ⟨ch, iw⟩
  rw [hroot] at hwf
  cases hwf with
  | mk _ _ h1 h2 =>
    cases w with
    | nil =>
      have h0 : ¬ ((build ws).exists [] = true) := by
        rw [exists_build_iff1]
        exact fun h => hne [] h rfl
      rw [trie.exists, hroot] at h0
      simp only [trie_node_t_.children, nil_not_mem_words_children1, false_iff]
      exact h0
    | cons c w =>
      rw [trie_node_t_.children, mem_words_children_cons1 ch h1]
      simp only [exists_from, trie_node_t_.children]
      cases hf : find ch c with
      | none => simp
      | some n => simp [mem_words_iff1 n (h2 _ (find_some_mem ch c n hf)) w]

end impl1
namespace impl3
variable {T : Type}

/-! ## impl3: `prefix_match` -/

/-- What `lookup_prefix_visitor` finds: the node `n'` reached from `n` by the
consumed part of the input; a leaf comes with the unconsumed rest, which starts
its residue, and a branch or value-branch with no rest. -/
theorem lookup_prefix_visitor_spec (q : List Char) (n n' : Node T) (rest : List Char)
    (h : lookup_prefix_visitor q n = (some n', rest)) :
    ∃ consumed, q = consumed ++ rest ∧
      (∀ tail, lookup_visitor (consumed ++ tail) n = lookup_visitor tail n') ∧
      ((∃ data v, n' = .leaf data v ∧ rest <+: data) ∨
        ((∀ data v, n' ≠ .leaf data v) ∧ rest = [])) := by
  induction q generalizing n with
  | nil =>
    cases n with
    | leaf data v =>
      simp only [lookup_prefix_visitor] at h
      split at h
      · simp only [Prod.mk.injEq, Option.some.injEq] at h
        obtain ⟨rfl, rfl⟩ := h
        exact ⟨[], rfl, fun _ => rfl, Or.inl ⟨data, v, rfl, List.nil_prefix⟩⟩
      · simp at h
    | branch ch =>
      simp only [lookup_prefix_visitor, Prod.mk.injEq, Option.some.injEq] at h
      obtain ⟨rfl, rfl⟩ := h
      exact ⟨[], rfl, fun _ => rfl, Or.inr ⟨by simp, rfl⟩⟩
    | vbranch ch u =>
      simp only [lookup_prefix_visitor, Prod.mk.injEq, Option.some.injEq] at h
      obtain ⟨rfl, rfl⟩ := h
      exact ⟨[], rfl, fun _ => rfl, Or.inr ⟨by simp, rfl⟩⟩
  | cons c q ih =>
    cases n with
    | leaf data v =>
      simp only [lookup_prefix_visitor] at h
      split at h
      · rename_i hc
        simp only [Prod.mk.injEq, Option.some.injEq] at h
        obtain ⟨rfl, rfl⟩ := h
        refine ⟨[], rfl, fun _ => rfl, Or.inl ⟨data, v, rfl, ?_⟩⟩
        rw [hc.2]
        exact List.take_prefix _ _
      · simp at h
    | branch ch =>
      simp only [lookup_prefix_visitor] at h
      cases hf : find ch c with
      | none => simp [hf] at h
      | some next =>
        simp only [hf] at h
        obtain ⟨consumed, h1, h2, h3⟩ := ih next h
        refine ⟨c :: consumed, by simp [h1], ?_, h3⟩
        intro tail
        simp [lookup_visitor, hf, h2]
    | vbranch ch u =>
      simp only [lookup_prefix_visitor] at h
      cases hf : find ch c with
      | none => simp [hf] at h
      | some next =>
        simp only [hf] at h
        obtain ⟨consumed, h1, h2, h3⟩ := ih next h
        refine ⟨c :: consumed, by simp [h1], ?_, h3⟩
        intro tail
        simp [lookup_visitor, hf, h2]

theorem lookup_visitor_leaf_self (data : List Char) (v : T) :
    lookup_visitor data (.leaf data v) = some (.leaf data v) := by
  cases data <;> simp [lookup_visitor]

/-- What `prefix_match_visitor` appends to `match` is a key stored below the
node it starts from. -/
theorem prefix_match_visitor_spec : ∀ (n : Node T) (m : List Char) (b : Bool) (out : List Char),
    prefix_match_visitor n m = some (b, out) →
      b = true ∧ ∃ ext, out = m ++ ext ∧ (lookup_visitor ext n).isSome = true
  | .branch [], m, b, out, h => by simp [prefix_match_visitor] at h
  | .branch ((k, next) :: rest), m, b, out, h => by
    simp only [prefix_match_visitor] at h
    obtain ⟨hb, ext, h1, h2⟩ := prefix_match_visitor_spec next (m ++ [k]) b out h
    refine ⟨hb, k :: ext, by simp [h1], ?_⟩
    simpa [lookup_visitor, find] using h2
  | .vbranch ch u, m, b, out, h => by
    simp only [prefix_match_visitor, Option.some.injEq, Prod.mk.injEq] at h
    exact ⟨h.1.symm, [], by simp [h.2], by simp [lookup_visitor]⟩
  | .leaf data v, m, b, out, h => by
    simp only [prefix_match_visitor, Option.some.injEq, Prod.mk.injEq] at h
    exact ⟨h.1.symm, data, h.2.symm, by simp [lookup_visitor_leaf_self]⟩

/-- Soundness of `prefix_match` on every trie: a reported match starts with the
prefix and is a stored key. -/
theorem prefix_match_sound_any (t : trie T) (p m0 m : List Char)
    (h : t.prefix_match p m0 = some (true, m)) : p <+: m ∧ t.exists m = true := by
  unfold trie.prefix_match at h
  cases p with
  | nil => simp [trie.lookup_node_prefix_] at h
  | cons c p =>
    simp only [trie.lookup_node_prefix_] at h
    rcases hl : lookup_prefix_visitor (c :: p) (.branch t.root_) with ⟨node, rest⟩
    rw [hl] at h
    cases node with
    | none => simp at h
    | some n' =>
      simp only at h
      obtain ⟨consumed, h1, h2, h3⟩ := lookup_prefix_visitor_spec _ _ _ _ hl
      have htake : List.take ((c :: p).length - rest.length) (c :: p) = consumed := by
        rw [h1]
        simp
      rw [htake] at h
      obtain ⟨-, ext, hm, hext⟩ := prefix_match_visitor_spec n' consumed true m h
      have hex : t.exists m = true := by
        rw [trie.exists, lookup_node_eq, hm, h2 ext]
        exact hext
      refine ⟨?_, hex⟩
      rw [h1, hm]
      rcases h3 with ⟨data, v, rfl, hpre⟩ | ⟨hnl, rfl⟩
      · have : ext = data := by
          simp only [prefix_match_visitor, Option.some.injEq, Prod.mk.injEq, true_and] at h
          rw [hm] at h
          exact (List.append_cancel_left h).symm
        rw [this]
        exact (List.prefix_append_right_inj consumed).2 hpre
      · simp

/-- C10. impl3 `prefix_match` is sound: on a trie built by inserts, for every
prefix `p` and every initial content `m0` of the output string, if
`prefix_match(p, m)` returns true then afterwards `m` starts with `p` and
`exists(m)` is true. -/
theorem prefix_match_sound [plain_char] (moved : T → T) (ops : List (List Char × T))
    (p m0 m : List Char)
    (h : (build moved ops).prefix_match p m0 = some (true, m)) :
    p <+: m ∧ (build moved ops).exists m = true :=
  prefix_match_sound_any (build moved ops) p m0 m h

/-- Witness of C10: over "bat" and "bake" the prefix "ba" yields "bake", with
the output string holding "zz" before the call. -/
theorem prefix_match_sound_witness :
    (build moved_int [("bat".toList, 1), ("bake".toList, 2)]).prefix_match "ba".toList
        "zz".toList = some (true, "bake".toList) ∧
      "ba".toList <+: "bake".toList ∧
      (build moved_int [("bat".toList, 1), ("bake".toList, 2)]).exists "bake".toList = true :=
  ⟨by decide,
    prefix_match_sound moved_int [("bat".toList, 1), ("bake".toList, 2)] "ba".toList
      "zz".toList "bake".toList (by decide)⟩

end impl3

/-! ## The three implementations side by side -/

/-- C9. Set equivalence with the naive oracle: for pairwise distinct non-empty
keys inserted in the same order into impl1, impl2 and impl3 (with any values),
the three `get_words()` results have the same elements. -/
theorem get_words_same_set {T : Type} [plain_char] (moved : T → T) (ops : List (List Char × T))
    (_hnd : (ops.map Prod.fst).Nodup) (hne : ∀ k ∈ ops.map Prod.fst, k ≠ []) (w : List Char) :
    (w ∈ (impl1.build (ops.map Prod.fst)).get_words ↔
        w ∈ (impl2.build (ops.map Prod.fst)).get_words) ∧
      (w ∈ (impl2.build (ops.map Prod.fst)).get_words ↔
        w ∈ (impl3.build moved ops).get_words) := by
  rw [impl1.mem_get_words_build1 _ hne, (impl2.get_words_build2 _ hne).2,
    (impl3.get_words_build moved ops hne).2]
  exact ⟨Iff.rfl, Iff.rfl⟩

/-- Witness of C9: the keys "cat", "bat" and "cake", looking at "cake". -/
theorem get_words_same_set_witness :
    ("cake".toList ∈ (impl1.build ([("cat".toList, (1 : Int)), ("bat".toList, 2),
          ("cake".toList, 3)].map Prod.fst)).get_words ↔
        "cake".toList ∈ (impl2.build ([("cat".toList, (1 : Int)), ("bat".toList, 2),
          ("cake".toList, 3)].map Prod.fst)).get_words) ∧
      ("cake".toList ∈ (impl2.build ([("cat".toList, (1 : Int)), ("bat".toList, 2),
          ("cake".toList, 3)].map Prod.fst)).get_words ↔
        "cake".toList ∈ (impl3.build impl3.moved_int [("cat".toList, 1), ("bat".toList, 2),
          ("cake".toList, 3)]).get_words) :=
  get_words_same_set impl3.moved_int [("cat".toList, 1), ("bat".toList, 2), ("cake".toList, 3)]
    (by decide) (by decide) "cake".toList

theorem set_set {β : Type} [plain_char] (m : List (Char × β)) (c : Char) (x y : β) :
    set (set m c x) c y = set m c y := by
  induction m with
  | nil => simp [set]
  | cons p m ih =>
    obtain ⟨k, z⟩ := p
    by_cases h1 : char_value c < char_value k
    · simp [set, h1]
    · by_cases h2 : c = k
      · subst h2; simp [set]
      · simp [set, h1, h2, ih]

namespace impl3
variable {T : Type}

/-! ## impl3: a second insert of the same key -/

theorem insert_visitor_chain [plain_char] (moved : T → T) (p r : List Char) (b : Node T) (v : T) :
    insert_visitor moved (p ++ r) (chain p b) v = chain p (insert_visitor moved r b v) := by
  induction p with
  | nil => rfl
  | cons c p ih => simp [chain, insert_visitor, find, set, ih]

theorem insert_visitor_leaf_self [plain_char] (moved : T → T) (data : List Char) (lv v : T) :
    insert_visitor moved data (.leaf data lv) v = .leaf data (moved lv) := by
  rw [insert_visitor_leaf, (breakup_leaf_eq_none data lv data v).2 rfl]

theorem insert_visitor_fork [plain_char] (r1 r2 : List Char) (lv v v' : T) (b : Node T)
    (h : fork r1 r2 lv v = some b) : insert_visitor id r2 b v' = b := by
  cases r1 with
  | nil =>
    cases r2 with
    | nil => simp [fork] at h
    | cons c2 t2 =>
      simp only [fork, Option.some.injEq] at h; subst h
      simp [insert_visitor, find, set, insert_visitor_leaf_self]
  | cons c1 t1 =>
    cases r2 with
    | nil =>
      simp only [fork, Option.some.injEq] at h; subst h
      simp [insert_visitor]
    | cons c2 t2 =>
      simp only [fork, Option.some.injEq] at h; subst h
      simp [insert_visitor, find_set, set_set, insert_visitor_leaf_self]

theorem insert_visitor_leaf_twice [plain_char] (r data : List Char) (lv v v' : T) :
    insert_visitor id r (insert_visitor id r (.leaf data lv) v) v' =
      insert_visitor id r (.leaf data lv) v := by
  rw [insert_visitor_leaf]
  cases hb : breakup_leaf data lv r v with
  | none =>
    have := (breakup_leaf_eq_none data lv r v).1 hb
    subst this
    simp [insert_visitor_leaf_self]
  | some n' =>
    obtain ⟨p, r1, r2, rfl, rfl, -, hd⟩ := mismatch_spec data r
    rw [breakup_leaf_eq p r1 r2 lv v hd] at hb
    cases hf : fork r1 r2 lv v with
    | none => simp [hf] at hb
    | some b =>
      simp only [hf, Option.map_some', Option.some.injEq] at hb
      subst hb
      simp only
      rw [insert_visitor_chain, insert_visitor_fork r1 r2 lv v v' b hf]

/-- With a value type whose move is a copy, the insert visitor changes nothing
when it runs a second time with the same key. -/
theorem insert_visitor_twice_copy [plain_char] (r : List Char) (n : Node T) (v v' : T) :
    insert_visitor id r (insert_visitor id r n v) v' = insert_visitor id r n v := by
  induction r generalizing n with
  | nil =>
    cases n with
    | leaf data lv => exact insert_visitor_leaf_twice [] data lv v v'
    | branch ch => simp [insert_visitor]
    | vbranch ch u => simp [insert_visitor]
  | cons c rest ih =>
    cases n with
    | leaf data lv => exact insert_visitor_leaf_twice (c :: rest) data lv v v'
    | branch ch =>
      cases hf : find ch c with
      | none => simp [insert_visitor, hf, find_set, set_set, make_leaf, insert_visitor_leaf_self]
      | some next => simp [insert_visitor, hf, find_set, set_set, ih]
    | vbranch ch u =>
      cases hf : find ch c with
      | none => simp [insert_visitor, hf, find_set, set_set, make_leaf, insert_visitor_leaf_self]
      | some next => simp [insert_visitor, hf, find_set, set_set, ih]

/-- With a value type whose move is a copy (such as `int`), a second insert of
a key leaves the trie as the first insert made it, whatever the values. -/
theorem insert_twice_copy [plain_char] (t : trie T) (k : List Char) (v v' : T) :
    (t.insert id k v).insert id k v' = t.insert id k v := by
  cases k with
  | nil => rfl
  | cons c rest =>
    have h := insert_visitor_twice_copy (c :: rest) (.branch t.root_) v v'
    rw [← trie_insert_root, ← trie_insert_root] at h
    cases h1 : (t.insert id (c :: rest) v).insert id (c :: rest) v' with
    | mk r1 =>
      cases h2 : t.insert id (c :: rest) v with
      | mk r2 =>
        rw [h1, h2] at h
        simp only [Node.branch.injEq] at h
        rw [h]

/-! ## impl3: `prefix_match` on stored keys, failing queries, the empty key -/

/-- On a stored key the prefix lookup finds the node of the key, and the visitor
completes the consumed part to the key itself. -/
theorem prefix_match_of_lookup (k : List Char) (n : Node T) (acc : List Char)
    (h : (lookup_visitor k n).isSome = true) :
    ∃ n' rest consumed, lookup_prefix_visitor k n = (some n', rest) ∧ k = consumed ++ rest ∧
      prefix_match_visitor n' (acc ++ consumed) = some (true, acc ++ k) := by
  induction k generalizing n acc with
  | nil =>
    cases n with
    | leaf data v =>
      have hd : data = [] := by
        by_cases hd : data = []
        · exact hd
        · simp [lookup_visitor, hd] at h
      subst hd
      exact ⟨.leaf [] v, [], [], by simp [lookup_prefix_visitor], rfl,
        by simp [prefix_match_visitor]⟩
    | branch ch => simp [lookup_visitor] at h
    | vbranch ch u =>
      exact ⟨.vbranch ch u, [], [], by simp [lookup_prefix_visitor], rfl,
        by simp [prefix_match_visitor]⟩
  | cons c k ih =>
    cases n with
    | leaf data v =>
      have hd : data = c :: k := by
        by_cases hd : data.length = (c :: k).length ∧ data = List.take data.length (c :: k)
        · exact (leaf_test_iff data (c :: k)).1 hd
        · simp only [lookup_visitor, hd, if_false, Option.isSome_none] at h
          cases h
      subst hd
      exact ⟨.leaf (c :: k) v, c :: k, [], by simp [lookup_prefix_visitor], rfl,
        by simp [prefix_match_visitor]⟩
    | branch ch =>
      simp only [lookup_visitor] at h
      cases hf : find ch c with
      | none => simp [hf] at h
      | some next =>
        simp only [hf] at h
        obtain ⟨n', rest, consumed, h1, h2, h3⟩ := ih next (acc ++ [c]) h
        refine ⟨n', rest, c :: consumed, by simp [lookup_prefix_visitor, hf, h1], by simp [h2], ?_⟩
        simpa using h3
    | vbranch ch u =>
      simp only [lookup_visitor] at h
      cases hf : find ch c with
      | none => simp [hf] at h
      | some next =>
        simp only [hf] at h
        obtain ⟨n', rest, consumed, h1, h2, h3⟩ := ih next (acc ++ [c]) h
        refine ⟨n', rest, c :: consumed, by simp [lookup_prefix_visitor, hf, h1], by simp [h2], ?_⟩
        simpa using h3

/-- On every trie, `prefix_match` of a stored key yields that key. -/
theorem prefix_match_of_exists (t : trie T) (K m0 : List Char) (h : t.exists K = true) :
    t.prefix_match K m0 = some (true, K) := by
  cases K with
  | nil => simp [trie.exists, trie.lookup_node_] at h
  | cons c K =>
    rw [trie.exists, lookup_node_eq] at h
    obtain ⟨n', rest, consumed, h1, h2, h3⟩ :=
      prefix_match_of_lookup (c :: K) (.branch t.root_) [] h
    simp only [trie.prefix_match, trie.lookup_node_prefix_, h1]
    have htake : List.take ((c :: K).length - rest.length) (c :: K) = consumed := by
      rw [h2]
      simp
    rw [htake]
    simpa using h3

/-- On every trie, a `prefix_match` that returns `false` leaves the output as it
was. -/
theorem prefix_match_false_any (t : trie T) (p m0 m : List Char)
    (h : t.prefix_match p m0 = some (false, m)) : m = m0 := by
  unfold trie.prefix_match at h
  rcases hl : t.lookup_node_prefix_ p with ⟨node, rest⟩
  rw [hl] at h
  cases node with
  | none =>
    simp only [Option.some.injEq, Prod.mk.injEq, true_and] at h
    exact h.symm
  | some n' =>
    simp only at h
    have := (prefix_match_visitor_spec n' _ false m h).1
    cases this

/-- C13. impl3 `prefix_match` on a complete key returns that key: on a trie built
by inserts, for every stored key `K` (a non-empty inserted key) and every
initial content of the output, `prefix_match(K, m)` returns true with
`m == K`. -/
theorem prefix_match_stored_key [plain_char] (moved : T → T) (ops : List (List Char × T))
    (K m0 : List Char) (hK : K ≠ []) (hmem : K ∈ ops.map Prod.fst) :
    (build moved ops).prefix_match K m0 = some (true, K) :=
  prefix_match_of_exists _ K m0 ((exists_build_iff moved ops K).2 ⟨hK, hmem⟩)

/-- Witness of C13: the key "ca" over "cat", "ca" and "cake", where other keys
extend it. -/
theorem prefix_match_stored_key_witness :
    (build moved_int [("cat".toList, 1), ("ca".toList, 2), ("cake".toList, 3)]).prefix_match
      "ca".toList "zz".toList = some (true, "ca".toList) :=
  prefix_match_stored_key moved_int [("cat".toList, 1), ("ca".toList, 2), ("cake".toList, 3)]
    "ca".toList "zz".toList (by decide) (by decide)

/-- C14. impl3 `prefix_match` leaves the output untouched on failure: on every
trie and for every prefix `p`, if `prefix_match(p, m)` returns false then `m`
has the content it had before the call. -/
theorem prefix_match_false_keeps_output (t : trie T) (p m0 m : List Char)
    (h : t.prefix_match p m0 = some (false, m)) : m = m0 :=
  prefix_match_false_any t p m0 m h

/-- Witness of C14: the prefix "zz" over "bat" and "bake", with the output
holding "old" before the call. -/
theorem prefix_match_false_keeps_output_witness :
    (build moved_int [("bat".toList, 1), ("bake".toList, 2)]).prefix_match "zz".toList
        "old".toList = some (false, "old".toList) ∧ "old".toList = "old".toList :=
  ⟨by decide,
    prefix_match_false_keeps_output (build moved_int [("bat".toList, 1), ("bake".toList, 2)])
      "zz".toList "old".toList "old".toList (by decide)⟩

/-- C17. impl3 `value_at` on a missing key: on a trie built by inserts, for a
string `w` that is empty or not one of the inserted keys, `value_at(w, x)`
returns false and leaves `x` as it was. -/
theorem value_at_missing [plain_char] (moved : T → T) (ops : List (List Char × T)) (w : List Char)
    (x : T)
    (hw : w = [] ∨ w ∉ ops.map Prod.fst) :
    (build moved ops).value_at w x = (false, x) := by
  have h : ¬ ((build moved ops).exists w = true) := by
    rw [exists_build_iff]
    rintro ⟨h1, h2⟩
    rcases hw with hw | hw
    · exact h1 hw
    · exact hw h2
  rw [exists_eq] at h
  rw [value_at_eq]
  cases hg : get (.branch (build moved ops).root_) w with
  | none => rfl
  | some u => simp [hg] at h

/-- Witness of C17: "catt" over "cat" and "cake". -/
theorem value_at_missing_witness :
    (build moved_int [("cat".toList, 1), ("cake".toList, 3)]).value_at "catt".toList 0 =
      (false, 0) :=
  value_at_missing moved_int [("cat".toList, 1), ("cake".toList, 3)] "catt".toList 0
    (Or.inr (by decide))

end impl3

/-- C18. Inserting the empty key is a no-op in the compressed tries: for every
impl2 trie `t2`, `insert("")` gives `t2` back, and for every impl3 trie `t3`
and value `v`, `insert("", v)` gives `t3` back. -/
theorem insert_empty_key {T : Type} [plain_char] (moved : T → T) (t2 : impl2.trie)
    (t3 : impl3.trie T)
    (v : T) : t2.insert [] = t2 ∧ t3.insert moved [] v = t3 :=
  ⟨rfl, rfl⟩

/-- C19. Empty-key queries always fail in the compressed tries: on every impl3
trie `exists("")`, `value_at("", x)` and `prefix_match("", m)` return false
(leaving `x` and `m` as they were), and on every impl2 trie `exists("")` and
`prefix_match("", m)` return false. -/
theorem empty_key_queries {T : Type} (t3 : impl3.trie T) (t2 : impl2.trie) (x : T)
    (m : List Char) (oob : Nat → Char) :
    t3.exists [] = false ∧ t3.value_at [] x = (false, x) ∧
      t3.prefix_match [] m = some (false, m) ∧
      t2.exists oob [] = false ∧ t2.prefix_match [] m = some (false, m) :=
  ⟨rfl, rfl, rfl, rfl, rfl⟩

theorem set_ne_nil {β : Type} [plain_char] (m : List (Char × β)) (c : Char) (x : β) : set m c x ≠
    [] := by
  cases m with
  | nil => simp [set]
  | cons p m =>
    obtain ⟨k, y⟩ := p
    simp only [set]
    split
    · simp
    · split <;> simp

namespace impl3
variable {T : Type}

/-! ## impl3: no plain branch is left without children -/

theorem neb_chain (p : List Char) (b : Node T) (h : NoEmptyBranch b) :
    NoEmptyBranch (chain p b) := by
  induction p with
  | nil => exact h
  | cons c p ih =>
    refine NoEmptyBranch.branch _ (by simp) ?_
    intro q hq
    simp only [List.mem_singleton] at hq
    subst hq
    exact ih

theorem neb_fork [plain_char] (r1 r2 : List Char) (lv v : T) (b : Node T)
    (h : fork r1 r2 lv v = some b) :
    NoEmptyBranch b := by
  cases r1 with
  | nil =>
    cases r2 with
    | nil => simp [fork] at h
    | cons c2 t2 =>
      simp only [fork, Option.some.injEq] at h; subst h
      refine NoEmptyBranch.vbranch _ _ ?_
      intro q hq
      simp only [List.mem_singleton] at hq
      subst hq
      exact NoEmptyBranch.leaf _ _
  | cons c1 t1 =>
    cases r2 with
    | nil =>
      simp only [fork, Option.some.injEq] at h; subst h
      refine NoEmptyBranch.vbranch _ _ ?_
      intro q hq
      simp only [List.mem_singleton] at hq
      subst hq
      exact NoEmptyBranch.leaf _ _
    | cons c2 t2 =>
      simp only [fork, Option.some.injEq] at h; subst h
      refine NoEmptyBranch.branch _ (set_ne_nil _ _ _) ?_
      intro q hq
      rcases mem_set _ _ _ _ hq with rfl | hq
      · exact NoEmptyBranch.leaf _ _
      · simp only [List.mem_singleton] at hq
        subst hq
        exact NoEmptyBranch.leaf _ _

theorem neb_breakup_leaf [plain_char] (data : List Char) (lv : T) (r : List Char) (v : T)
    (n : Node T)
    (h : breakup_leaf data lv r v = some n) : NoEmptyBranch n := by
  obtain ⟨p, r1, r2, rfl, rfl, -, hd⟩ := mismatch_spec data r
  rw [breakup_leaf_eq p r1 r2 lv v hd] at h
  cases hf : fork r1 r2 lv v with
  | none => simp [hf] at h
  | some b =>
    simp only [hf, Option.map_some', Option.some.injEq] at h
    subst h
    exact neb_chain p b (neb_fork r1 r2 lv v b hf)

theorem neb_children_set [plain_char] (ch : List (Char × Node T)) (c : Char) (x : Node T)
    (hch : ∀ p ∈ ch, NoEmptyBranch p.2) (hx : NoEmptyBranch x) :
    ∀ p ∈ set ch c x, NoEmptyBranch p.2 := by
  intro p hp
  rcases mem_set _ _ _ _ hp with rfl | hp
  · exact hx
  · exact hch p hp

theorem neb_insert_visitor [plain_char] (moved : T → T) (r : List Char) (n : Node T) (v : T)
    (h : NoEmptyBranch n) : NoEmptyBranch (insert_visitor moved r n v) := by
  induction r generalizing n with
  | nil =>
    cases h with
    | leaf data lv =>
      rw [insert_visitor_leaf]
      cases hb : breakup_leaf data lv [] v with
      | none => exact NoEmptyBranch.leaf _ _
      | some n' => exact neb_breakup_leaf _ _ _ _ _ hb
    | branch ch h1 h2 => exact NoEmptyBranch.vbranch _ _ h2
    | vbranch ch u h2 => exact NoEmptyBranch.vbranch _ _ h2
  | cons c rest ih =>
    cases h with
    | leaf data lv =>
      rw [insert_visitor_leaf]
      cases hb : breakup_leaf data lv (c :: rest) v with
      | none => exact NoEmptyBranch.leaf _ _
      | some n' => exact neb_breakup_leaf _ _ _ _ _ hb
    | branch ch h1 h2 =>
      cases hf : find ch c with
      | none =>
        simp only [insert_visitor, hf]
        exact NoEmptyBranch.branch _ (set_ne_nil _ _ _)
          (neb_children_set _ _ _ h2 (NoEmptyBranch.leaf _ _))
      | some next =>
        simp only [insert_visitor, hf]
        exact NoEmptyBranch.branch _ (set_ne_nil _ _ _)
          (neb_children_set _ _ _ h2 (ih next (h2 _ (find_some_mem _ _ _ hf))))
    | vbranch ch u h2 =>
      cases hf : find ch c with
      | none =>
        simp only [insert_visitor, hf]
        exact NoEmptyBranch.vbranch _ _ (neb_children_set _ _ _ h2 (NoEmptyBranch.leaf _ _))
      | some next =>
        simp only [insert_visitor, hf]
        exact NoEmptyBranch.vbranch _ _
          (neb_children_set _ _ _ h2 (ih next (h2 _ (find_some_mem _ _ _ hf))))

theorem neb_insert [plain_char] (moved : T → T) (t : trie T) (k : List Char) (v : T)
    (h : ∀ p ∈ t.root_, NoEmptyBranch p.2) :
    ∀ p ∈ (t.insert moved k v).root_, NoEmptyBranch p.2 := by
  cases k with
  | nil => exact h
  | cons c rest =>
    simp only [trie.insert]
    cases hf : find t.root_ c with
    | none => exact neb_children_set _ _ _ h (NoEmptyBranch.leaf _ _)
    | some first =>
      exact neb_children_set _ _ _ h
        (neb_insert_visitor moved rest first v (h _ (find_some_mem _ _ _ hf)))

theorem neb_build_from [plain_char] (moved : T → T) (ops : List (List Char × T)) (t : trie T)
    (h : ∀ p ∈ t.root_, NoEmptyBranch p.2) :
    ∀ p ∈ (ops.foldl (fun t op => t.insert moved op.1 op.2) t).root_, NoEmptyBranch p.2 := by
  induction ops generalizing t with
  | nil => exact h
  | cons op ops ih => exact ih _ (neb_insert moved t op.1 op.2 h)

/-- In a trie built by inserts, no plain branch below the root is without
children. -/
theorem neb_build [plain_char] (moved : T → T) (ops : List (List Char × T)) :
    ∀ p ∈ (build moved ops).root_, NoEmptyBranch p.2 :=
  neb_build_from moved ops trie.empty (by simp [trie.empty])

/-- Where no plain branch is without children, the visitor of `prefix_match`
reaches a leaf or a value-branch: the assertion holds and the result is true. -/
theorem prefix_match_visitor_total (n : Node T) (h : NoEmptyBranch n) :
    ∀ m, ∃ out, prefix_match_visitor n m = some (true, out) := by
  induction h with
  | leaf d v => exact fun m => ⟨m ++ d, rfl⟩
  | branch ch h1 h2 ih =>
    intro m
    cases ch with
    | nil => exact absurd rfl h1
    | cons p rest =>
      obtain ⟨k, next⟩ := p
      obtain ⟨out, hout⟩ := ih (k, next) (List.mem_cons_self _ _) (m ++ [k])
      exact ⟨out, by simpa [prefix_match_visitor] using hout⟩
  | vbranch ch u h2 ih => exact fun m => ⟨m, rfl⟩

/-- A property of nodes that passes from a node to its children holds of the
node that `lookup_prefix_visitor` finds. -/
theorem lookup_prefix_visitor_sub (P : Node T → Prop)
    (hP : ∀ n c next, P n → find n.children c = some next → P next)
    (q : List Char) (n n' : Node T) (rest : List Char) (hn : P n)
    (h : lookup_prefix_visitor q n = (some n', rest)) : P n' := by
  induction q generalizing n with
  | nil =>
    cases n with
    | leaf data v =>
      simp only [lookup_prefix_visitor] at h
      split at h
      · simp only [Prod.mk.injEq, Option.some.injEq] at h
        exact h.1 ▸ hn
      · simp at h
    | branch ch =>
      simp only [lookup_prefix_visitor, Prod.mk.injEq, Option.some.injEq] at h
      exact h.1 ▸ hn
    | vbranch ch u =>
      simp only [lookup_prefix_visitor, Prod.mk.injEq, Option.some.injEq] at h
      exact h.1 ▸ hn
  | cons c q ih =>
    cases n with
    | leaf data v =>
      simp only [lookup_prefix_visitor] at h
      split at h
      · simp only [Prod.mk.injEq, Option.some.injEq] at h
        exact h.1 ▸ hn
      · simp at h
    | branch ch =>
      simp only [lookup_prefix_visitor] at h
      cases hf : find ch c with
      | none => simp [hf] at h
      | some next =>
        simp only [hf] at h
        exact ih next (hP _ c next hn hf) h
    | vbranch ch u =>
      simp only [lookup_prefix_visitor] at h
      cases hf : find ch c with
      | none => simp [hf] at h
      | some next =>
        simp only [hf] at h
        exact ih next (hP _ c next hn hf) h

theorem neb_child (n : Node T) (c : Char) (next : Node T) (h : NoEmptyBranch n)
    (hf : find n.children c = some next) : NoEmptyBranch next := by
  cases h with
  | leaf d v => simp [Node.children, find] at hf
  | branch ch h1 h2 => exact h2 _ (find_some_mem _ _ _ hf)
  | vbranch ch u h2 => exact h2 _ (find_some_mem _ _ _ hf)

theorem wf_child [plain_char] (n : Node T) (c : Char) (next : Node T) (h : WF n)
    (hf : find n.children c = some next) : WF next := by
  cases h with
  | leaf d v => simp [Node.children, find] at hf
  | branch ch h1 h2 => exact h2 _ (find_some_mem _ _ _ hf)
  | vbranch ch u h1 h2 => exact h2 _ (find_some_mem _ _ _ hf)

/-- Where a stored key starts with `p`, the prefix lookup of `p` finds a node. -/
theorem lookup_prefix_of_stored (p : List Char) (n : Node T) (k : List Char)
    (hk : (lookup_visitor k n).isSome = true) (hp : p <+: k) :
    ∃ n' rest, lookup_prefix_visitor p n = (some n', rest) := by
  induction p generalizing n k with
  | nil =>
    cases n with
    | leaf data v => exact ⟨.leaf data v, [], by simp [lookup_prefix_visitor]⟩
    | branch ch => exact ⟨.branch ch, [], rfl⟩
    | vbranch ch u => exact ⟨.vbranch ch u, [], rfl⟩
  | cons c p ih =>
    obtain ⟨s, rfl⟩ := hp
    cases n with
    | leaf data v =>
      have hd : data = c :: (p ++ s) := by
        rw [lookup_visitor_isSome, get_leaf] at hk
        by_cases hd : data = c :: (p ++ s)
        · exact hd
        · simp [hd] at hk
      subst hd
      refine ⟨.leaf (c :: (p ++ s)) v, c :: p, ?_⟩
      simp [lookup_prefix_visitor]
    | branch ch =>
      simp only [List.cons_append, lookup_visitor] at hk
      cases hf : find ch c with
      | none => simp [hf] at hk
      | some next =>
        simp only [hf] at hk
        obtain ⟨n', rest, h⟩ := ih next (p ++ s) hk ⟨s, rfl⟩
        exact ⟨n', rest, by simp [lookup_prefix_visitor, hf, h]⟩
    | vbranch ch u =>
      simp only [List.cons_append, lookup_visitor] at hk
      cases hf : find ch c with
      | none => simp [hf] at hk
      | some next =>
        simp only [hf] at hk
        obtain ⟨n', rest, h⟩ := ih next (p ++ s) hk ⟨s, rfl⟩
        exact ⟨n', rest, by simp [lookup_prefix_visitor, hf, h]⟩

/-- On a trie built by inserts `prefix_match` always returns: either the prefix
lookup finds nothing and the result is false with the output untouched, or the
result is true. -/
theorem prefix_match_build_cases [plain_char] (moved : T → T) (ops : List (List Char × T))
    (p m0 : List Char) :
    (((build moved ops).lookup_node_prefix_ p).1 = none ∧
        (build moved ops).prefix_match p m0 = some (false, m0)) ∨
      ∃ m, (build moved ops).prefix_match p m0 = some (true, m) := by
  unfold trie.prefix_match
  cases p with
  | nil => exact Or.inl ⟨rfl, rfl⟩
  | cons c p =>
    simp only [trie.lookup_node_prefix_]
    rcases hl : lookup_prefix_visitor (c :: p) (.branch (build moved ops).root_) with ⟨node, rest⟩
    cases node with
    | none => exact Or.inl ⟨rfl, rfl⟩
    | some n' =>
      right
      have hn' : NoEmptyBranch n' := by
        simp only [lookup_prefix_visitor] at hl
        cases hf : find (build moved ops).root_ c with
        | none => simp [hf] at hl
        | some next =>
          simp only [hf] at hl
          exact lookup_prefix_visitor_sub NoEmptyBranch neb_child p next n' rest
            (neb_build moved ops _ (find_some_mem _ _ _ hf)) hl
      exact prefix_match_visitor_total n' hn' _

/-- Completeness of `prefix_match` on a trie built by inserts. -/
theorem prefix_match_build_iff [plain_char] (moved : T → T) (ops : List (List Char × T))
    (p m0 : List Char) (hp : p ≠ []) :
    (∃ m, (build moved ops).prefix_match p m0 = some (true, m)) ↔
      ∃ k ∈ ops.map Prod.fst, p <+: k := by
  constructor
  · rintro ⟨m, hm⟩
    obtain ⟨h1, h2⟩ := prefix_match_sound_any _ p m0 m hm
    exact ⟨m, ((exists_build_iff moved ops m).1 h2).2, h1⟩
  · rintro ⟨k, hk, hpk⟩
    have hkne : k ≠ [] := by
      rintro rfl
      exact hp (List.prefix_nil.1 hpk)
    have hex : (build moved ops).exists k = true := (exists_build_iff moved ops k).2 ⟨hkne, hk⟩
    rw [trie.exists, lookup_node_eq] at hex
    obtain ⟨n', rest, hl⟩ := lookup_prefix_of_stored p _ k hex hpk
    rcases prefix_match_build_cases moved ops p m0 with ⟨h1, -⟩ | h
    · cases p with
      | nil => exact absurd rfl hp
      | cons c p =>
        simp only [trie.lookup_node_prefix_, hl] at h1
        cases h1
    · exact h

/-- C11. impl3 `prefix_match` is complete: on a trie built by inserts of
non-empty keys and for a non-empty prefix `p`, `prefix_match(p, m)` returns
true if and only if at least one inserted key starts with `p`, and it returns
false (with the output untouched) if and only if none does. -/
theorem prefix_match_complete [plain_char] (moved : T → T) (ops : List (List Char × T))
    (p m0 : List Char)
    (_hne : ∀ k ∈ ops.map Prod.fst, k ≠ []) (hp : p ≠ []) :
    ((∃ m, (build moved ops).prefix_match p m0 = some (true, m)) ↔
        ∃ k ∈ ops.map Prod.fst, p <+: k) ∧
      ((build moved ops).prefix_match p m0 = some (false, m0) ↔
        ¬ ∃ k ∈ ops.map Prod.fst, p <+: k) := by
  refine ⟨prefix_match_build_iff moved ops p m0 hp, ?_⟩
  rw [← prefix_match_build_iff moved ops p m0 hp]
  constructor
  · rintro h ⟨m, hm⟩
    rw [h] at hm
    cases hm
  · intro h
    rcases prefix_match_build_cases moved ops p m0 with ⟨-, h2⟩ | h2
    · exact h2
    · exact absurd h2 h

/-- Witness of C11: the prefixes "ca" over "cat" and "cake". -/
theorem prefix_match_complete_witness :
    ((∃ m, (build moved_int [("cat".toList, 1), ("cake".toList, 3)]).prefix_match "ca".toList
          [] = some (true, m)) ↔
        ∃ k ∈ [("cat".toList, (1 : Int)), ("cake".toList, 3)].map Prod.fst, "ca".toList <+: k) ∧
      ((build moved_int [("cat".toList, 1), ("cake".toList, 3)]).prefix_match "ca".toList
          [] = some (false, []) ↔
        ¬ ∃ k ∈ [("cat".toList, (1 : Int)), ("cake".toList, 3)].map Prod.fst,
          "ca".toList <+: k) :=
  prefix_match_complete moved_int [("cat".toList, 1), ("cake".toList, 3)] "ca".toList []
    (by decide) (by decide)

end impl3

theorem lex_append_left [plain_char] (c a b : List Char)
    (h : List.Lex (fun x y => char_value x < char_value y) a b) :
    List.Lex (fun x y => char_value x < char_value y) (c ++ a) (c ++ b) := by
  induction c with
  | nil => exact h
  | cons x c ih => exact List.Lex.cons ih

namespace impl3
variable {T : Type}

/-! ## impl3: the tie-break of `prefix_match` -/

/-- On a well-formed node, what the visitor of `prefix_match` appends is the
smallest key stored below the node. -/
theorem prefix_match_visitor_min [plain_char] (n : Node T) (h : WF n) :
    ∀ (acc : List Char) (b : Bool) (out : List Char),
      prefix_match_visitor n acc = some (b, out) →
      ∃ ext, out = acc ++ ext ∧
        ∀ k, (lookup_visitor k n).isSome = true → ext = k ∨ List.Lex
            (fun x y => char_value x < char_value y) ext k := by
  induction h with
  | leaf d v =>
    intro acc b out hv
    simp only [prefix_match_visitor, Option.some.injEq, Prod.mk.injEq] at hv
    refine ⟨d, hv.2.symm, ?_⟩
    intro k hk
    rw [lookup_visitor_isSome, get_leaf] at hk
    by_cases hd : d = k
    · exact Or.inl hd
    · simp [hd] at hk
  | branch ch h1 h2 ih =>
    intro acc b out hv
    cases ch with
    | nil => simp [prefix_match_visitor] at hv
    | cons p rest =>
      obtain ⟨c0, n0⟩ := p
      simp only [prefix_match_visitor] at hv
      obtain ⟨ext, he, hmin⟩ := ih (c0, n0) (List.mem_cons_self _ _) (acc ++ [c0]) b out hv
      refine ⟨c0 :: ext, by simp [he], ?_⟩
      intro k hk
      cases k with
      | nil => simp [lookup_visitor] at hk
      | cons c k =>
        simp only [lookup_visitor, find] at hk
        by_cases hc : c = c0
        · subst hc
          simp only [if_true] at hk
          rcases hmin k hk with e | hl
          · exact Or.inl (by rw [e])
          · exact Or.inr (List.Lex.cons hl)
        · simp only [hc, if_false] at hk
          right
          apply List.Lex.rel
          have hs : (c0 :: keys rest).Pairwise (fun a b => char_value a < char_value b) := h1
          rw [List.pairwise_cons] at hs
          apply hs.1
          by_contra hnot
          rw [find_eq_none rest c hnot] at hk
          simp at hk
  | vbranch ch u h1 h2 ih =>
    intro acc b out hv
    simp only [prefix_match_visitor, Option.some.injEq, Prod.mk.injEq] at hv
    refine ⟨[], by simp [hv.2], ?_⟩
    intro k _
    cases k with
    | nil => exact Or.inl rfl
    | cons c k => exact Or.inr List.Lex.nil

/-- On a well-formed trie, a match reported by `prefix_match` is the smallest
stored key that starts with the prefix. -/
theorem prefix_match_min_any [plain_char] (t : trie T) (hwf : WF (.branch t.root_))
    (p m0 m : List Char)
    (h : t.prefix_match p m0 = some (true, m)) (k : List Char) (hk : t.exists k = true)
    (hpk : p <+: k) : m = k ∨ List.Lex (fun x y => char_value x < char_value y) m k := by
  unfold trie.prefix_match at h
  cases p with
  | nil => simp [trie.lookup_node_prefix_] at h
  | cons c p =>
    simp only [trie.lookup_node_prefix_] at h
    rcases hl : lookup_prefix_visitor (c :: p) (.branch t.root_) with ⟨node, rest⟩
    rw [hl] at h
    cases node with
    | none => simp at h
    | some n' =>
      simp only at h
      obtain ⟨consumed, h1, h2, h3⟩ := lookup_prefix_visitor_spec _ _ _ _ hl
      have hwf' : WF n' := lookup_prefix_visitor_sub WF wf_child _ _ _ _ hwf hl
      have htake : List.take ((c :: p).length - rest.length) (c :: p) = consumed := by
        rw [h1]
        simp
      rw [htake] at h
      obtain ⟨s, rfl⟩ := hpk
      rw [trie.exists, lookup_node_eq, h1, List.append_assoc, h2] at hk
      rcases h3 with ⟨data, v, rfl, -⟩ | ⟨-, rfl⟩
      · left
        rw [lookup_visitor_isSome, get_leaf] at hk
        have hd : data = rest ++ s := by
          by_cases hd : data = rest ++ s
          · exact hd
          · simp [hd] at hk
        simp only [prefix_match_visitor, Option.some.injEq, Prod.mk.injEq, true_and] at h
        rw [h1, ← h, hd, List.append_assoc]
      · obtain ⟨ext, he, hmin⟩ := prefix_match_visitor_min n' hwf' consumed true m h
        simp only [List.append_nil, List.nil_append] at h1 hk ⊢
        rw [h1, he]
        rcases hmin s hk with e | hlex
        · exact Or.inl (by rw [e])
        · exact Or.inr (lex_append_left consumed ext s hlex)

/-- C12. impl3 `prefix_match` tie-break: on a trie built by inserts and for a
non-empty prefix `p` that some inserted key starts with, `prefix_match(p, m)`
returns true and sets `m` to the lexicographically smallest inserted key that
starts with `p`: `m` is an inserted key, starts with `p`, and every inserted
key `k` that starts with `p` is `m` or comes after `m` in the lexicographic
order (characters in the order of the children map, which is `std::less<char>`
of the platform, a key before its proper extensions). -/
theorem prefix_match_smallest [plain_char] (moved : T → T) (ops : List (List Char × T))
    (p m0 : List Char)
    (hp : p ≠ []) (hex : ∃ k ∈ ops.map Prod.fst, p <+: k) :
    ∃ m, (build moved ops).prefix_match p m0 = some (true, m) ∧ m ∈ ops.map Prod.fst ∧
      p <+: m ∧
      ∀ k ∈ ops.map Prod.fst, p <+: k →
        m = k ∨ List.Lex (fun x y => char_value x < char_value y) m k := by
  obtain ⟨m, hm⟩ := (prefix_match_build_iff moved ops p m0 hp).2 hex
  obtain ⟨h1, h2⟩ := prefix_match_sound_any _ p m0 m hm
  refine ⟨m, hm, ((exists_build_iff moved ops m).1 h2).2, h1, ?_⟩
  intro k hk hpk
  have hkne : k ≠ [] := by
    rintro rfl
    exact hp (List.prefix_nil.1 hpk)
  exact prefix_match_min_any _ (wf_build moved ops) p m0 m hm k
    ((exists_build_iff moved ops k).2 ⟨hkne, hk⟩) hpk

/-- Witness of C12: over "bat" and "bake" the prefix "ba" yields "bake", which
is the smallest of the two keys; over "ba" and 'b' followed by the byte `0xE9`
the prefix "b" yields the latter where plain `char` is signed. -/
theorem prefix_match_smallest_witness :
    (build moved_int [("bat".toList, 1), ("bake".toList, 2)]).prefix_match "ba".toList [] =
        some (true, "bake".toList) ∧
      (build moved_int [(['b', 'a'], 1), (['b', Char.ofNat 0xE9], 2)]).prefix_match ['b'] [] =
        some (true, ['b', Char.ofNat 0xE9]) ∧
      ∃ m, (build moved_int [(['b', 'a'], 1), (['b', Char.ofNat 0xE9], 2)]).prefix_match ['b']
          [] = some (true, m) ∧
        m ∈ [(['b', 'a'], (1 : Int)), (['b', Char.ofNat 0xE9], 2)].map Prod.fst ∧ ['b'] <+: m ∧
        ∀ k ∈ [(['b', 'a'], (1 : Int)), (['b', Char.ofNat 0xE9], 2)].map Prod.fst,
          ['b'] <+: k → m = k ∨ List.Lex (fun x y => char_value x < char_value y) m k :=
  ⟨by decide, by decide,
    prefix_match_smallest moved_int [(['b', 'a'], 1), (['b', Char.ofNat 0xE9], 2)] ['b'] []
      (by decide) ⟨['b', 'a'], by decide, by decide⟩⟩

/-- The second example of C12: over "somereallylongword" the prefix "so" yields
that word. -/
theorem prefix_match_so :
    (build moved_int [("somereallylongword".toList, 6)]).prefix_match "so".toList [] =
      some (true, "somereallylongword".toList) := by
  decide

/-- The tie-break follows the platform: over "ba" and 'b' followed by the byte
`0xE9` the prefix "b" yields the second key where plain `char` is signed and
the first where it is unsigned. -/
theorem prefix_match_tie_break_platforms :
    (@build Int ⟨true⟩ moved_int [(['b', 'a'], 1), (['b', Char.ofNat 0xE9], 2)]).prefix_match
      ['b'] [] = some (true, ['b', Char.ofNat 0xE9]) ∧
    (@build Int ⟨false⟩ moved_int [(['b', 'a'], 1), (['b', Char.ofNat 0xE9], 2)]).prefix_match
      ['b'] [] = some (true, ['b', 'a']) := by
  decide

/-! ## impl2: `prefix_match` -/

/-- Once the input is used up, the impl2 visitor on the erased node does what
the impl3 visitor does. -/
theorem prefix_match_first_erase : ∀ (n : Node T) (m : List Char),
    impl2.prefix_match_first (erase n) m = prefix_match_visitor n m
  | .leaf data _, m => by simp [erase, impl2.prefix_match_first, prefix_match_visitor]
  | .vbranch ch _, m => by simp [erase, impl2.prefix_match_first, prefix_match_visitor]
  | .branch [], m => by
    simp [erase, erase_children, impl2.prefix_match_first, prefix_match_visitor]
  | .branch ((k, next) :: rest), m => by
    simp only [erase, erase_children, impl2.prefix_match_first, prefix_match_visitor]
    exact prefix_match_first_erase next (m ++ [k])

/-- What the impl2 visitor reports as a match is the initial content of the
output followed by a key that is stored below the node and starts with the
input. -/
theorem prefix_match_visitor_erase_sound (q : List Char) (n : Node T) (acc m : List Char)
    (h : impl2.prefix_match_visitor q (erase n) acc = some (true, m)) :
    ∃ ext, m = acc ++ ext ∧ q <+: ext ∧ (lookup_visitor ext n).isSome = true := by
  induction q generalizing n acc with
  | nil =>
    have h' : prefix_match_visitor n acc = some (true, m) := by
      rw [← prefix_match_first_erase]
      cases n <;> simpa [impl2.prefix_match_visitor] using h
    obtain ⟨-, ext, h1, h2⟩ := prefix_match_visitor_spec n acc true m h'
    exact ⟨ext, h1, List.nil_prefix, h2⟩
  | cons c q ih =>
    cases n with
    | leaf data v =>
      simp only [erase, impl2.prefix_match_visitor] at h
      split at h
      · rename_i hc
        simp only [Option.some.injEq, Prod.mk.injEq, true_and] at h
        refine ⟨data, h.symm, ?_, by simp [lookup_visitor_leaf_self]⟩
        rw [hc.2]
        exact List.take_prefix _ _
      · simp at h
    | branch ch =>
      simp only [erase, impl2.prefix_match_visitor, find_erase] at h
      cases hf : find ch c with
      | none => simp [hf] at h
      | some next =>
        simp only [hf, Option.map_some'] at h
        obtain ⟨ext, h1, h2, h3⟩ := ih next (acc ++ [c]) h
        refine ⟨c :: ext, by simp [h1], ?_, by simp [lookup_visitor, hf, h3]⟩
        simpa using h2
    | vbranch ch u =>
      simp only [erase, impl2.prefix_match_visitor, find_erase] at h
      cases hf : find ch c with
      | none => simp [hf] at h
      | some next =>
        simp only [hf, Option.map_some'] at h
        obtain ⟨ext, h1, h2, h3⟩ := ih next (acc ++ [c]) h
        refine ⟨c :: ext, by simp [h1], ?_, by simp [lookup_visitor, hf, h3]⟩
        simpa using h2

end impl3

namespace impl2

/-- On an impl2 trie built by inserts, a match reported by `prefix_match` is the
initial content of the output followed by an inserted key that starts with the
prefix; called with an empty output it is that key. -/
theorem prefix_match_build_sound2 [plain_char] (ws : List (List Char)) (p m0 m : List Char)
    (h : (build ws).prefix_match p m0 = some (true, m)) :
    ∃ k ∈ ws, m = m0 ++ k ∧ p <+: k := by
  cases p with
  | nil => simp [trie.prefix_match] at h
  | cons c p =>
    rw [build_eq_erase] at h
    simp only [trie.prefix_match, impl3.trie.erase] at h
    have h' : prefix_match_visitor (c :: p)
        (impl3.erase (.branch (impl3.build id (ws.map (fun k => (k, ())))).root_)) m0 =
        some (true, m) := by
      simpa [impl3.erase] using h
    obtain ⟨ext, h1, h2, h3⟩ := impl3.prefix_match_visitor_erase_sound _ _ _ _ h'
    rw [← impl3.lookup_node_eq] at h3
    have h4 := (impl3.exists_build_iff id (ws.map (fun k => (k, ()))) ext).1 h3
    rw [keys_of_unit_ops] at h4
    exact ⟨ext, h4.2, h1, h2⟩

/-- C15 (evaluation at the failing input). Over the keys "cat" and "cake",
`prefix_match("cab", m)` called with `m` empty returns false and leaves "ca"
in `m`: the branch that has no child for 'b' reports the failure without
clearing the characters pushed on the way. -/
theorem prefix_match_miss_at_branch_keeps_pushed :
    (build ["cat".toList, "cake".toList]).prefix_match "cab".toList [] =
      some (false, "ca".toList) := by
  decide

/-- C16 (evaluation at the failing input). Over the keys "bat" and "bake",
`prefix_match("ba", m)` called with `m` holding "zz" returns true and leaves
"zzbake" in `m`, which is not a stored key and does not start with "ba": the
match is appended to the initial content of the output. -/
theorem prefix_match_appends_to_output :
    (build ["bat".toList, "bake".toList]).prefix_match "ba".toList "zz".toList =
        some (true, "zzbake".toList) ∧
      (build ["bat".toList, "bake".toList]).exists (fun _ => Char.ofNat 0) "zzbake".toList =
        false ∧
      ¬ "ba".toList <+: "zzbake".toList := by
  decide

end impl2
namespace impl3
variable {T : Type}

/-! ## Leaves and their residues -/

mutual
theorem leaves_sub_words : ∀ (n : Node T) (l : List Char × List Char),
    l ∈ leaves n → l.1 ++ l.2 ∈ words n
  | .leaf data _, l, h => by
    simp only [leaves, List.mem_singleton] at h
    subst h
    simp [words]
  | .branch ch, l, h => by
    simp only [leaves] at h
    simp only [words]
    exact (leaves_children_sub_words ch l h).2
  | .vbranch ch _, l, h => by
    simp only [leaves] at h
    simp only [words]
    exact List.mem_cons_of_mem _ (leaves_children_sub_words ch l h).2
theorem leaves_children_sub_words : ∀ (m : List (Char × Node T)) (l : List Char × List Char),
    l ∈ leaves_children m → l.1 ≠ [] ∧ l.1 ++ l.2 ∈ words_children m
  | [], l, h => by simp [leaves_children] at h
  | (c, n) :: m, l, h => by
    simp only [leaves_children, List.mem_append, List.mem_map] at h
    simp only [words_children, List.mem_append, List.mem_map]
    rcases h with ⟨l', hl', rfl⟩ | h
    · exact ⟨by simp, Or.inl ⟨l'.1 ++ l'.2, leaves_sub_words n l' hl', by simp⟩⟩
    · exact ⟨(leaves_children_sub_words m l h).1, Or.inr (leaves_children_sub_words m l h).2⟩
end

mutual
theorem leaves_erase : ∀ (n : Node T), impl2.leaves (erase n) = leaves n
  | .leaf data _ => by simp [erase, impl2.leaves, leaves]
  | .branch ch => by
    simp only [erase, impl2.leaves, leaves]
    exact leaves_children_erase ch
  | .vbranch ch _ => by
    simp only [erase, impl2.leaves, leaves]
    exact leaves_children_erase ch
theorem leaves_children_erase : ∀ (m : List (Char × Node T)),
    impl2.leaves_children (erase_children m) = leaves_children m
  | [] => by simp [erase_children, impl2.leaves_children, leaves_children]
  | (c, n) :: m => by
    simp only [erase_children, impl2.leaves_children, leaves_children]
    rw [leaves_erase n, leaves_children_erase m]
end

/-- In a trie built by inserts, the path to a leaf is not empty, and the path
followed by the residue of the leaf is an inserted key. -/
theorem leaves_build [plain_char] (moved : T → T) (ops : List (List Char × T))
    (l : List Char × List Char)
    (h : l ∈ (build moved ops).leaves) : l.1 ≠ [] ∧ l.1 ++ l.2 ∈ ops.map Prod.fst := by
  obtain ⟨h1, h2⟩ := leaves_children_sub_words _ l h
  refine ⟨h1, ?_⟩
  have h3 : l.1 ++ l.2 ∈ words (.branch (build moved ops).root_) := by
    simpa [words] using h2
  rw [mem_words_iff _ (wf_build moved ops), ← exists_eq, exists_build_iff] at h3
  exact h3.2

end impl3

/-- C20 (counterexample). Leaf residues can be empty: after inserting "cat" and
"cake" (the first keys of the tests) the leaf below 't' has empty `data`, in
impl3 and in impl2. -/
theorem leaf_data_can_be_empty :
    ¬ (∀ l ∈ (impl3.build impl3.moved_int [("cat".toList, 1), ("cake".toList, 3)]).leaves,
        l.2 ≠ []) ∧
      ¬ (∀ l ∈ (impl2.build ["cat".toList, "cake".toList]).leaves, l.2 ≠ []) := by
  decide

/-- C20 (amended). In every impl3 and impl2 trie obtained from the empty trie by
inserts of non-empty keys, every leaf stands for a non-empty inserted key: the
path from the root to the leaf has at least one character, and the path
followed by the leaf's `data` is one of the inserted keys. The `data` itself
is what is left of the key after the path, and may be empty. -/
theorem leaf_key_inserted {T : Type} [plain_char] (moved : T → T) (ops : List (List Char × T))
    (_hne : ∀ k ∈ ops.map Prod.fst, k ≠ []) :
    (∀ l ∈ (impl3.build moved ops).leaves, l.1 ≠ [] ∧ l.1 ++ l.2 ∈ ops.map Prod.fst) ∧
      (∀ l ∈ (impl2.build (ops.map Prod.fst)).leaves,
        l.1 ≠ [] ∧ l.1 ++ l.2 ∈ ops.map Prod.fst) := by
  refine ⟨fun l h => impl3.leaves_build moved ops l h, ?_⟩
  intro l h
  rw [← impl3.erase_build moved ops] at h
  simp only [impl2.trie.leaves, impl3.trie.erase, impl3.leaves_children_erase] at h
  exact impl3.leaves_build moved ops l h

/-- Witness of the amended C20: the keys "cat" and "cake". -/
theorem leaf_key_inserted_witness :
    (∀ l ∈ (impl3.build impl3.moved_int [("cat".toList, 1), ("cake".toList, 3)]).leaves,
        l.1 ≠ [] ∧ l.1 ++ l.2 ∈ [("cat".toList, (1 : Int)), ("cake".toList, 3)].map Prod.fst) ∧
      (∀ l ∈ (impl2.build ([("cat".toList, (1 : Int)), ("cake".toList, 3)].map Prod.fst)).leaves,
        l.1 ≠ [] ∧ l.1 ++ l.2 ∈ [("cat".toList, (1 : Int)), ("cake".toList, 3)].map Prod.fst) :=
  leaf_key_inserted impl3.moved_int [("cat".toList, 1), ("cake".toList, 3)] (by decide)

namespace impl3
variable {T : Type}

/-! ## The assertion of `prefix_match` in the compressed tries -/

/-- Where no plain branch is without children, the impl2 visitor returns on the
erased node: its assertion holds. -/
theorem prefix_match_visitor_erase_total (q : List Char) (n : Node T) (acc : List Char)
    (h : NoEmptyBranch n) : ∃ r, impl2.prefix_match_visitor q (erase n) acc = some r := by
  induction q generalizing n acc with
  | nil =>
    obtain ⟨out, hout⟩ := prefix_match_visitor_total n h acc
    refine ⟨(true, out), ?_⟩
    rw [← hout, ← prefix_match_first_erase]
    cases n <;> simp [impl2.prefix_match_visitor]
  | cons c q ih =>
    cases n with
    | leaf data v =>
      simp only [erase, impl2.prefix_match_visitor]
      split
      · exact ⟨_, rfl⟩
      · exact ⟨_, rfl⟩
    | branch ch =>
      simp only [erase, impl2.prefix_match_visitor, find_erase]
      cases hf : find ch c with
      | none => exact ⟨_, rfl⟩
      | some next => exact ih next _ (neb_child _ c next h hf)
    | vbranch ch u =>
      simp only [erase, impl2.prefix_match_visitor, find_erase]
      cases hf : find ch c with
      | none => exact ⟨_, rfl⟩
      | some next => exact ih next _ (neb_child _ c next h hf)

end impl3

namespace impl2

/-- On an impl2 trie built by inserts `prefix_match` always returns. -/
theorem prefix_match_build_total2 [plain_char] (ws : List (List Char)) (p m0 : List Char) :
    ∃ r, (build ws).prefix_match p m0 = some r := by
  cases p with
  | nil => exact ⟨_, rfl⟩
  | cons c p =>
    rw [build_eq_erase]
    simp only [trie.prefix_match, impl3.trie.erase, prefix_match_visitor, impl3.find_erase]
    cases hf : find (impl3.build id (ws.map (fun k => (k, ())))).root_ c with
    | none => exact ⟨_, rfl⟩
    | some next =>
      exact impl3.prefix_match_visitor_erase_total p next _
        (impl3.neb_build id _ _ (find_some_mem _ _ _ hf))

end impl2

/-- C21. The "prog error" assertion of `prefix_match` is unreachable in the
compressed tries: on every impl3 and impl2 trie obtained from the empty trie
by inserts, for every prefix and every initial output, `prefix_match` returns
a result, that is, the descent never visits a plain branch without children
(the failing assertion is the result `none`). -/
theorem prefix_match_assert_unreachable {T : Type} [plain_char] (moved : T → T)
    (ops : List (List Char × T)) (p m0 : List Char) :
    (∃ r, (impl3.build moved ops).prefix_match p m0 = some r) ∧
      (∃ r, (impl2.build (ops.map Prod.fst)).prefix_match p m0 = some r) := by
  refine ⟨?_, impl2.prefix_match_build_total2 _ p m0⟩
  rcases impl3.prefix_match_build_cases moved ops p m0 with ⟨-, h⟩ | ⟨m, h⟩
  · exact ⟨_, h⟩
  · exact ⟨_, h⟩

/-- C22. The three implementations agree on membership: for non-empty keys
inserted in the same order into impl1, impl2 and impl3 (with any values) and
every string `w`, the three `exists(w)` are equal (impl2 whatever its reads
from `std::end(word)` on deliver). -/
theorem exists_agree {T : Type} [plain_char] (moved : T → T) (ops : List (List Char × T))
    (oob : Nat → Char) (w : List Char) (hne : ∀ k ∈ ops.map Prod.fst, k ≠ []) :
    (impl1.build (ops.map Prod.fst)).exists w = (impl2.build (ops.map Prod.fst)).exists oob w ∧
      (impl2.build (ops.map Prod.fst)).exists oob w = (impl3.build moved ops).exists w := by
  have h1 := impl1.exists_build_iff1 (ops.map Prod.fst) w
  have h2 := impl2.exists_build_iff2 oob (ops.map Prod.fst) w
  have h3 := impl3.exists_build_iff moved ops w
  have hw : w ∈ ops.map Prod.fst ↔ (w ≠ [] ∧ w ∈ ops.map Prod.fst) :=
    ⟨fun h => ⟨hne w h, h⟩, fun h => h.2⟩
  constructor
  · rw [Bool.eq_iff_iff, h1, h2]
    exact hw
  · rw [Bool.eq_iff_iff, h2, h3]

/-- Witness of C22: "ca" over the keys "cat" and "cake". -/
theorem exists_agree_witness :
    (impl1.build ([("cat".toList, (1 : Int)), ("cake".toList, 3)].map Prod.fst)).exists
        "ca".toList =
      (impl2.build ([("cat".toList, (1 : Int)), ("cake".toList, 3)].map Prod.fst)).exists
        (fun _ => Char.ofNat 0) "ca".toList ∧
      (impl2.build ([("cat".toList, (1 : Int)), ("cake".toList, 3)].map Prod.fst)).exists
        (fun _ => Char.ofNat 0) "ca".toList =
      (impl3.build impl3.moved_int [("cat".toList, 1), ("cake".toList, 3)]).exists "ca".toList :=
  exists_agree impl3.moved_int [("cat".toList, 1), ("cake".toList, 3)] (fun _ => Char.ofNat 0)
    "ca".toList (by decide)

theorem keys_set_of_find {β : Type} [plain_char] (m : List (Char × β)) (c : Char) (x y : β)
    (hs : (keys m).Pairwise (fun a b => char_value a < char_value b)) (hf : find m c = some y) :
    keys (set m c x) = keys m := by
  induction m with
  | nil => simp [find] at hf
  | cons p m ih =>
    obtain ⟨k, z⟩ := p
    have hs' : (k :: keys m).Pairwise (fun a b => char_value a < char_value b) := hs
    rw [List.pairwise_cons] at hs'
    by_cases h2 : c = k
    · subst h2
      simp [set, keys]
    · simp only [find, h2, if_false] at hf
      have hc : c ∈ keys m := List.mem_map.2 ⟨(c, y), find_some_mem m c y hf, rfl⟩
      have h1 : ¬ char_value c < char_value k := not_lt_of_gt (hs'.1 c hc)
      simp only [set, h1, h2, if_false]
      show k :: keys (set m c x) = k :: keys m
      rw [ih hs'.2 hf]

namespace impl3
variable {T : Type}

/-! ## impl3: `breakup_leaf` and the nodes a lookup finds -/

/-- C26. impl3 `breakup_leaf` builds a subtree holding exactly the two keys: for
a leaf with residue `r` and value `u` and a remaining input `i ≠ r` with value
`v`, `breakup_leaf` returns a subtree in which a lookup from the root finds `r`
with the value `u`, `i` with the value `v`, and no other key. -/
theorem breakup_leaf_two_keys [plain_char] (r i : List Char) (u v : T) (h : i ≠ r) :
    ∃ n, breakup_leaf r u i v = some n ∧
      ∀ q, get n q = if q = r then some u else if q = i then some v else none := by
  cases hb : breakup_leaf r u i v with
  | none => exact absurd ((breakup_leaf_eq_none r u i v).1 hb).symm h
  | some n => exact ⟨n, rfl, get_breakup_leaf r u i v n hb⟩

/-- Witness of C26: the three split cases, with the residue "at" against the
inputs "ake" (diverging), "a" (input a proper prefix), and the residue "a"
against the input "at" (residue a proper prefix). -/
theorem breakup_leaf_two_keys_witness :
    (∃ n, breakup_leaf "at".toList (1 : Int) "ake".toList 3 = some n ∧
      ∀ q, get n q = if q = "at".toList then some 1 else if q = "ake".toList then some 3
        else none) ∧
    (∃ n, breakup_leaf "at".toList (1 : Int) "a".toList 3 = some n ∧
      ∀ q, get n q = if q = "at".toList then some 1 else if q = "a".toList then some 3
        else none) ∧
    (∃ n, breakup_leaf "a".toList (1 : Int) "at".toList 3 = some n ∧
      ∀ q, get n q = if q = "a".toList then some 1 else if q = "at".toList then some 3
        else none) :=
  ⟨breakup_leaf_two_keys "at".toList "ake".toList 1 3 (by decide),
    breakup_leaf_two_keys "at".toList "a".toList 1 3 (by decide),
    breakup_leaf_two_keys "a".toList "at".toList 1 3 (by decide)⟩

/-- `breakup_leaf` returns the null result if and only if the residue `r`
equals the remaining input `i`; in that case the insert visitor leaves the leaf
in its slot with its residue, and with its value as the move left it, so a
parent map `ch` that holds the leaf under `c` keeps its keys and its other
children. -/
theorem breakup_leaf_null_iff [plain_char] (moved : T → T) (r i : List Char) (u v : T) :
    (breakup_leaf r u i v = none ↔ r = i) ∧
      (r = i → insert_visitor moved i (.leaf r u) v = .leaf r (moved u) ∧
        ∀ (ch : List (Char × Node T)) (c : Char), (keys ch).Pairwise
            (fun a b => char_value a < char_value b) →
          find ch c = some (.leaf r u) →
          keys (set ch c (insert_visitor moved i (.leaf r u) v)) = keys ch ∧
          (∀ d, d ≠ c → find (set ch c (insert_visitor moved i (.leaf r u) v)) d = find ch d) ∧
          find (set ch c (insert_visitor moved i (.leaf r u) v)) c =
            some (.leaf r (moved u))) := by
  refine ⟨breakup_leaf_eq_none r u i v, ?_⟩
  rintro rfl
  refine ⟨insert_visitor_leaf_self moved r u v, ?_⟩
  intro ch c hs hf
  rw [insert_visitor_leaf_self]
  exact ⟨keys_set_of_find ch c _ _ hs hf, fun d hd => find_set_ne ch _ hd, find_set_self ch c _⟩

/-- An example: the leaf "at" under 'c' and the input "at". -/
theorem breakup_leaf_null_iff_witness :
    (breakup_leaf "at".toList (1 : Int) "at".toList 3 = none ↔ "at".toList = "at".toList) ∧
      keys (set [('c', Node.leaf "at".toList (1 : Int))] 'c'
        (insert_visitor moved_int "at".toList (.leaf "at".toList 1) 3)) =
        keys [('c', Node.leaf "at".toList (1 : Int))] :=
  ⟨(breakup_leaf_null_iff moved_int "at".toList "at".toList 1 3).1,
    (((breakup_leaf_null_iff moved_int "at".toList "at".toList 1 3).2 rfl).2
      [('c', Node.leaf "at".toList 1)] 'c' (by simp [keys]) (by simp [find])).1⟩

/-- What `lookup_visitor` finds: a value-branch reached with no input left, or
a leaf whose residue is the input left. -/
theorem lookup_visitor_found (q : List Char) (n n' : Node T)
    (h : lookup_visitor q n = some n') :
    ∃ consumed rest, q = consumed ++ rest ∧ descend consumed n = some n' ∧
      ((∃ ch v, n' = .vbranch ch v ∧ rest = []) ∨ (∃ v, n' = .leaf rest v)) := by
  induction q generalizing n with
  | nil =>
    cases n with
    | leaf data v =>
      simp only [lookup_visitor] at h
      split at h
      · rename_i hc
        have hd := (leaf_test_iff data []).1 hc
        subst hd
        simp only [Option.some.injEq] at h
        subst h
        exact ⟨[], [], rfl, rfl, Or.inr ⟨v, rfl⟩⟩
      · cases h
    | branch ch => simp [lookup_visitor] at h
    | vbranch ch u =>
      simp only [lookup_visitor, Option.some.injEq] at h
      subst h
      exact ⟨[], [], rfl, rfl, Or.inl ⟨ch, u, rfl, rfl⟩⟩
  | cons c q ih =>
    cases n with
    | leaf data v =>
      simp only [lookup_visitor] at h
      split at h
      · rename_i hc
        have hd := (leaf_test_iff data (c :: q)).1 hc
        subst hd
        simp only [Option.some.injEq] at h
        subst h
        exact ⟨[], c :: q, rfl, rfl, Or.inr ⟨v, rfl⟩⟩
      · cases h
    | branch ch =>
      simp only [lookup_visitor] at h
      cases hf : find ch c with
      | none => simp [hf] at h
      | some next =>
        simp only [hf] at h
        obtain ⟨consumed, rest, h1, h2, h3⟩ := ih next h
        exact ⟨c :: consumed, rest, by simp [h1], by simp [descend, Node.children, hf, h2], h3⟩
    | vbranch ch u =>
      simp only [lookup_visitor] at h
      cases hf : find ch c with
      | none => simp [hf] at h
      | some next =>
        simp only [hf] at h
        obtain ⟨consumed, rest, h1, h2, h3⟩ := ih next h
        exact ⟨c :: consumed, rest, by simp [h1], by simp [descend, Node.children, hf, h2], h3⟩

/-- C29. impl3 lookups agree on what counts as found: on every trie and for
every string `w`, `exists(w)` is the flag `value_at(w, x)` returns, and a node
found by `lookup_node_` is a value-branch reached with no input left or a leaf
whose residue is the input left once the path to it is consumed; it is never a
plain branch. -/
theorem lookups_agree (t : trie T) (w : List Char) (x : T) :
    t.exists w = (t.value_at w x).1 ∧
      ∀ n, t.lookup_node_ w = some n →
        ∃ consumed rest, w = consumed ++ rest ∧ descend consumed (.branch t.root_) = some n ∧
          ((∃ ch v, n = .vbranch ch v ∧ rest = []) ∨ (∃ v, n = .leaf rest v)) := by
  refine ⟨by rw [exists_eq, value_at_eq], ?_⟩
  intro n hn
  rw [lookup_node_eq] at hn
  exact lookup_visitor_found w _ n hn

/-- Witness of C29: the key "cat" over "cat" and "cake", found in the leaf
below "cat" with the empty residue. -/
theorem lookups_agree_witness :
    (build moved_int [("cat".toList, 1), ("cake".toList, 3)]).exists "cat".toList =
        ((build moved_int [("cat".toList, 1), ("cake".toList, 3)]).value_at "cat".toList 0).1 ∧
      ∃ consumed rest, "cat".toList = consumed ++ rest ∧
        descend consumed (.branch (build moved_int
          [("cat".toList, 1), ("cake".toList, 3)]).root_) = some (.leaf [] 1) ∧
        ((∃ ch v, Node.leaf [] (1 : Int) = .vbranch ch v ∧ rest = []) ∨
          (∃ v, Node.leaf [] (1 : Int) = .leaf rest v)) :=
  ⟨(lookups_agree (build moved_int [("cat".toList, 1), ("cake".toList, 3)]) "cat".toList 0).1,
    (lookups_agree (build moved_int [("cat".toList, 1), ("cake".toList, 3)]) "cat".toList 0).2
      (.leaf [] 1) (by rfl)⟩

/-! ## impl3: the scenarios of the specification, and retagging -/

theorem descend_chain (p : List Char) (b : Node T) : descend p (chain p b) = some b := by
  induction p with
  | nil => rfl
  | cons c p ih => simp [chain, descend, Node.children, find, ih]

theorem get_chain_proper (p : List Char) (b : Node T) (q : List Char) (hq : q <+: p)
    (hne : q ≠ p) : get (chain p b) q = none := by
  induction p generalizing q with
  | nil => exact absurd (List.prefix_nil.1 hq) hne
  | cons c p ih =>
    cases q with
    | nil => simp [chain]
    | cons d q =>
      obtain ⟨s, hs⟩ := hq
      simp only [List.cons_append, List.cons.injEq] at hs
      obtain ⟨rfl, hs⟩ := hs
      have hne' : q ≠ p := fun e => hne (by rw [e])
      simp [chain, find, ih q ⟨s, hs⟩ hne']

/-- The lookup below a node reached by a path is the lookup from above with the
path put in front. -/
theorem get_descend (k : List Char) (n n' : Node T) (h : descend k n = some n')
    (hn : k ≠ []) (q : List Char) : get n (k ++ q) = get n' q := by
  induction k generalizing n with
  | nil => exact absurd rfl hn
  | cons c k ih =>
    simp only [descend] at h
    cases hf : find n.children c with
    | none => simp [hf] at h
    | some child =>
      simp only [hf] at h
      have hstep : get n (c :: (k ++ q)) = get child (k ++ q) := by
        cases n with
        | leaf d v => simp [Node.children, find] at hf
        | branch ch =>
          simp only [Node.children] at hf
          simp [hf]
        | vbranch ch u =>
          simp only [Node.children] at hf
          simp [hf]
      rw [List.cons_append, hstep]
      cases k with
      | nil =>
        simp only [descend, Option.some.injEq] at h
        subst h
        rfl
      | cons d k => exact ih child h (by simp)

/-- The tree `insert` builds from the empty trie for a key and an extension of
it. -/
theorem build_key_then_extension [plain_char] (moved : T → T) (k0 : Char) (K' : List Char)
    (c : Char)
    (s : List Char) (v1 v2 : T) :
    (build moved [(k0 :: K', v1), (k0 :: K' ++ c :: s, v2)]).root_ =
      [(k0, chain K' (.vbranch [(c, .leaf s v2)] v1))] := by
  have hb : breakup_leaf K' v1 (K' ++ c :: s) v2 =
      some (chain K' (.vbranch [(c, .leaf s v2)] v1)) := by
    have h := breakup_leaf_eq K' [] (c :: s) v1 v2 (Or.inl rfl)
    simpa [fork] using h
  simp [build, trie.empty, trie.insert, find, set, make_leaf, insert_visitor_leaf, hb]

/-- The tree `insert` builds from the empty trie for two keys that diverge
after a common part. -/
theorem build_diverging [plain_char] (moved : T → T) (p0 : Char) (p' : List Char) (a b : Char)
    (s1 s2 : List Char) (v1 v2 : T) (hab : a ≠ b) :
    (build moved [(p0 :: p' ++ a :: s1, v1), (p0 :: p' ++ b :: s2, v2)]).root_ =
      [(p0, chain p' (.branch (set [(a, .leaf s1 v1)] b (.leaf s2 v2))))] := by
  have hb : breakup_leaf (p' ++ a :: s1) v1 (p' ++ b :: s2) v2 =
      some (chain p' (.branch (set [(a, .leaf s1 v1)] b (.leaf s2 v2)))) := by
    have h := breakup_leaf_eq p' (a :: s1) (b :: s2) v1 v2 (Or.inr (Or.inr (by simpa using hab)))
    simpa [fork] using h
  simp [build, trie.empty, trie.insert, find, set, make_leaf, insert_visitor_leaf, hb]

/-- C24. Value-branch scenario, in general: inserting a non-empty key
`K = k0 :: K'` with `v1` and then `K + c + s` with `v2` into an empty impl3
trie gives the chain of plain branches for `K` that ends in a value-branch
carrying `v1` whose only child is a leaf under `c` with residue `s` carrying
`v2`; `value_at(K)` yields `v1`, `value_at(K + c + s)` yields `v2`, and
`exists` is false for every proper non-empty prefix of `K`. -/
theorem value_branch_scenario [plain_char] (moved : T → T) (k0 : Char) (K' : List Char) (c : Char)
    (s : List Char) (v1 v2 x : T) :
    (build moved [(k0 :: K', v1), (k0 :: K' ++ c :: s, v2)]).root_ =
        [(k0, chain K' (.vbranch [(c, .leaf s v2)] v1))] ∧
      descend (k0 :: K') (.branch (build moved [(k0 :: K', v1), (k0 :: K' ++ c :: s, v2)]).root_)
        = some (.vbranch [(c, .leaf s v2)] v1) ∧
      (build moved [(k0 :: K', v1), (k0 :: K' ++ c :: s, v2)]).value_at (k0 :: K') x =
        (true, v1) ∧
      (build moved [(k0 :: K', v1), (k0 :: K' ++ c :: s, v2)]).value_at (k0 :: K' ++ c :: s) x =
        (true, v2) ∧
      ∀ q, q ≠ [] → q <+: k0 :: K' → q ≠ k0 :: K' →
        (build moved [(k0 :: K', v1), (k0 :: K' ++ c :: s, v2)]).exists q = false := by
  have hr := build_key_then_extension moved k0 K' c s v1 v2
  have hd : descend (k0 :: K')
      (.branch (build moved [(k0 :: K', v1), (k0 :: K' ++ c :: s, v2)]).root_) =
      some (.vbranch [(c, .leaf s v2)] v1) := by
    rw [hr]
    simp [descend, Node.children, find, descend_chain]
  refine ⟨hr, hd, ?_, ?_, ?_⟩
  · rw [value_at_eq]
    have := get_descend (k0 :: K') _ _ hd (by simp) []
    rw [List.append_nil] at this
    rw [this]
    simp
  · rw [value_at_eq, get_descend (k0 :: K') _ _ hd (by simp) (c :: s)]
    simp [find]
  · intro q hq hpre hne
    cases q with
    | nil => exact absurd rfl hq
    | cons d q =>
      obtain ⟨t, ht⟩ := hpre
      simp only [List.cons_append, List.cons.injEq] at ht
      obtain ⟨rfl, ht⟩ := ht
      have hne' : q ≠ K' := fun e => hne (by rw [e])
      rw [exists_eq, hr]
      simp [find, get_chain_proper K' _ q ⟨t, ht⟩ hne']

/-- Witness of C24: "ab" then "abc". -/
theorem value_branch_scenario_witness :
    (build moved_int [("ab".toList, 1), ("abc".toList, 2)]).root_ =
        [('a', chain ['b'] (.vbranch [('c', .leaf [] 2)] 1))] ∧
      (build moved_int [("ab".toList, 1), ("abc".toList, 2)]).value_at "ab".toList 0 =
        (true, 1) ∧
      (build moved_int [("ab".toList, 1), ("abc".toList, 2)]).value_at "abc".toList 0 =
        (true, 2) ∧
      (build moved_int [("ab".toList, 1), ("abc".toList, 2)]).exists "a".toList = false :=
  ⟨(value_branch_scenario moved_int 'a' ['b'] 'c' [] 1 2 0).1,
    (value_branch_scenario moved_int 'a' ['b'] 'c' [] 1 2 0).2.2.1,
    (value_branch_scenario moved_int 'a' ['b'] 'c' [] 1 2 0).2.2.2.1,
    (value_branch_scenario moved_int 'a' ['b'] 'c' [] 1 2 0).2.2.2.2 "a".toList (by decide)
      (by decide) (by decide)⟩

/-- An insert that uses up its key at a plain branch replaces that branch by a
value-branch with the same children. -/
theorem insert_visitor_at_branch [plain_char] (moved : T → T) (k : List Char) (n : Node T) (v : T)
    (ch : List (Char × Node T)) (h : descend k n = some (.branch ch)) :
    insert_visitor moved k n v = update_at (fun _ => .vbranch ch v) k n := by
  induction k generalizing n with
  | nil =>
    simp only [descend, Option.some.injEq] at h
    subst h
    rfl
  | cons c k ih =>
    simp only [descend] at h
    cases hf : find n.children c with
    | none => simp [hf] at h
    | some child =>
      simp only [hf] at h
      cases n with
      | leaf d u => simp [Node.children, find] at hf
      | branch ch' =>
        simp only [Node.children] at hf
        simp [insert_visitor, update_at, Node.children, Node.set_child, hf, ih child h]
      | vbranch ch' u =>
        simp only [Node.children] at hf
        simp [insert_visitor, update_at, Node.children, Node.set_child, hf, ih child h]

theorem descend_update_at [plain_char] (f : Node T → Node T) (k : List Char) (n b : Node T)
    (h : descend k n = some b) : descend k (update_at f k n) = some (f b) := by
  induction k generalizing n with
  | nil =>
    simp only [descend, Option.some.injEq] at h
    subst h
    rfl
  | cons c k ih =>
    simp only [descend] at h
    cases hf : find n.children c with
    | none => simp [hf] at h
    | some child =>
      simp only [hf] at h
      cases n with
      | leaf d u => simp [Node.children, find] at hf
      | branch ch' =>
        simp only [Node.children] at hf
        simp [update_at, descend, Node.children, Node.set_child, hf, find_set_self, ih child h]
      | vbranch ch' u =>
        simp only [Node.children] at hf
        simp [update_at, descend, Node.children, Node.set_child, hf, find_set_self, ih child h]

/-- C28. impl3 retagging preserves children: when `insert(k, v)` uses up the
non-empty key `k` at a plain branch with the children `ch`, the tree after the
insert is the old tree with the node at the path `k` replaced by a value-branch
that carries `v` and has the children `ch` (only the child slot that leads to
this node changes, along the path); every key stored below the branch is found
afterwards with its old value. -/
theorem retag_preserves_children [plain_char] (moved : T → T) (t : trie T) (k : List Char) (v x : T)
    (ch : List (Char × Node T)) (hk : k ≠ [])
    (hb : descend k (.branch t.root_) = some (.branch ch)) :
    Node.branch (t.insert moved k v).root_ =
        update_at (fun _ => .vbranch ch v) k (.branch t.root_) ∧
      descend k (.branch (t.insert moved k v).root_) = some (.vbranch ch v) ∧
      ∀ q u, get (.branch ch) q = some u →
        (t.insert moved k v).value_at (k ++ q) x = (true, u) ∧
          t.value_at (k ++ q) x = (true, u) := by
  have h1 : Node.branch (t.insert moved k v).root_ =
      update_at (fun _ => .vbranch ch v) k (.branch t.root_) := by
    cases k with
    | nil => exact absurd rfl hk
    | cons c rest => rw [trie_insert_root, insert_visitor_at_branch moved _ _ v ch hb]
  have h2 : descend k (.branch (t.insert moved k v).root_) = some (.vbranch ch v) := by
    rw [h1]
    exact descend_update_at _ k _ _ hb
  refine ⟨h1, h2, ?_⟩
  intro q u hq
  have hq0 : q ≠ [] := by
    rintro rfl
    simp at hq
  have hne : k ++ q ≠ k := by
    intro e
    have := congrArg List.length e
    simp at this
    exact hq0 this
  have hold : get (.branch t.root_) (k ++ q) = some u := by
    rw [get_descend k _ _ hb hk q, hq]
  constructor
  · rw [value_at_eq, get_insert_ne moved t k v (k ++ q) hne, hold]
    rfl
  · rw [value_at_eq, hold]
    rfl

/-- Witness of C28: "ca" inserted over "cat" and "cake" retags the branch below
"ca"; "cat" keeps its value. -/
theorem retag_preserves_children_witness :
    Node.branch ((build moved_int [("cat".toList, 1), ("cake".toList, 3)]).insert moved_int
        "ca".toList 7).root_ =
      update_at (fun _ => .vbranch [('k', .leaf ['e'] 3), ('t', .leaf [] 1)] 7) "ca".toList
        (.branch (build moved_int [("cat".toList, 1), ("cake".toList, 3)]).root_) ∧
      ((build moved_int [("cat".toList, 1), ("cake".toList, 3)]).insert moved_int
        "ca".toList 7).value_at ("ca".toList ++ "t".toList) 0 = (true, 1) :=
  ⟨(retag_preserves_children moved_int (build moved_int [("cat".toList, 1), ("cake".toList, 3)])
      "ca".toList 7 0 [('k', .leaf ['e'] 3), ('t', .leaf [] 1)] (by decide) (by rfl)).1,
    ((retag_preserves_children moved_int (build moved_int [("cat".toList, 1), ("cake".toList, 3)])
      "ca".toList 7 0 [('k', .leaf ['e'] 3), ('t', .leaf [] 1)] (by decide) (by rfl)).2.2
      "t".toList 1 (by rfl)).1⟩

end impl3

/-- C25. Diverging-keys scenario, in general: inserting `p + a + s1` and then
`p + b + s2`, with `p = p0 :: p'` non-empty and `a ≠ b`, into an empty impl3 or
impl2 trie gives the chain of plain branches for `p`, each with one child, that
ends in a plain branch with exactly two children, the leaves under `a` with
residue `s1` and under `b` with residue `s2`; `exists(p)` is false and both
inserted keys exist. -/
theorem diverging_keys_scenario {T : Type} [plain_char] (moved : T → T) (oob : Nat → Char)
    (p0 : Char)
    (p' : List Char) (a b : Char) (s1 s2 : List Char) (v1 v2 : T) (hab : a ≠ b) :
    (impl3.build moved [(p0 :: p' ++ a :: s1, v1), (p0 :: p' ++ b :: s2, v2)]).root_ =
        [(p0, impl3.chain p' (.branch (set [(a, .leaf s1 v1)] b (.leaf s2 v2))))] ∧
      (impl2.build [p0 :: p' ++ a :: s1, p0 :: p' ++ b :: s2]).root_ =
        [(p0, impl2.chain p' (.branch (set [(a, .leaf s1)] b (.leaf s2)) false))] ∧
      (set [(a, impl3.Node.leaf s1 v1)] b (.leaf s2 v2)).length = 2 ∧
      find (set [(a, impl3.Node.leaf s1 v1)] b (.leaf s2 v2)) a = some (.leaf s1 v1) ∧
      find (set [(a, impl3.Node.leaf s1 v1)] b (.leaf s2 v2)) b = some (.leaf s2 v2) ∧
      (impl3.build moved [(p0 :: p' ++ a :: s1, v1), (p0 :: p' ++ b :: s2, v2)]).exists
        (p0 :: p') = false ∧
      (impl3.build moved [(p0 :: p' ++ a :: s1, v1), (p0 :: p' ++ b :: s2, v2)]).exists
        (p0 :: p' ++ a :: s1) = true ∧
      (impl3.build moved [(p0 :: p' ++ a :: s1, v1), (p0 :: p' ++ b :: s2, v2)]).exists
        (p0 :: p' ++ b :: s2) = true ∧
      (impl2.build [p0 :: p' ++ a :: s1, p0 :: p' ++ b :: s2]).exists oob (p0 :: p') = false ∧
      (impl2.build [p0 :: p' ++ a :: s1, p0 :: p' ++ b :: s2]).exists oob
        (p0 :: p' ++ a :: s1) = true ∧
      (impl2.build [p0 :: p' ++ a :: s1, p0 :: p' ++ b :: s2]).exists oob
        (p0 :: p' ++ b :: s2) = true := by
  have hr := impl3.build_diverging moved p0 p' a b s1 s2 v1 v2 hab
  have hr2 : (impl2.build [p0 :: p' ++ a :: s1, p0 :: p' ++ b :: s2]).root_ =
      [(p0, impl2.chain p' (.branch (set [(a, .leaf s1)] b (.leaf s2)) false))] := by
    have he := impl3.erase_build moved [(p0 :: p' ++ a :: s1, v1), (p0 :: p' ++ b :: s2, v2)]
    simp only [List.map_cons, List.map_nil] at he
    rw [← he, impl3.trie.erase, hr]
    simp only [impl3.erase_children, impl3.erase_chain, impl3.erase, ← impl3.set_erase]
  have hnp : ∀ (c : Char) (s : List Char), p0 :: p' ≠ p0 :: p' ++ c :: s := by
    intro c s e
    have := congrArg List.length e
    simp at this
  have hlen : (set [(a, impl3.Node.leaf s1 v1)] b (.leaf s2 v2)).length = 2 := by
    simp only [set, Ne.symm hab, if_false]
    split <;> rfl
  refine ⟨hr, hr2, hlen, ?_, ?_, ?_, ?_, ?_, ?_, ?_, ?_⟩
  · rw [find_set_ne _ _ hab]; simp [find]
  · exact find_set_self _ _ _
  · have := (impl3.exists_build_iff moved
      [(p0 :: p' ++ a :: s1, v1), (p0 :: p' ++ b :: s2, v2)] (p0 :: p')).not.2
      (by simp [hnp])
    simpa using this
  · exact (impl3.exists_build_iff moved _ _).2 ⟨by simp, by simp⟩
  · exact (impl3.exists_build_iff moved _ _).2 ⟨by simp, by simp⟩
  · have := (impl2.exists_build_iff2 oob
      [p0 :: p' ++ a :: s1, p0 :: p' ++ b :: s2] (p0 :: p')).not.2 (by simp [hnp])
    simpa using this
  · exact (impl2.exists_build_iff2 oob _ _).2 ⟨by simp, by simp⟩
  · exact (impl2.exists_build_iff2 oob _ _).2 ⟨by simp, by simp⟩

/-- Witness of C25: "cat" then "cake" (`p = "ca"`). -/
theorem diverging_keys_scenario_witness :
    (impl3.build impl3.moved_int [("cat".toList, 1), ("cake".toList, 3)]).root_ =
        [('c', impl3.chain ['a'] (.branch [('k', .leaf ['e'] 3), ('t', .leaf [] 1)]))] ∧
      (impl2.build ["cat".toList, "cake".toList]).root_ =
        [('c', impl2.chain ['a'] (.branch [('k', .leaf ['e']), ('t', .leaf [])] false))] ∧
      (impl3.build impl3.moved_int [("cat".toList, 1), ("cake".toList, 3)]).exists "ca".toList =
        false :=
  ⟨(diverging_keys_scenario impl3.moved_int (fun _ => Char.ofNat 0) 'c' ['a'] 't' 'k' [] ['e']
      1 3 (by decide)).1,
    (diverging_keys_scenario impl3.moved_int (fun _ => Char.ofNat 0) 'c' ['a'] 't' 'k' [] ['e']
      1 3 (by decide)).2.1,
    (diverging_keys_scenario impl3.moved_int (fun _ => Char.ofNat 0) 'c' ['a'] 't' 'k' [] ['e']
      1 3 (by decide)).2.2.2.2.2.1⟩

theorem lex_asymm [plain_char] (a b : List Char)
    (h1 : List.Lex (fun x y => char_value x < char_value y) a b)
    (h2 : List.Lex (fun x y => char_value x < char_value y) b a) : False := by
  induction h1 with
  | nil => cases h2
  | cons h ih =>
    cases h2 with
    | cons h' => exact ih h'
    | rel h' => exact lt_irrefl _ h'
  | rel h =>
    cases h2 with
    | cons h' => exact lt_irrefl _ h
    | rel h' => exact lt_asymm h h'

namespace impl1

/-! ## impl1: `prefix_match` -/

theorem nde_children (n : trie_node_t_) (h : NoDeadEnd n) : ∀ p ∈ n.children, NoDeadEnd p.2 := by
  cases h with
  | mk ch w h1 h2 => exact h2

theorem nde_insert_from [plain_char] (k : List Char) (n : trie_node_t_)
    (h : ∀ p ∈ n.children, NoDeadEnd p.2) : NoDeadEnd (insert_from k n) := by
  induction k generalizing n with
  | nil =>
    obtain ⟨ch, w⟩ := n
    exact NoDeadEnd.mk _ _ (Or.inl rfl) h
  | cons c rest ih =>
    obtain ⟨ch, w⟩ := n
    refine NoDeadEnd.mk _ _ (Or.inr (set_ne_nil _ _ _)) ?_
    intro p hp
    rcases mem_set _ _ _ _ hp with rfl | hp
    · apply ih
      cases hf : find ch c with
      | none => simp [trie_node_t_.new, trie_node_t_.children]
      | some f => exact nde_children f (h _ (find_some_mem _ _ _ hf))
    · exact h p hp

theorem nde_build_from1 [plain_char] (ws : List (List Char)) (t : trie)
    (h : ∀ p ∈ t.root_.children, NoDeadEnd p.2) :
    ∀ p ∈ (ws.foldl trie.insert t).root_.children, NoDeadEnd p.2 := by
  induction ws generalizing t with
  | nil => exact h
  | cons k ws ih => exact ih _ (nde_children _ (nde_insert_from k t.root_ h))

/-- In an impl1 trie built by inserts, every node below the root is a word or has
a child. -/
theorem nde_build1 [plain_char] (ws : List (List Char)) :
    ∀ p ∈ (build ws).root_.children, NoDeadEnd p.2 :=
  nde_build_from1 ws trie.empty (by simp [trie.empty, trie_node_t_.new, trie_node_t_.children])

/-- After at least one insert the root itself is a word or has a child. -/
theorem nde_build_root1 [plain_char] (ws : List (List Char)) (h : ws ≠ []) : NoDeadEnd
    (build ws).root_ := by
  have key : ∀ (ws : List (List Char)) (t : trie), NoDeadEnd t.root_ →
      NoDeadEnd (ws.foldl trie.insert t).root_ := by
    intro ws
    induction ws with
    | nil => exact fun t h => h
    | cons k ws ih => exact fun t h => ih _ (nde_insert_from k t.root_ (nde_children _ h))
  cases ws with
  | nil => exact absurd rfl h
  | cons k ws =>
    exact key ws _ (nde_insert_from k _
      (by simp [trie.empty, trie_node_t_.new, trie_node_t_.children]))

/-- Where every node is a word or has a child, the loop to the first word ends
at a word: `assert(false)` is not reached. -/
theorem first_word_total (n : trie_node_t_) (h : NoDeadEnd n) :
    ∀ m, ∃ out, first_word n m = some out := by
  induction h with
  | mk ch w h1 h2 ih =>
    intro m
    cases w with
    | true => exact ⟨m, by simp [first_word]⟩
    | false =>
      cases ch with
      | nil => simp at h1
      | cons p rest =>
        obtain ⟨k, next⟩ := p
        obtain ⟨out, hout⟩ := ih (k, next) (List.mem_cons_self _ _) (m ++ [k])
        exact ⟨out, by simpa [first_word] using hout⟩

/-- On a well-formed node the loop to the first word appends the smallest word
stored below the node. -/
theorem first_word_min [plain_char] (n : trie_node_t_) (h : WF n) :
    ∀ (acc out : List Char), first_word n acc = some out →
      ∃ ext, out = acc ++ ext ∧ exists_from ext n = true ∧
        ∀ k, exists_from k n = true → ext = k ∨ List.Lex (fun x y => char_value x < char_value y)
            ext k := by
  induction h with
  | mk ch w h1 h2 ih =>
    intro acc out hv
    cases w with
    | true =>
      simp only [first_word, Option.some.injEq] at hv
      refine ⟨[], by simp [hv], by simp [exists_from, trie_node_t_.is_word], ?_⟩
      intro k _
      cases k with
      | nil => exact Or.inl rfl
      | cons c k => exact Or.inr List.Lex.nil
    | false =>
      cases ch with
      | nil => simp [first_word] at hv
      | cons p rest =>
        obtain ⟨c0, n0⟩ := p
        simp only [first_word] at hv
        obtain ⟨ext, he, hex, hmin⟩ := ih (c0, n0) (List.mem_cons_self _ _) (acc ++ [c0]) out hv
        refine ⟨c0 :: ext, by simp [he], by simp [exists_from, trie_node_t_.children, find, hex],
          ?_⟩
        intro k hk
        cases k with
        | nil => simp [exists_from, trie_node_t_.is_word] at hk
        | cons c k =>
          simp only [exists_from, trie_node_t_.children, find] at hk
          by_cases hc : c = c0
          · subst hc
            simp only [if_true] at hk
            rcases hmin k hk with e | hl
            · exact Or.inl (by rw [e])
            · exact Or.inr (List.Lex.cons hl)
          · simp only [hc, if_false] at hk
            right
            apply List.Lex.rel
            have hs : (c0 :: keys rest).Pairwise (fun a b => char_value a < char_value b) := h1
            rw [List.pairwise_cons] at hs
            apply hs.1
            by_contra hnot
            rw [find_eq_none rest c hnot] at hk
            simp at hk

theorem exists_from_append (p : List Char) (n : trie_node_t_) (tail : List Char) :
    exists_from (p ++ tail) n =
      match walk p n with
      | none => false
      | some n' => exists_from tail n' := by
  induction p generalizing n with
  | nil => simp [walk]
  | cons c p ih =>
    simp only [List.cons_append, exists_from, walk]
    cases find n.children c with
    | none => rfl
    | some found => exact ih found

theorem walk_sub (P : trie_node_t_ → Prop)
    (hP : ∀ n c next, P n → find n.children c = some next → P next)
    (p : List Char) (n n' : trie_node_t_) (hn : P n) (h : walk p n = some n') : P n' := by
  induction p generalizing n with
  | nil =>
    simp only [walk, Option.some.injEq] at h
    exact h ▸ hn
  | cons c p ih =>
    simp only [walk] at h
    cases hf : find n.children c with
    | none => simp [hf] at h
    | some found =>
      simp only [hf] at h
      exact ih found (hP n c found hn hf) h

theorem wf_child1 [plain_char] (n : trie_node_t_) (c : Char) (next : trie_node_t_) (h : WF n)
    (hf : find n.children c = some next) : WF next := by
  cases h with
  | mk ch w h1 h2 => exact h2 _ (find_some_mem _ _ _ hf)

theorem nde_child1 (n : trie_node_t_) (c : Char) (next : trie_node_t_) (h : NoDeadEnd n)
    (hf : find n.children c = some next) : NoDeadEnd next := by
  cases h with
  | mk ch w h1 h2 => exact h2 _ (find_some_mem _ _ _ hf)

/-- What impl1 `prefix_match` returns on a trie built by inserts, for a
non-empty prefix: the smallest inserted word that starts with the prefix where
there is one, and false with the output untouched where there is none. -/
theorem prefix_match_build_spec1 [plain_char] (ws : List (List Char)) (p m0 : List Char)
    (hp : p ≠ []) :
    ((∃ k ∈ ws, p <+: k) →
        ∃ m, (build ws).prefix_match p m0 = some (true, m) ∧ m ∈ ws ∧ p <+: m ∧
          ∀ k ∈ ws, p <+: k → m = k ∨ List.Lex (fun x y => char_value x < char_value y) m k) ∧
      ((¬ ∃ k ∈ ws, p <+: k) → (build ws).prefix_match p m0 = some (false, m0)) := by
  have hwf : WF (build ws).root_ := wf_build_from1 ws trie.empty wf_new
  have hex : ∀ s, exists_from (p ++ s) (build ws).root_ = true ↔ p ++ s ∈ ws :=
    fun s => exists_build_iff1 ws (p ++ s)
  cases hw : walk p (build ws).root_ with
  | none =>
    have hno : ¬ ∃ k ∈ ws, p <+: k := by
      rintro ⟨k, hk, s, rfl⟩
      have := (hex s).2 hk
      rw [exists_from_append, hw] at this
      cases this
    exact ⟨fun h => absurd h hno, fun _ => by simp [trie.prefix_match, hw]⟩
  | some first =>
    have hwf' : WF first := walk_sub WF wf_child1 p _ first hwf hw
    have hnde : NoDeadEnd first := by
      cases p with
      | nil => exact absurd rfl hp
      | cons c q =>
        simp only [walk] at hw
        cases hf : find (build ws).root_.children c with
        | none => simp [hf] at hw
        | some next =>
          simp only [hf] at hw
          exact walk_sub NoDeadEnd nde_child1 q next first
            (nde_build1 ws _ (find_some_mem _ _ _ hf)) hw
    obtain ⟨out, hout⟩ := first_word_total first hnde p
    obtain ⟨ext, he, hext, hmin⟩ := first_word_min first hwf' p out hout
    have hmem : out ∈ ws := by
      rw [he, ← hex ext, exists_from_append, hw]
      exact hext
    have hres : (build ws).prefix_match p m0 = some (true, out) := by
      simp [trie.prefix_match, hw, hout]
    refine ⟨fun _ => ⟨out, hres, hmem, ⟨ext, he.symm⟩, ?_⟩, fun h => absurd ⟨out, hmem, ext, he.symm⟩ h⟩
    rintro k hk ⟨s, rfl⟩
    have hks := (hex s).2 hk
    rw [exists_from_append, hw] at hks
    rw [he]
    rcases hmin s hks with e | hl
    · exact Or.inl (by rw [e])
    · exact Or.inr (lex_append_left p ext s hl)

/-- Apart from the empty prefix on the empty trie, impl1 `prefix_match` returns:
`assert(false)` is not reached. -/
theorem prefix_match_build_total1 [plain_char] (ws : List (List Char)) (p m0 : List Char)
    (h : ws ≠ [] ∨ p ≠ []) : ∃ r, (build ws).prefix_match p m0 = some r := by
  by_cases hp : p = []
  · subst hp
    have hws : ws ≠ [] := by
      rcases h with h | h
      · exact h
      · exact absurd rfl h
    obtain ⟨out, hout⟩ := first_word_total _ (nde_build_root1 ws hws) []
    exact ⟨(true, out), by simp [trie.prefix_match, walk, hout]⟩
  · by_cases hk : ∃ k ∈ ws, p <+: k
    · obtain ⟨m, hm, -⟩ := (prefix_match_build_spec1 ws p m0 hp).1 hk
      exact ⟨_, hm⟩
    · exact ⟨_, (prefix_match_build_spec1 ws p m0 hp).2 hk⟩

/-- C30 (evaluation at the failing input). On the empty impl1 trie,
`prefix_match("", m)` reaches `assert(false && "prog error")`: the walk of the
empty prefix ends at the root, which is no word and has no children. -/
theorem prefix_match_empty_trie_asserts :
    (build []).prefix_match [] [] = none := by
  decide

end impl1
namespace impl3
variable {T : Type}

/-! ## The three implementations agree on prefix completion -/

/-- What impl3 `prefix_match` returns on a trie built by inserts, for a
non-empty prefix: the smallest inserted key that starts with the prefix where
there is one, and false with the output untouched where there is none. -/
theorem prefix_match_build_spec3 [plain_char] (moved : T → T) (ops : List (List Char × T))
    (p m0 : List Char) (hp : p ≠ []) :
    ((∃ k ∈ ops.map Prod.fst, p <+: k) →
        ∃ m, (build moved ops).prefix_match p m0 = some (true, m) ∧ m ∈ ops.map Prod.fst ∧
          p <+: m ∧
          ∀ k ∈ ops.map Prod.fst, p <+: k → m = k ∨ List.Lex
              (fun x y => char_value x < char_value y) m k) ∧
      ((¬ ∃ k ∈ ops.map Prod.fst, p <+: k) →
        (build moved ops).prefix_match p m0 = some (false, m0)) := by
  constructor
  · intro hex
    obtain ⟨m, hm⟩ := (prefix_match_build_iff moved ops p m0 hp).2 hex
    obtain ⟨h1, h2⟩ := prefix_match_sound_any _ p m0 m hm
    refine ⟨m, hm, ((exists_build_iff moved ops m).1 h2).2, h1, ?_⟩
    intro k hk hpk
    have hkne : k ≠ [] := by
      rintro rfl
      exact hp (List.prefix_nil.1 hpk)
    exact prefix_match_min_any _ (wf_build moved ops) p m0 m hm k
      ((exists_build_iff moved ops k).2 ⟨hkne, hk⟩) hpk
  · intro hno
    rcases prefix_match_build_cases moved ops p m0 with ⟨-, h⟩ | h
    · exact h
    · exact absurd ((prefix_match_build_iff moved ops p m0 hp).1 h) hno

/-- Where the impl3 prefix lookup finds a node, the impl2 visitor on the erased
node does what the impl3 visitor does from that node on. -/
theorem prefix_match_visitor_erase_found (q : List Char) (n n' : Node T) (rest acc : List Char)
    (h : lookup_prefix_visitor q n = (some n', rest)) :
    ∃ consumed, q = consumed ++ rest ∧
      impl2.prefix_match_visitor q (erase n) acc = prefix_match_visitor n' (acc ++ consumed) := by
  induction q generalizing n acc with
  | nil =>
    have hn : n' = n ∧ rest = [] := by
      cases n with
      | leaf data v =>
        simp only [lookup_prefix_visitor] at h
        split at h
        · simp only [Prod.mk.injEq, Option.some.injEq] at h
          exact ⟨h.1.symm, h.2.symm⟩
        · simp at h
      | branch ch =>
        simp only [lookup_prefix_visitor, Prod.mk.injEq, Option.some.injEq] at h
        exact ⟨h.1.symm, h.2.symm⟩
      | vbranch ch u =>
        simp only [lookup_prefix_visitor, Prod.mk.injEq, Option.some.injEq] at h
        exact ⟨h.1.symm, h.2.symm⟩
    obtain ⟨rfl, rfl⟩ := hn
    refine ⟨[], rfl, ?_⟩
    rw [List.append_nil, ← prefix_match_first_erase]
    cases n' <;> simp [impl2.prefix_match_visitor]
  | cons c q ih =>
    cases n with
    | leaf data v =>
      simp only [lookup_prefix_visitor] at h
      split at h
      · rename_i hc
        simp only [Prod.mk.injEq, Option.some.injEq] at h
        obtain ⟨rfl, rfl⟩ := h
        refine ⟨[], rfl, ?_⟩
        simp only [erase, impl2.prefix_match_visitor, if_pos hc, prefix_match_visitor,
          List.append_nil]
      · simp at h
    | branch ch =>
      simp only [lookup_prefix_visitor] at h
      cases hf : find ch c with
      | none => simp [hf] at h
      | some next =>
        simp only [hf] at h
        obtain ⟨consumed, h1, h2⟩ := ih next (acc ++ [c]) h
        refine ⟨c :: consumed, by simp [h1], ?_⟩
        simp only [erase, impl2.prefix_match_visitor, find_erase, hf, Option.map_some', h2]
        simp
    | vbranch ch u =>
      simp only [lookup_prefix_visitor] at h
      cases hf : find ch c with
      | none => simp [hf] at h
      | some next =>
        simp only [hf] at h
        obtain ⟨consumed, h1, h2⟩ := ih next (acc ++ [c]) h
        refine ⟨c :: consumed, by simp [h1], ?_⟩
        simp only [erase, impl2.prefix_match_visitor, find_erase, hf, Option.map_some', h2]
        simp

/-- Where the impl3 prefix lookup finds nothing, the impl2 visitor on the erased
node returns false. -/
theorem prefix_match_visitor_erase_miss (q : List Char) (n : Node T) (rest acc : List Char)
    (h : lookup_prefix_visitor q n = (none, rest)) :
    ∃ junk, impl2.prefix_match_visitor q (erase n) acc = some (false, junk) := by
  induction q generalizing n acc with
  | nil =>
    cases n with
    | leaf data v => simp [lookup_prefix_visitor] at h
    | branch ch => simp [lookup_prefix_visitor] at h
    | vbranch ch u => simp [lookup_prefix_visitor] at h
  | cons c q ih =>
    cases n with
    | leaf data v =>
      simp only [lookup_prefix_visitor] at h
      split at h
      · simp at h
      · rename_i hc
        exact ⟨[], by simp only [erase, impl2.prefix_match_visitor, if_neg hc]⟩
    | branch ch =>
      simp only [lookup_prefix_visitor] at h
      cases hf : find ch c with
      | none => exact ⟨acc, by simp [erase, impl2.prefix_match_visitor, find_erase, hf]⟩
      | some next =>
        simp only [hf] at h
        obtain ⟨junk, hj⟩ := ih next (acc ++ [c]) h
        exact ⟨junk, by simp [erase, impl2.prefix_match_visitor, find_erase, hf, hj]⟩
    | vbranch ch u =>
      simp only [lookup_prefix_visitor] at h
      cases hf : find ch c with
      | none => exact ⟨acc, by simp [erase, impl2.prefix_match_visitor, find_erase, hf]⟩
      | some next =>
        simp only [hf] at h
        obtain ⟨junk, hj⟩ := ih next (acc ++ [c]) h
        exact ⟨junk, by simp [erase, impl2.prefix_match_visitor, find_erase, hf, hj]⟩

/-- Called with an empty output, impl2 `prefix_match` on the erased trie returns
the flag that impl3 `prefix_match` returns and, where it is true, the same
match. -/
theorem prefix_match_erase (t : trie T) (p : List Char) (b : Bool) (m : List Char)
    (h : t.prefix_match p [] = some (b, m)) :
    ∃ m2, t.erase.prefix_match p [] = some (b, m2) ∧ (b = true → m2 = m) := by
  cases p with
  | nil =>
    simp only [trie.prefix_match, trie.lookup_node_prefix_, Option.some.injEq,
      Prod.mk.injEq] at h
    exact ⟨[], by simp [impl2.trie.prefix_match, ← h.1], fun hb => by simp [← h.1] at hb⟩
  | cons c p =>
    simp only [trie.prefix_match, trie.lookup_node_prefix_] at h
    have he : t.erase.prefix_match (c :: p) [] =
        impl2.prefix_match_visitor (c :: p) (erase (.branch t.root_)) [] := by
      simp [impl2.trie.prefix_match, trie.erase, erase]
    rcases hl : lookup_prefix_visitor (c :: p) (.branch t.root_) with ⟨node, rest⟩
    rw [hl] at h
    cases node with
    | none =>
      simp only [Option.some.injEq, Prod.mk.injEq] at h
      obtain ⟨junk, hj⟩ := prefix_match_visitor_erase_miss _ _ rest [] hl
      exact ⟨junk, by rw [he, hj, ← h.1], fun hb => by simp [← h.1] at hb⟩
    | some n' =>
      simp only at h
      obtain ⟨consumed, h1, h2⟩ := prefix_match_visitor_erase_found _ _ n' rest [] hl
      have htake : List.take ((c :: p).length - rest.length) (c :: p) = consumed := by
        rw [h1]
        simp
      rw [htake] at h
      rw [List.nil_append, h] at h2
      exact ⟨m, by rw [he, h2], fun _ => rfl⟩

end impl3

/-- C23. The three implementations agree on prefix completion: for non-empty
keys inserted in the same order into impl1, impl2 and impl3 (with any values)
and a non-empty prefix `p`, `prefix_match(p, m)` called with `m` empty
returns the same flag in all three, and where the flag is true the same `m`. -/
theorem prefix_match_agree {T : Type} [plain_char] (moved : T → T) (ops : List (List Char × T))
    (p : List Char) (_hne : ∀ k ∈ ops.map Prod.fst, k ≠ []) (hp : p ≠ []) :
    ∃ b m1 m2 m3,
      (impl1.build (ops.map Prod.fst)).prefix_match p [] = some (b, m1) ∧
      (impl2.build (ops.map Prod.fst)).prefix_match p [] = some (b, m2) ∧
      (impl3.build moved ops).prefix_match p [] = some (b, m3) ∧
      (b = true → m1 = m2 ∧ m2 = m3) := by
  have s1 := impl1.prefix_match_build_spec1 (ops.map Prod.fst) p [] hp
  have s3 := impl3.prefix_match_build_spec3 moved ops p [] hp
  by_cases hk : ∃ k ∈ ops.map Prod.fst, p <+: k
  · obtain ⟨m1, h1, hm1, hp1, hmin1⟩ := s1.1 hk
    obtain ⟨m3, h3, hm3, hp3, hmin3⟩ := s3.1 hk
    obtain ⟨m2, h2, hm2⟩ := impl3.prefix_match_erase _ p true m3 h3
    rw [impl3.erase_build] at h2
    have h13 : m1 = m3 := by
      rcases hmin1 m3 hm3 hp3 with e | hl
      · exact e
      · rcases hmin3 m1 hm1 hp1 with e | hl'
        · exact e.symm
        · exact absurd hl' (fun hl' => lex_asymm _ _ hl hl')
    exact ⟨true, m1, m2, m3, h1, h2, h3, fun _ => ⟨by rw [hm2 rfl, h13], hm2 rfl⟩⟩
  · have h1 := s1.2 hk
    have h3 := s3.2 hk
    obtain ⟨m2, h2, -⟩ := impl3.prefix_match_erase _ p false [] h3
    rw [impl3.erase_build] at h2
    exact ⟨false, [], m2, [], h1, h2, h3, fun hb => by cases hb⟩

/-- Witness of C23: the prefix "ba" over "bat" and "bake" yields "bake" in all
three. -/
theorem prefix_match_agree_witness :
    ∃ b m1 m2 m3,
      (impl1.build ([("bat".toList, (1 : Int)), ("bake".toList, 2)].map Prod.fst)).prefix_match
        "ba".toList [] = some (b, m1) ∧
      (impl2.build ([("bat".toList, (1 : Int)), ("bake".toList, 2)].map Prod.fst)).prefix_match
        "ba".toList [] = some (b, m2) ∧
      (impl3.build impl3.moved_int [("bat".toList, 1), ("bake".toList, 2)]).prefix_match
        "ba".toList [] = some (b, m3) ∧
      (b = true → m1 = m2 ∧ m2 = m3) :=
  prefix_match_agree impl3.moved_int [("bat".toList, 1), ("bake".toList, 2)] "ba".toList
    (by decide) (by decide)

/-! ## The compressed tries side by side: erasing the values -/

/-- C36: for every sequence of (key, value) inserts into an empty impl3 trie,
mapping each value-branch to a branch with `is_word = true`, each plain branch
to a branch with `is_word = false` and each leaf to a leaf with the same data
gives exactly the impl2 trie built by inserting the same keys in the same
order. -/
theorem impl3_erased_is_impl2 {T : Type} [plain_char] (moved : T → T) (ops : List (List Char × T)) :
    (impl3.build moved ops).erase = impl2.build (ops.map Prod.fst) ∧
    (∀ d v, impl3.erase (.leaf d v : impl3.Node T) = .leaf d) ∧
    (∀ ch, impl3.erase (.branch ch : impl3.Node T) = .branch (impl3.erase_children ch) false) ∧
    (∀ ch v, impl3.erase (.vbranch ch v : impl3.Node T) =
      .branch (impl3.erase_children ch) true) ∧
    (∀ ch : List (Char × impl3.Node T),
      impl3.erase_children ch = ch.map (fun p => (p.1, impl3.erase p.2))) := by
  refine ⟨impl3.erase_build moved ops, ?_, ?_, ?_, ?_⟩
  · intro d v
    simp [impl3.erase]
  · intro ch
    simp [impl3.erase]
  · intro ch v
    simp [impl3.erase]
  · intro ch
    induction ch with
    | nil => simp [impl3.erase_children]
    | cons p m ih =>
      obtain ⟨c, n⟩ := p
      simp [impl3.erase_children, ih]

namespace impl3
variable {T : Type}

/-! ## impl3: `build_branches_to_value` -/

theorem size_chain (s : List Char) (b : Node T) : size (chain s b) = s.length + size b := by
  induction s with
  | nil => simp [chain]
  | cons c s ih =>
    simp only [chain, size, size_children, ih, List.length_cons]
    omega

/-- Above the end of a chain every node is a plain branch whose only child is
the next node of the chain. -/
theorem descend_chain_above (p : List Char) (c : Char) (q : List Char) (b : Node T) :
    descend p (chain (p ++ c :: q) b) = some (.branch [(c, chain q b)]) := by
  induction p with
  | nil => simp [descend, chain]
  | cons d p ih => simpa [descend, chain, Node.children, find] using ih

/-- C38: for every string `s` and value `v`, the subtree returned by
`build_branches_to_value(s, v)` has exactly `|s| + 1` nodes; the returned
pointer designates the node reached from the root by the characters of `s`,
which is a value-branch carrying `v` with no children (for `s` empty the root
itself); and every node above it, reached by a proper prefix of `s`, is a plain
branch with exactly one child, under the next character of `s`. -/
theorem build_branches_to_value_single_chain [plain_char] (s : List Char) (v : T) :
    size (build_branches_to_value s v).1 = s.length + 1 ∧
    (build_branches_to_value s v).2 = s ∧
    descend (build_branches_to_value s v).2 (build_branches_to_value s v).1 =
      some (.vbranch [] v) ∧
    (s = [] → (build_branches_to_value s v).1 = .vbranch [] v) ∧
    ∀ p c q, s = p ++ c :: q →
      ∃ child, descend p (build_branches_to_value s v).1 = some (.branch [(c, child)]) := by
  rw [build_branches_to_value_eq]
  refine ⟨?_, rfl, descend_chain s _, ?_, ?_⟩
  · simp [size_chain, size, size_children]
  · intro hs
    subst hs
    rfl
  · intro p c q hs
    subst hs
    exact ⟨_, descend_chain_above p c q _⟩

/-! ## impl3: enumeration and lookup on arbitrary trees -/

/-- C32: on every impl3 tree whose children maps are maps (keys strictly
increasing), built by insert or not, `exists(w)` is true exactly when `w` is
an element of `get_words()`. -/
theorem exists_iff_mem_get_words [plain_char] (t : trie T) (h : WF (.branch t.root_))
    (w : List Char) :
    t.exists w = true ↔ w ∈ t.get_words := by
  rw [get_words_eq, mem_words_iff _ h, exists_eq]

theorem exists_iff_mem_get_words_witness :
    WF (.branch (⟨[('a', .vbranch [('b', .branch []), ('c', .leaf ['d'] 2)] 1)]⟩ : trie Nat).root_) ∧
    ((⟨[('a', .vbranch [('b', .branch []), ('c', .leaf ['d'] 2)] 1)]⟩ : trie Nat).exists ['a'] = true ↔
      ['a'] ∈ (⟨[('a', .vbranch [('b', .branch []), ('c', .leaf ['d'] 2)] 1)]⟩ : trie Nat).get_words) :=
  have h : WF (.branch (⟨[('a', .vbranch [('b', .branch []), ('c', .leaf ['d'] 2)] 1)]⟩ :
      trie Nat).root_) := by
    refine WF.branch _ (by simp [keys]) ?_
    intro p hp
    simp only [List.mem_singleton] at hp
    subst hp
    refine WF.vbranch _ _ (by simp [keys]; decide) ?_
    intro p hp
    simp only [List.mem_cons, List.mem_singleton, List.not_mem_nil, or_false] at hp
    rcases hp with hp | hp
    · subst hp
      exact WF.branch _ (by simp [keys]) (by simp)
    · subst hp
      exact WF.leaf _ _
  ⟨h, exists_iff_mem_get_words _ h ['a']⟩

end impl3

namespace impl2

/-! ## impl2: the reads of `exists` -/

/-- C31: `exists` reads the word at its end and beyond. After the inserts of
"ab" and "ac" the call `exists("a")` arrives with the input used up at the
branch below 'a', whose `is_word` is false, and reads position 1, the length of
the word, to look up a child, whatever that read delivers. Where the read
delivers the terminator and the branch has a child under it, the next branch
reads position 2. -/
theorem exists_reads_at_end :
    (∀ oob, (build ["ab".toList, "ac".toList]).exists_reads oob "a".toList = [0, 1]) ∧
    "a".toList.length = 1 ∧
    (build [['a', Char.ofNat 0, 'x'], ['a', Char.ofNat 0, 'y']]).exists_reads
      (fun _ => Char.ofNat 0) "a".toList = [0, 1, 2] := by
  refine ⟨?_, by decide, by decide⟩
  intro oob
  have hb : (build ["ab".toList, "ac".toList]).root_ =
      [('a', .branch [('b', .leaf []), ('c', .leaf [])] false)] := rfl
  show exists_visitor_reads ['a'] oob
    (.branch (build ["ab".toList, "ac".toList]).root_ false) 0 = [0, 1]
  rw [hb]
  by_cases h1 : oob 1 = 'b'
  · simp [exists_visitor_reads, exists_next_reads, char_at, h1]
  · by_cases h2 : oob 1 = 'c'
    · simp [exists_visitor_reads, exists_next_reads, char_at, h2]
    · simp [exists_visitor_reads, exists_next_reads, char_at, h1, h2]

end impl2

namespace impl3
variable {T : Type}

/-! ## The order of `get_words` -/

theorem sorted_words_children [plain_char] (ch : List (Char × Node T))
    (hs : (keys ch).Pairwise (fun a b => char_value a < char_value b))
    (hn : ∀ p ∈ ch, (words p.2).Pairwise (List.Lex (fun x y => char_value x < char_value y))) :
    (words_children ch).Pairwise (List.Lex (fun x y => char_value x < char_value y)) := by
  induction ch with
  | nil => simp [words_children]
  | cons p m ih =>
    obtain ⟨c, n⟩ := p
    have hs' : (c :: keys m).Pairwise (fun a b => char_value a < char_value b) := hs
    rw [List.pairwise_cons] at hs'
    simp only [words_children]
    rw [List.pairwise_append]
    refine ⟨?_, ih hs'.2 (fun p hp => hn p (List.mem_cons_of_mem _ hp)), ?_⟩
    · rw [List.pairwise_map]
      exact (hn (c, n) (List.mem_cons_self _ _)).imp (fun h => List.Lex.cons h)
    · intro a ha b hb
      obtain ⟨w', -, rfl⟩ := List.mem_map.1 ha
      obtain ⟨p, hp, w'', -, rfl⟩ := (mem_words_children m _).1 hb
      exact List.Lex.rel (hs'.1 p.1 (List.mem_map.2 ⟨p, hp, rfl⟩))

/-- On a well-formed node the enumeration is strictly increasing in the
lexicographic order. -/
theorem sorted_words [plain_char] (n : Node T) (h : WF n) :
    (words n).Pairwise (List.Lex (fun x y => char_value x < char_value y)) := by
  induction h with
  | leaf d v => simp [words]
  | branch ch h1 h2 ih => exact sorted_words_children ch h1 ih
  | vbranch ch u h1 h2 ih =>
    rw [words, List.pairwise_cons]
    refine ⟨?_, sorted_words_children ch h1 ih⟩
    intro b hb
    cases b with
    | nil => exact absurd hb (nil_not_mem_words_children ch)
    | cons k b => exact List.Lex.nil

theorem get_words_sorted_any [plain_char] (t : trie T) (h : WF (.branch t.root_)) :
    t.get_words.Pairwise (List.Lex (fun x y => char_value x < char_value y)) := by
  rw [get_words_eq]
  exact sorted_words _ h

/-- The erasure of a well-formed node is well-formed. -/
theorem keys_erase_children (ch : List (Char × Node T)) : keys (erase_children ch) = keys ch := by
  induction ch with
  | nil => simp [erase_children, keys]
  | cons p m ih =>
    obtain ⟨c, n⟩ := p
    simp only [keys] at ih
    simp [erase_children, keys, ih]

theorem mem_erase_children (ch : List (Char × Node T)) (q : Char × impl2.Node)
    (h : q ∈ erase_children ch) : ∃ p ∈ ch, q = (p.1, erase p.2) := by
  induction ch with
  | nil => simp [erase_children] at h
  | cons p m ih =>
    obtain ⟨c, n⟩ := p
    simp only [erase_children, List.mem_cons] at h
    rcases h with h | h
    · exact ⟨(c, n), List.mem_cons_self _ _, h⟩
    · obtain ⟨p, hp, hq⟩ := ih h
      exact ⟨p, List.mem_cons_of_mem _ hp, hq⟩

theorem wf_erase [plain_char] (n : Node T) (h : WF n) : impl2.WF (erase n) := by
  induction h with
  | leaf d v => exact impl2.WF.leaf d
  | branch ch h1 h2 ih =>
    rw [erase]
    refine impl2.WF.branch _ _ (by rw [keys_erase_children]; exact h1) ?_
    intro q hq
    obtain ⟨p, hp, rfl⟩ := mem_erase_children ch q hq
    exact ih p hp
  | vbranch ch u h1 h2 ih =>
    rw [erase]
    refine impl2.WF.branch _ _ (by rw [keys_erase_children]; exact h1) ?_
    intro q hq
    obtain ⟨p, hp, rfl⟩ := mem_erase_children ch q hq
    exact ih p hp

end impl3

namespace impl2

mutual
theorem erase_lift : ∀ n : Node, impl3.erase (lift n) = n
  | .leaf d => by simp [lift, impl3.erase]
  | .branch ch true => by
    simp only [lift, impl3.erase]
    rw [erase_lift_children ch]
  | .branch ch false => by
    simp only [lift, impl3.erase]
    rw [erase_lift_children ch]
theorem erase_lift_children : ∀ m : List (Char × Node),
    impl3.erase_children (lift_children m) = m
  | [] => by simp [lift_children, impl3.erase_children]
  | (c, n) :: m => by
    simp only [lift_children, impl3.erase_children]
    rw [erase_lift n, erase_lift_children m]
end

theorem keys_lift_children (ch : List (Char × Node)) : keys (lift_children ch) = keys ch := by
  induction ch with
  | nil => simp [lift_children, keys]
  | cons p m ih =>
    obtain ⟨c, n⟩ := p
    simp only [keys] at ih
    simp [lift_children, keys, ih]

theorem mem_lift_children (ch : List (Char × Node)) (q : Char × impl3.Node Unit)
    (h : q ∈ lift_children ch) : ∃ p ∈ ch, q = (p.1, lift p.2) := by
  induction ch with
  | nil => simp [lift_children] at h
  | cons p m ih =>
    obtain ⟨c, n⟩ := p
    simp only [lift_children, List.mem_cons] at h
    rcases h with h | h
    · exact ⟨(c, n), List.mem_cons_self _ _, h⟩
    · obtain ⟨p, hp, hq⟩ := ih h
      exact ⟨p, List.mem_cons_of_mem _ hp, hq⟩

theorem wf_lift [plain_char] (n : Node) (h : WF n) : impl3.WF (lift n) := by
  induction h with
  | leaf d => exact impl3.WF.leaf d ()
  | branch ch w h1 h2 ih =>
    have hk : (keys (lift_children ch)).Pairwise (fun a b => char_value a < char_value b) := by
      rw [keys_lift_children]; exact h1
    have hc : ∀ q ∈ lift_children ch, impl3.WF q.2 := by
      intro q hq
      obtain ⟨p, hp, rfl⟩ := mem_lift_children ch q hq
      exact ih p hp
    cases w with
    | true => rw [lift]; exact impl3.WF.vbranch _ _ hk hc
    | false => rw [lift]; exact impl3.WF.branch _ hk hc

theorem get_words_sorted_any2 [plain_char] (t : trie) (h : WF (.branch t.root_ false)) :
    t.get_words.Pairwise (List.Lex (fun x y => char_value x < char_value y)) := by
  have h3 : impl3.WF (.branch (lift_children t.root_) : impl3.Node Unit) := by
    have := wf_lift _ h
    rwa [lift] at this
  have he : (⟨lift_children t.root_⟩ : impl3.trie Unit).erase = t := by
    simp [impl3.trie.erase, erase_lift_children]
  have := impl3.get_words_sorted_any ⟨lift_children t.root_⟩ h3
  rwa [← impl3.get_words_erase, he] at this

theorem wf_build2 [plain_char] (ws : List (List Char)) : WF (.branch (build ws).root_ false) := by
  rw [build_eq_erase]
  have := impl3.wf_erase _ (impl3.wf_build id (ws.map (fun k => (k, ()))))
  rwa [impl3.erase] at this

end impl2

/-- C33: for every impl3 trie and every impl2 trie (children maps being maps:
keys strictly increasing), the list returned by `get_words()` is strictly
increasing in the lexicographic order, in which characters are ordered as in
the children maps, that is by `std::less<char>` of the platform, and a key
precedes its proper extensions; hence it has no duplicates. -/
theorem get_words_sorted {T : Type} [plain_char] (t3 : impl3.trie T) (t2 : impl2.trie)
    (h3 : impl3.WF (.branch t3.root_)) (h2 : impl2.WF (.branch t2.root_ false)) :
    t3.get_words.Pairwise (List.Lex (fun x y => char_value x < char_value y)) ∧ t3.get_words.Nodup ∧
    t2.get_words.Pairwise (List.Lex (fun x y => char_value x < char_value y)) ∧ t2.get_words.Nodup ∧
    ∀ (k : List Char) (c : Char) (e : List Char),
      List.Lex (fun x y => char_value x < char_value y) k (k ++ c :: e) := by
  have hn : ∀ l : List (List Char), l.Pairwise (List.Lex (fun x y => char_value x < char_value y))
      → l.Nodup :=
    fun l hl => hl.imp (fun h he => by subst he; exact lex_asymm _ _ h h)
  refine ⟨impl3.get_words_sorted_any t3 h3, hn _ (impl3.get_words_sorted_any t3 h3),
    impl2.get_words_sorted_any2 t2 h2, hn _ (impl2.get_words_sorted_any2 t2 h2), ?_⟩
  intro k c e
  have := lex_append_left k [] (c :: e) List.Lex.nil
  simpa using this

theorem get_words_sorted_witness :
    (impl3.build impl3.moved_int [("cat".toList, 1), ("cake".toList, 3), ("ca".toList, 2)]).get_words
      = ["ca".toList, "cake".toList, "cat".toList] ∧
    (impl3.build impl3.moved_int [(['b'], 1), ([Char.ofNat 0xE9], 2), (['a'], 3)]).get_words
      = [[Char.ofNat 0xE9], ['a'], ['b']] ∧
    (impl3.build impl3.moved_int
      [(['b'], 1), ([Char.ofNat 0xE9], 2), (['a'], 3)]).get_words.Pairwise
        (List.Lex (fun x y => char_value x < char_value y)) ∧
    (impl2.build [['b'], [Char.ofNat 0xE9], ['a']]).get_words.Pairwise
        (List.Lex (fun x y => char_value x < char_value y)) :=
  have h := get_words_sorted
    (impl3.build impl3.moved_int [(['b'], 1), ([Char.ofNat 0xE9], 2), (['a'], 3)])
    (impl2.build [['b'], [Char.ofNat 0xE9], ['a']])
    (impl3.wf_build _ _) (impl2.wf_build2 _)
  ⟨by decide, by decide, h.1, h.2.2.1⟩

/-- The order of `get_words()` follows the platform: the key that is the byte
`0xE9` comes first where plain `char` is signed and last where it is
unsigned, in impl3 and in impl2. -/
theorem get_words_order_platforms :
    (@impl3.build Int ⟨true⟩ impl3.moved_int
      [(['b'], 1), ([Char.ofNat 0xE9], 2), (['a'], 3)]).get_words =
        [[Char.ofNat 0xE9], ['a'], ['b']] ∧
    (@impl3.build Int ⟨false⟩ impl3.moved_int
      [(['b'], 1), ([Char.ofNat 0xE9], 2), (['a'], 3)]).get_words =
        [['a'], ['b'], [Char.ofNat 0xE9]] ∧
    (@impl2.build ⟨true⟩ [['b'], [Char.ofNat 0xE9], ['a']]).get_words =
        [[Char.ofNat 0xE9], ['a'], ['b']] ∧
    (@impl2.build ⟨false⟩ [['b'], [Char.ofNat 0xE9], ['a']]).get_words =
        [['a'], ['b'], [Char.ofNat 0xE9]] := by
  decide

namespace impl3
variable {T : Type}

/-! ## impl3: the compression invariant -/

theorem words_chain (p : List Char) (b : Node T) :
    words (chain p b) = (words b).map (fun w => p ++ w) := by
  induction p with
  | nil => simp [chain]
  | cons c p ih => simp [chain, words, words_children, ih]

theorem length_words_fork [plain_char] (r1 r2 : List Char) (lv v : T) (b : Node T)
    (hd : r1 = [] ∨ r2 = [] ∨ r1.head? ≠ r2.head?) (h : fork r1 r2 lv v = some b) :
    (words b).length = 2 := by
  cases r1 with
  | nil =>
    cases r2 with
    | nil => simp [fork] at h
    | cons c2 t2 =>
      simp only [fork, Option.some.injEq] at h; subst h
      simp [words, words_children]
  | cons c1 t1 =>
    cases r2 with
    | nil =>
      simp only [fork, Option.some.injEq] at h; subst h
      simp [words, words_children]
    | cons c2 t2 =>
      simp only [fork, Option.some.injEq] at h; subst h
      have hne : c2 ≠ c1 := by
        intro he
        subst he
        simp at hd
      simp only [words, set]
      split
      · simp [words_children, words]
      · simp [hne, words_children, words]

theorem compressed_fork [plain_char] (r1 r2 : List Char) (lv v : T) (b : Node T)
    (hd : r1 = [] ∨ r2 = [] ∨ r1.head? ≠ r2.head?) (h : fork r1 r2 lv v = some b) :
    Compressed b := by
  have hl := length_words_fork r1 r2 lv v b hd h
  cases r1 with
  | nil =>
    cases r2 with
    | nil => simp [fork] at h
    | cons c2 t2 =>
      simp only [fork, Option.some.injEq] at h; subst h
      refine Compressed.vbranch _ _ (by simp) ?_
      intro q hq
      simp only [List.mem_singleton] at hq
      subst hq
      exact Compressed.leaf _ _
  | cons c1 t1 =>
    cases r2 with
    | nil =>
      simp only [fork, Option.some.injEq] at h; subst h
      refine Compressed.vbranch _ _ (by simp) ?_
      intro q hq
      simp only [List.mem_singleton] at hq
      subst hq
      exact Compressed.leaf _ _
    | cons c2 t2 =>
      simp only [fork, Option.some.injEq] at h; subst h
      refine Compressed.branch _ (by rw [words] at hl; omega) ?_
      intro q hq
      rcases mem_set _ _ _ _ hq with rfl | hq
      · exact Compressed.leaf _ _
      · simp only [List.mem_singleton] at hq
        subst hq
        exact Compressed.leaf _ _

theorem compressed_chain (p : List Char) (b : Node T) (h : Compressed b)
    (h2 : 2 ≤ (words b).length) : Compressed (chain p b) := by
  induction p with
  | nil => exact h
  | cons c p ih =>
    refine Compressed.branch _ ?_ ?_
    · have := words_chain p b
      simp [words_children, this]
      exact h2
    · intro q hq
      simp only [List.mem_singleton] at hq
      subst hq
      exact ih

theorem compressed_breakup_leaf [plain_char] (data : List Char) (lv : T) (r : List Char) (v : T)
    (n : Node T)
    (h : breakup_leaf data lv r v = some n) : Compressed n ∧ (words n).length = 2 := by
  obtain ⟨p, r1, r2, rfl, rfl, -, hd⟩ := mismatch_spec data r
  rw [breakup_leaf_eq p r1 r2 lv v hd] at h
  cases hf : fork r1 r2 lv v with
  | none => simp [hf] at h
  | some b =>
    simp only [hf, Option.map_some', Option.some.injEq] at h
    subst h
    have hl := length_words_fork r1 r2 lv v b hd hf
    refine ⟨compressed_chain p b (compressed_fork r1 r2 lv v b hd hf) (by omega), ?_⟩
    rw [words_chain, List.length_map, hl]

theorem length_words_pos (n : Node T) (h : Compressed n) : 1 ≤ (words n).length := by
  cases h with
  | leaf d v => simp [words]
  | branch ch h1 h2 => rw [words]; omega
  | vbranch ch v h1 h2 => simp [words]

/-- Replacing a child by a node that stores at least as many keys, or adding a
child, does not lower the number of keys stored below a branch. -/
theorem length_words_children_set [plain_char] (ch : List (Char × Node T)) (c : Char) (x : Node T)
    (hle : ∀ y, find ch c = some y → (words y).length ≤ (words x).length) :
    (words_children ch).length ≤ (words_children (set ch c x)).length := by
  induction ch with
  | nil => simp [words_children]
  | cons p m ih =>
    obtain ⟨k, y⟩ := p
    simp only [set]
    split
    · simp [words_children]
    · split
      · rename_i hck
        have := hle y (by simp [find, hck])
        simp only [words_children, List.length_append, List.length_map]
        omega
      · rename_i hck
        have := ih (fun y' hy' => hle y' (by simpa [find, hck] using hy'))
        simp only [words_children, List.length_append, List.length_map]
        omega

theorem length_words_insert_visitor [plain_char] (moved : T → T) (r : List Char) (n : Node T)
    (v : T) :
    (words n).length ≤ (words (insert_visitor moved r n v)).length := by
  induction r generalizing n with
  | nil =>
    cases n with
    | leaf data lv =>
      rw [insert_visitor_leaf]
      cases hb : breakup_leaf data lv [] v with
      | none => simp [words]
      | some n' => simp [words, (compressed_breakup_leaf _ _ _ _ _ hb).2]
    | branch ch => simp [insert_visitor, words]
    | vbranch ch u => simp [insert_visitor]
  | cons c rest ih =>
    cases n with
    | leaf data lv =>
      rw [insert_visitor_leaf]
      cases hb : breakup_leaf data lv (c :: rest) v with
      | none => simp [words]
      | some n' => simp [words, (compressed_breakup_leaf _ _ _ _ _ hb).2]
    | branch ch =>
      cases hf : find ch c with
      | none =>
        simp only [insert_visitor, hf, words]
        exact length_words_children_set ch c _ (by simp [hf])
      | some next =>
        simp only [insert_visitor, hf, words]
        refine length_words_children_set ch c _ ?_
        intro y hy
        rw [hf, Option.some.injEq] at hy
        subst hy
        exact ih next
    | vbranch ch u =>
      cases hf : find ch c with
      | none =>
        simp only [insert_visitor, hf, words, List.length_cons, Nat.add_le_add_iff_right]
        exact length_words_children_set ch c _ (by simp [hf])
      | some next =>
        simp only [insert_visitor, hf, words, List.length_cons, Nat.add_le_add_iff_right]
        refine length_words_children_set ch c _ ?_
        intro y hy
        rw [hf, Option.some.injEq] at hy
        subst hy
        exact ih next

theorem compressed_children_set [plain_char] (ch : List (Char × Node T)) (c : Char) (x : Node T)
    (hch : ∀ p ∈ ch, Compressed p.2) (hx : Compressed x) :
    ∀ p ∈ set ch c x, Compressed p.2 := by
  intro p hp
  rcases mem_set _ _ _ _ hp with rfl | hp
  · exact hx
  · exact hch p hp

theorem compressed_insert_visitor [plain_char] (moved : T → T) (r : List Char) (n : Node T) (v : T)
    (h : Compressed n) : Compressed (insert_visitor moved r n v) := by
  induction r generalizing n with
  | nil =>
    cases h with
    | leaf data lv =>
      rw [insert_visitor_leaf]
      cases hb : breakup_leaf data lv [] v with
      | none => exact Compressed.leaf _ _
      | some n' => exact (compressed_breakup_leaf _ _ _ _ _ hb).1
    | branch ch h1 h2 =>
      refine Compressed.vbranch _ _ ?_ h2
      intro he
      subst he
      simp [words_children] at h1
    | vbranch ch u h1 h2 => exact Compressed.vbranch _ _ h1 h2
  | cons c rest ih =>
    cases h with
    | leaf data lv =>
      rw [insert_visitor_leaf]
      cases hb : breakup_leaf data lv (c :: rest) v with
      | none => exact Compressed.leaf _ _
      | some n' => exact (compressed_breakup_leaf _ _ _ _ _ hb).1
    | branch ch h1 h2 =>
      have hm := length_words_insert_visitor moved (c :: rest) (.branch ch) v
      cases hf : find ch c with
      | none =>
        simp only [insert_visitor, hf, words] at hm ⊢
        exact Compressed.branch _ (by omega)
          (compressed_children_set _ _ _ h2 (Compressed.leaf _ _))
      | some next =>
        simp only [insert_visitor, hf, words] at hm ⊢
        exact Compressed.branch _ (by omega)
          (compressed_children_set _ _ _ h2 (ih next (h2 _ (find_some_mem _ _ _ hf))))
    | vbranch ch u h1 h2 =>
      cases hf : find ch c with
      | none =>
        simp only [insert_visitor, hf]
        exact Compressed.vbranch _ _ (set_ne_nil _ _ _)
          (compressed_children_set _ _ _ h2 (Compressed.leaf _ _))
      | some next =>
        simp only [insert_visitor, hf]
        exact Compressed.vbranch _ _ (set_ne_nil _ _ _)
          (compressed_children_set _ _ _ h2 (ih next (h2 _ (find_some_mem _ _ _ hf))))

theorem compressed_insert [plain_char] (moved : T → T) (t : trie T) (k : List Char) (v : T)
    (h : ∀ p ∈ t.root_, Compressed p.2) :
    ∀ p ∈ (t.insert moved k v).root_, Compressed p.2 := by
  cases k with
  | nil => exact h
  | cons c rest =>
    simp only [trie.insert]
    cases hf : find t.root_ c with
    | none => exact compressed_children_set _ _ _ h (Compressed.leaf _ _)
    | some first =>
      exact compressed_children_set _ _ _ h
        (compressed_insert_visitor moved rest first v (h _ (find_some_mem _ _ _ hf)))

theorem compressed_build_from [plain_char] (moved : T → T) (ops : List (List Char × T)) (t : trie T)
    (h : ∀ p ∈ t.root_, Compressed p.2) :
    ∀ p ∈ (ops.foldl (fun t op => t.insert moved op.1 op.2) t).root_, Compressed p.2 := by
  induction ops generalizing t with
  | nil => exact h
  | cons op ops ih => exact ih _ (compressed_insert moved t op.1 op.2 h)

/-- In a trie built by inserts, every node below the root is compressed. -/
theorem compressed_build [plain_char] (moved : T → T) (ops : List (List Char × T)) :
    ∀ p ∈ (build moved ops).root_, Compressed p.2 :=
  compressed_build_from moved ops trie.empty (by simp [trie.empty])

theorem compressed_child (n : Node T) (c : Char) (next : Node T) (h : Compressed n)
    (hf : find n.children c = some next) : Compressed next := by
  cases h with
  | leaf d v => simp [Node.children, find] at hf
  | branch ch h1 h2 => exact h2 _ (find_some_mem _ _ _ hf)
  | vbranch ch v h1 h2 => exact h2 _ (find_some_mem _ _ _ hf)

theorem descend_sub (P : Node T → Prop)
    (hP : ∀ n c next, P n → find n.children c = some next → P next)
    (p : List Char) (n n' : Node T) (hn : P n) (h : descend p n = some n') : P n' := by
  induction p generalizing n with
  | nil =>
    simp only [descend, Option.some.injEq] at h
    subst h
    exact hn
  | cons c p ih =>
    simp only [descend] at h
    cases hf : find n.children c with
    | none => simp [hf] at h
    | some child =>
      simp only [hf] at h
      exact ih child (hP n c child hn hf) h

/-- The nodes reached from the root of a built trie by a non-empty path are
well-formed and compressed. -/
theorem descend_build [plain_char] (moved : T → T) (ops : List (List Char × T)) (p : List Char)
    (n : Node T)
    (hp : p ≠ []) (h : descend p (.branch (build moved ops).root_) = some n) :
    WF n ∧ Compressed n := by
  cases p with
  | nil => exact absurd rfl hp
  | cons c p =>
    simp only [descend, Node.children] at h
    cases hf : find (build moved ops).root_ c with
    | none => simp [hf] at h
    | some child =>
      simp only [hf] at h
      have hw : WF child := wf_child _ c child (wf_build moved ops) hf
      have hc : Compressed child := compressed_build moved ops _ (find_some_mem _ _ _ hf)
      exact ⟨descend_sub WF wf_child p child n hw h,
        descend_sub Compressed compressed_child p child n hc h⟩

/-- A well-formed compressed node stores a key. -/
theorem exists_key [plain_char] (n : Node T) (hw : WF n) (hc : Compressed n) :
    ∃ k, (get n k).isSome = true := by
  have h1 := length_words_pos n hc
  cases hl : words n with
  | nil => simp [hl] at h1
  | cons a l => exact ⟨a, (mem_words_iff n hw a).1 (by simp [hl])⟩

/-- A well-formed compressed plain branch stores two keys. -/
theorem two_keys_of_branch [plain_char] (ch : List (Char × Node T)) (hw : WF (.branch ch))
    (hc : Compressed (.branch ch)) :
    ∃ k1 k2, k1 ≠ k2 ∧ (get (.branch ch) k1).isSome = true ∧
      (get (.branch ch) k2).isSome = true := by
  have hn := nodup_words _ hw
  cases hc with
  | branch _ h1 h2 =>
    rw [words] at hn
    cases hl : words_children ch with
    | nil => simp [hl] at h1
    | cons a l =>
      cases l with
      | nil => simp [hl] at h1
      | cons b l =>
        rw [hl] at hn
        refine ⟨a, b, ?_, (mem_words_iff _ hw a).1 (by simp [words, hl]),
          (mem_words_iff _ hw b).1 (by simp [words, hl])⟩
        intro he
        subst he
        simp at hn

/-- A well-formed compressed value-branch stores a non-empty key besides the
empty one. -/
theorem key_below_vbranch [plain_char] (ch : List (Char × Node T)) (v : T) (hw : WF (.vbranch ch v))
    (hc : Compressed (.vbranch ch v)) :
    ∃ c k, (get (.vbranch ch v) (c :: k)).isSome = true := by
  cases hc with
  | vbranch _ _ h1 h2 =>
    cases hw with
    | vbranch _ _ w1 w2 =>
      cases ch with
      | nil => exact absurd rfl h1
      | cons p m =>
        obtain ⟨c, x⟩ := p
        obtain ⟨k, hk⟩ := exists_key x (w2 _ (List.mem_cons_self _ _))
          (h2 _ (List.mem_cons_self _ _))
        exact ⟨c, k, by simpa [find] using hk⟩

/-- C35: in every impl3 trie obtained from the empty trie by inserts, at every
node below the root: a value-branch has at least one child; the subtree of a
plain branch stores at least two keys; every subtree stores a key; and a
subtree that stores only one key is a single leaf. -/
theorem compression_invariant [plain_char] (moved : T → T) (ops : List (List Char × T))
    (p : List Char)
    (n : Node T) (hp : p ≠ [])
    (h : descend p (.branch (build moved ops).root_) = some n) :
    (∀ ch v, n = .vbranch ch v → ch ≠ []) ∧
    (∀ ch, n = .branch ch → ∃ k1 k2, k1 ≠ k2 ∧
      (build moved ops).exists (p ++ k1) = true ∧ (build moved ops).exists (p ++ k2) = true) ∧
    (∃ k, (build moved ops).exists (p ++ k) = true) ∧
    ((∀ k1 k2, (build moved ops).exists (p ++ k1) = true →
        (build moved ops).exists (p ++ k2) = true → k1 = k2) → ∃ d v, n = .leaf d v) := by
  obtain ⟨hw, hc⟩ := descend_build moved ops p n hp h
  have hg : ∀ k, (build moved ops).exists (p ++ k) = (get n k).isSome := by
    intro k
    rw [exists_eq, get_descend p _ n h hp]
  refine ⟨?_, ?_, ?_, ?_⟩
  · intro ch v hn
    subst hn
    cases hc with
    | vbranch _ _ h1 h2 => exact h1
  · intro ch hn
    subst hn
    obtain ⟨k1, k2, hne, h1, h2⟩ := two_keys_of_branch ch hw hc
    exact ⟨k1, k2, hne, by rw [hg, h1], by rw [hg, h2]⟩
  · obtain ⟨k, hk⟩ := exists_key n hw hc
    exact ⟨k, by rw [hg, hk]⟩
  · intro hone
    cases n with
    | leaf d v => exact ⟨d, v, rfl⟩
    | branch ch =>
      obtain ⟨k1, k2, hne, h1, h2⟩ := two_keys_of_branch ch hw hc
      exact absurd (hone k1 k2 (by rw [hg, h1]) (by rw [hg, h2])) hne
    | vbranch ch v =>
      obtain ⟨c, k, hk⟩ := key_below_vbranch ch v hw hc
      have := hone [] (c :: k) (by rw [hg]; simp) (by rw [hg, hk])
      simp at this

theorem compression_invariant_witness :
    descend "ca".toList (.branch (build moved_int [("cat".toList, 1), ("cake".toList, 3)]).root_) =
      some (.branch [('k', .leaf ['e'] 3), ('t', .leaf [] 1)]) ∧
    ∃ k1 k2, k1 ≠ k2 ∧
      (build moved_int [("cat".toList, 1), ("cake".toList, 3)]).exists ("ca".toList ++ k1) = true ∧
      (build moved_int [("cat".toList, 1), ("cake".toList, 3)]).exists ("ca".toList ++ k2) = true :=
  ⟨rfl, (compression_invariant moved_int [("cat".toList, 1), ("cake".toList, 3)] "ca".toList
    (.branch [('k', .leaf ['e'] 3), ('t', .leaf [] 1)]) (by decide) (by rfl)).2.1 _ rfl⟩

end impl3

/-- Two maps with the same lookups are the same map. -/
theorem ext_of_find {β : Type} [plain_char] (m1 m2 : List (Char × β))
    (h1 : (keys m1).Pairwise (fun a b => char_value a < char_value b))
        (h2 : (keys m2).Pairwise (fun a b => char_value a < char_value b))
    (h : ∀ c, find m1 c = find m2 c) : m1 = m2 := by
  induction m1 generalizing m2 with
  | nil =>
    cases m2 with
    | nil => rfl
    | cons p m2 =>
      obtain ⟨k, x⟩ := p
      have := h k
      simp [find] at this
  | cons p m1 ih =>
    obtain ⟨k, x⟩ := p
    have h1' : (k :: keys m1).Pairwise (fun a b => char_value a < char_value b) := h1
    rw [List.pairwise_cons] at h1'
    cases m2 with
    | nil =>
      have := h k
      simp [find] at this
    | cons p' m2 =>
      obtain ⟨k', x'⟩ := p'
      have h2' : (k' :: keys m2).Pairwise (fun a b => char_value a < char_value b) := h2
      rw [List.pairwise_cons] at h2'
      have hk1 : find m1 k = none :=
        find_eq_none m1 k (fun hm => lt_irrefl _ (h1'.1 k hm))
      have hk2 : find m2 k' = none :=
        find_eq_none m2 k' (fun hm => lt_irrefl _ (h2'.1 k' hm))
      have hkk : k = k' := by
        rcases lt_trichotomy (char_value k) (char_value k') with hlt | heq | hgt
        · have := h k
          have hn : find m2 k = none :=
            find_eq_none m2 k (fun hm => lt_asymm hlt (h2'.1 k hm))
          simp [find, ne_of_char_lt hlt, hn] at this
        · exact char_value_inj _ _ heq
        · have := h k'
          have hn : find m1 k' = none :=
            find_eq_none m1 k' (fun hm => lt_asymm hgt (h1'.1 k' hm))
          simp [find, ne_of_char_lt hgt, hn] at this
      subst hkk
      have hx : x = x' := by
        have := h k
        simpa [find] using this
      subst hx
      have ht : m1 = m2 := by
        refine ih m2 h1'.2 h2'.2 ?_
        intro c
        by_cases hc : c = k
        · subst hc
          rw [hk1, hk2]
        · have := h c
          simpa [find, hc] using this
      rw [ht]

namespace impl3
variable {T : Type}

/-! ## impl3: the shape of a trie is determined by what it stores -/

/-- Two children maps of well-formed compressed nodes that answer every lookup
alike are equal, if this holds for the nodes of the first map. -/
theorem children_ext [plain_char] (ch ch' : List (Char × Node T))
    (hs : (keys ch).Pairwise (fun a b => char_value a < char_value b))
        (hs' : (keys ch').Pairwise (fun a b => char_value a < char_value b))
    (hw : ∀ p ∈ ch, WF p.2) (hw' : ∀ p ∈ ch', WF p.2)
    (hc : ∀ p ∈ ch, Compressed p.2) (hc' : ∀ p ∈ ch', Compressed p.2)
    (ih : ∀ p ∈ ch, WF p.2 → ∀ n2, WF n2 → Compressed n2 →
      (∀ q, get p.2 q = get n2 q) → p.2 = n2)
    (hg : ∀ c q, (find ch c).bind (fun n => get n q) = (find ch' c).bind (fun n => get n q)) :
    ch = ch' := by
  refine ext_of_find ch ch' hs hs' ?_
  intro c
  cases hf : find ch c with
  | none =>
    cases hf' : find ch' c with
    | none => rfl
    | some x' =>
      have hm := find_some_mem _ _ _ hf'
      obtain ⟨k, hk⟩ := exists_key x' (hw' _ hm) (hc' _ hm)
      have := hg c k
      rw [hf, hf'] at this
      simp only [Option.none_bind, Option.some_bind] at this
      rw [← this] at hk
      simp at hk
  | some x =>
    have hm := find_some_mem _ _ _ hf
    cases hf' : find ch' c with
    | none =>
      obtain ⟨k, hk⟩ := exists_key x (hw _ hm) (hc _ hm)
      have := hg c k
      rw [hf, hf'] at this
      simp only [Option.none_bind, Option.some_bind] at this
      rw [this] at hk
      simp at hk
    | some x' =>
      have hm' := find_some_mem _ _ _ hf'
      have := ih _ hm (hw _ hm) x' (hw' _ hm') (hc' _ hm') (by
        intro q
        have := hg c q
        rw [hf, hf'] at this
        simpa using this)
      simp only at this
      rw [this]

/-- A well-formed compressed node is determined by the keys and values it
stores. -/
theorem canonical_ext [plain_char] (n1 : Node T) (hc1 : Compressed n1) :
    WF n1 → ∀ n2, WF n2 → Compressed n2 → (∀ q, get n1 q = get n2 q) → n1 = n2 := by
  induction hc1 with
  | leaf d v =>
    intro _ n2 hw2 hc2 hg
    cases n2 with
    | leaf d' v' =>
      have := hg d
      simp only [get_leaf, if_true] at this
      by_cases hd : d' = d
      · subst hd
        simp only [if_true, Option.some.injEq] at this
        rw [this]
      · simp [hd] at this
    | branch ch' =>
      obtain ⟨k1, k2, hne, h1, h2⟩ := two_keys_of_branch ch' hw2 hc2
      rw [← hg k1, get_leaf] at h1
      rw [← hg k2, get_leaf] at h2
      by_cases e1 : d = k1
      · by_cases e2 : d = k2
        · exact absurd (e1.symm.trans e2) hne
        · simp [e2] at h2
      · simp [e1] at h1
    | vbranch ch' v' =>
      obtain ⟨c, k, hk⟩ := key_below_vbranch ch' v' hw2 hc2
      rw [← hg (c :: k), get_leaf] at hk
      have h0 := hg []
      rw [get_leaf, get_vbranch_nil] at h0
      by_cases e1 : d = c :: k
      · subst e1
        simp at h0
      · simp [e1] at hk
  | branch ch h1 h2 ih =>
    intro hw1 n2 hw2 hc2 hg
    have hc1 : Compressed (.branch ch) := Compressed.branch ch h1 h2
    cases n2 with
    | leaf d' v' =>
      obtain ⟨k1, k2, hne, e1, e2⟩ := two_keys_of_branch ch hw1 hc1
      rw [hg k1, get_leaf] at e1
      rw [hg k2, get_leaf] at e2
      by_cases d1 : d' = k1
      · by_cases d2 : d' = k2
        · exact absurd (d1.symm.trans d2) hne
        · simp [d2] at e2
      · simp [d1] at e1
    | branch ch' =>
      cases hw1 with
      | branch _ w1 w2 =>
        cases hw2 with
        | branch _ w1' w2' =>
          cases hc2 with
          | branch _ c1' c2' =>
            have := children_ext ch ch' w1 w1' w2 w2' h2 c2' ih (by
              intro c q
              have := hg (c :: q)
              simpa using this)
            rw [this]
    | vbranch ch' v' =>
      have := hg []
      simp at this
  | vbranch ch v h1 h2 ih =>
    intro hw1 n2 hw2 hc2 hg
    have hc1 : Compressed (.vbranch ch v) := Compressed.vbranch ch v h1 h2
    cases n2 with
    | leaf d' v' =>
      obtain ⟨c, k, hk⟩ := key_below_vbranch ch v hw1 hc1
      rw [hg (c :: k), get_leaf] at hk
      have h0 := hg []
      rw [get_leaf, get_vbranch_nil] at h0
      by_cases e1 : d' = c :: k
      · subst e1
        simp at h0
      · simp [e1] at hk
    | branch ch' =>
      have := hg []
      simp at this
    | vbranch ch' v' =>
      have hv : v = v' := by
        have := hg []
        simpa using this
      subst hv
      cases hw1 with
      | vbranch _ _ w1 w2 =>
        cases hw2 with
        | vbranch _ _ w1' w2' =>
          cases hc2 with
          | vbranch _ _ c1' c2' =>
            have := children_ext ch ch' w1 w1' w2 w2' h2 c2' ih (by
              intro c q
              have := hg (c :: q)
              simpa using this)
            rw [this]

/-- Two tries whose nodes are well-formed and compressed and which store the
same keys with the same values are equal. -/
theorem trie_ext [plain_char] (t1 t2 : trie T) (hw1 : WF (.branch t1.root_))
    (hw2 : WF (.branch t2.root_))
    (hc1 : ∀ p ∈ t1.root_, Compressed p.2) (hc2 : ∀ p ∈ t2.root_, Compressed p.2)
    (hg : ∀ q, get (.branch t1.root_) q = get (.branch t2.root_) q) : t1 = t2 := by
  cases hw1 with
  | branch _ w1 w2 =>
    cases hw2 with
    | branch _ w1' w2' =>
      have := children_ext t1.root_ t2.root_ w1 w1' w2 w2' hc1 hc2
        (fun p hp _ => canonical_ext p.2 (hc1 p hp) (w2 p hp)) (by
          intro c q
          have := hg (c :: q)
          simpa using this)
      cases t1
      cases t2
      simp only at this
      rw [this]

/-- An insert stores the value under a new key and changes nothing under a key
that is present, if the value stored under that key is not changed by being
moved from. -/
theorem get_insert_fixed [plain_char] (moved : T → T) (t : trie T) (k : List Char) (v : T)
    (hk : k ≠ [])
    (hm : ∀ w, get (.branch t.root_) k = some w → moved w = w) (q : List Char) :
    get (.branch (t.insert moved k v).root_) q =
      if q = k then some ((get (.branch t.root_) k).getD v) else get (.branch t.root_) q := by
  by_cases hq : q = k
  · subst hq
    obtain ⟨u, hu, h1, h2⟩ := get_insert_self moved t q v hk
    rw [hu, if_pos rfl]
    cases hg : get (.branch t.root_) q with
    | none => simp [h1 hg]
    | some w =>
      rcases h2 w hg with h | h
      · simp [h]
      · simp [h, hm w hg]
  · rw [if_neg hq]
    exact get_insert_ne moved t k v q hq

/-- The inserts of two distinct keys into a trie whose nodes are well-formed
and compressed can be swapped, if the values already stored under the two keys
are not changed by being moved from: both orders give the same tree, values
included. -/
theorem insert_comm_any [plain_char] (moved : T → T) (t : trie T) (hw : WF (.branch t.root_))
    (hc : ∀ p ∈ t.root_, Compressed p.2) (k1 k2 : List Char) (v1 v2 : T) (hne : k1 ≠ k2)
    (hm1 : ∀ w, get (.branch t.root_) k1 = some w → moved w = w)
    (hm2 : ∀ w, get (.branch t.root_) k2 = some w → moved w = w) :
    (t.insert moved k1 v1).insert moved k2 v2 = (t.insert moved k2 v2).insert moved k1 v1 := by
  by_cases e1 : k1 = []
  · subst e1
    rfl
  by_cases e2 : k2 = []
  · subst e2
    rfl
  refine trie_ext _ _ (wf_insert _ _ _ _ (wf_insert _ _ _ _ hw))
    (wf_insert _ _ _ _ (wf_insert _ _ _ _ hw))
    (compressed_insert _ _ _ _ (compressed_insert _ _ _ _ hc))
    (compressed_insert _ _ _ _ (compressed_insert _ _ _ _ hc)) ?_
  intro q
  have h21 : ∀ w, get (.branch (t.insert moved k1 v1).root_) k2 = some w → moved w = w := by
    intro w hg
    rw [get_insert_ne moved t k1 v1 k2 (Ne.symm hne)] at hg
    exact hm2 w hg
  have h12 : ∀ w, get (.branch (t.insert moved k2 v2).root_) k1 = some w → moved w = w := by
    intro w hg
    rw [get_insert_ne moved t k2 v2 k1 hne] at hg
    exact hm1 w hg
  rw [get_insert_fixed moved _ k2 v2 e2 h21, get_insert_fixed moved _ k1 v1 e1 h12]
  simp only [get_insert_fixed moved t k1 v1 e1 hm1, get_insert_fixed moved t k2 v2 e2 hm2]
  by_cases q1 : q = k1
  · subst q1
    simp [hne, Ne.symm hne]
  · by_cases q2 : q = k2
    · subst q2
      simp [hne, Ne.symm hne]
    · simp [q1, q2]

/-- With a value type whose move is a copy, the inserts of two distinct keys
into a trie built by inserts give the same tree in both orders. -/
theorem insert_comm_copy [plain_char] (ops : List (List Char × T)) (k1 k2 : List Char) (v1 v2 : T)
    (hne : k1 ≠ k2) :
    ((build id ops).insert id k1 v1).insert id k2 v2 =
      ((build id ops).insert id k2 v2).insert id k1 v1 :=
  insert_comm_any id _ (wf_build id ops) (compressed_build id ops) k1 k2 v1 v2 hne
    (fun _ _ => rfl) (fun _ _ => rfl)

/-- Whatever the move of the value type does, the inserts of two distinct keys
that a trie built by inserts does not hold yet give the same tree in both
orders. -/
theorem insert_comm_fresh [plain_char] (moved : T → T) (ops : List (List Char × T))
    (k1 k2 : List Char)
    (v1 v2 : T) (hne : k1 ≠ k2) (h1 : k1 ∉ ops.map Prod.fst) (h2 : k2 ∉ ops.map Prod.fst) :
    ((build moved ops).insert moved k1 v1).insert moved k2 v2 =
      ((build moved ops).insert moved k2 v2).insert moved k1 v1 := by
  have hn : ∀ k, k ∉ ops.map Prod.fst → get (.branch (build moved ops).root_) k = none := by
    intro k hk
    have := (exists_build_iff moved ops k).not.2 (fun h => hk h.2)
    rw [exists_eq] at this
    simpa using this
  refine insert_comm_any moved _ (wf_build moved ops) (compressed_build moved ops) k1 k2 v1 v2
    hne ?_ ?_
  · intro w hg
    rw [hn k1 h1] at hg
    cases hg
  · intro w hg
    rw [hn k2 h2] at hg
    cases hg

/-- C34: the order of two inserts of distinct keys shows in the tree when the
value type has a destructive move. In the trie that holds "a" with the value
"x", the insert of "a" (present, in a leaf) moves the value out of the leaf, so
that the later insert of "ab" builds the value-branch of "a" with the
moved-from value; in the other order the value-branch is built with "x" and the
insert of "a" leaves it alone. -/
theorem insert_order_shows_with_destructive_move :
    (((build moved_string [(['a'], ['x'])]).insert moved_string ['a'] ['y']).insert
      moved_string ['a', 'b'] ['z']).root_ = [('a', .vbranch [('b', .leaf [] ['z'])] [])] ∧
    (((build moved_string [(['a'], ['x'])]).insert moved_string ['a', 'b'] ['z']).insert
      moved_string ['a'] ['y']).root_ = [('a', .vbranch [('b', .leaf [] ['z'])] ['x'])] ∧
    (((build moved_string [(['a'], ['x'])]).insert moved_string ['a'] ['y']).insert
      moved_string ['a', 'b'] ['z']).value_at ['a'] ['?'] = (true, []) ∧
    (((build moved_string [(['a'], ['x'])]).insert moved_string ['a', 'b'] ['z']).insert
      moved_string ['a'] ['y']).value_at ['a'] ['?'] = (true, ['x']) ∧
    (((build moved_string [(['a'], ['x'])]).insert moved_string ['a'] ['y']).insert
      moved_string ['a', 'b'] ['z']) ≠
    (((build moved_string [(['a'], ['x'])]).insert moved_string ['a', 'b'] ['z']).insert
      moved_string ['a'] ['y']) := by
  refine ⟨rfl, rfl, by decide, by decide, ?_⟩
  intro h
  have := congrArg (fun t => (trie.value_at t ['a'] ['?']).2) h
  revert this
  decide

/-! ## The number of nodes -/

mutual
theorem size_eq_length_paths : ∀ n : Node T, size n = (paths n).length
  | .leaf _ _ => by simp [size, paths]
  | .branch ch => by
    simp only [size, paths, List.length_cons]
    rw [size_children_eq_length ch]
    omega
  | .vbranch ch _ => by
    simp only [size, paths, List.length_cons]
    rw [size_children_eq_length ch]
    omega
theorem size_children_eq_length : ∀ m : List (Char × Node T),
    size_children m = (paths_children m).length
  | [] => by simp [size_children, paths_children]
  | (c, n) :: m => by
    simp only [size_children, paths_children, List.length_append, List.length_map]
    rw [size_eq_length_paths n, size_children_eq_length m]
end

mutual
theorem size_erase : ∀ n : Node T, impl2.size (erase n) = size n
  | .leaf _ _ => by simp [erase, impl2.size, size]
  | .branch ch => by
    simp only [erase, impl2.size, size]
    rw [size_children_erase ch]
  | .vbranch ch _ => by
    simp only [erase, impl2.size, size]
    rw [size_children_erase ch]
theorem size_children_erase : ∀ m : List (Char × Node T),
    impl2.size_children (erase_children m) = size_children m
  | [] => by simp [erase_children, impl2.size_children, size_children]
  | (c, n) :: m => by
    simp only [erase_children, impl2.size_children, size_children]
    rw [size_erase n, size_children_erase m]
end

theorem nil_mem_paths (n : Node T) : [] ∈ paths n := by
  cases n <;> simp [paths]

theorem mem_paths_children (ch : List (Char × Node T)) (p : List Char) :
    p ∈ paths_children ch ↔ ∃ q ∈ ch, ∃ p' ∈ paths q.2, p = q.1 :: p' := by
  induction ch with
  | nil => simp [paths_children]
  | cons q m ih =>
    obtain ⟨c, n⟩ := q
    simp only [paths_children, List.mem_append, List.mem_map, ih, List.mem_cons]
    constructor
    · rintro (⟨p', hp', rfl⟩ | ⟨q, hq, p', hp', rfl⟩)
      · exact ⟨(c, n), Or.inl rfl, p', hp', rfl⟩
      · exact ⟨q, Or.inr hq, p', hp', rfl⟩
    · rintro ⟨q, rfl | hq, p', hp', rfl⟩
      · exact Or.inl ⟨p', hp', rfl⟩
      · exact Or.inr ⟨q, hq, p', hp', rfl⟩

theorem nil_not_mem_paths_children (ch : List (Char × Node T)) : [] ∉ paths_children ch := by
  intro h
  obtain ⟨q, -, p', -, he⟩ := (mem_paths_children ch []).1 h
  cases he

theorem nodup_paths_children [plain_char] (ch : List (Char × Node T))
    (hs : (keys ch).Pairwise (fun a b => char_value a < char_value b))
        (hn : ∀ p ∈ ch, (paths p.2).Nodup) :
    (paths_children ch).Nodup := by
  induction ch with
  | nil => simp [paths_children]
  | cons p m ih =>
    obtain ⟨c, n⟩ := p
    have hs' : (c :: keys m).Pairwise (fun a b => char_value a < char_value b) := hs
    rw [List.pairwise_cons] at hs'
    simp only [paths_children]
    rw [List.nodup_append]
    refine ⟨?_, ih hs'.2 (fun p hp => hn p (List.mem_cons_of_mem _ hp)), ?_⟩
    · exact (hn (c, n) (List.mem_cons_self _ _)).map (fun a b hab => by simpa using hab)
    · intro w hw1 hw2
      obtain ⟨w', -, rfl⟩ := List.mem_map.1 hw1
      obtain ⟨p, hp, w'', -, he⟩ := (mem_paths_children m _).1 hw2
      simp only [List.cons.injEq] at he
      have : char_value c < char_value p.1 := hs'.1 p.1 (List.mem_map.2 ⟨p, hp, rfl⟩)
      exact absurd he.1 (ne_of_char_lt this)

/-- In a well-formed tree no two nodes have the same path. -/
theorem nodup_paths [plain_char] (n : Node T) (h : WF n) : (paths n).Nodup := by
  induction h with
  | leaf d v => simp [paths]
  | branch ch h1 h2 ih =>
    rw [paths, List.nodup_cons]
    exact ⟨nil_not_mem_paths_children ch, nodup_paths_children ch h1 ih⟩
  | vbranch ch u h1 h2 ih =>
    rw [paths, List.nodup_cons]
    exact ⟨nil_not_mem_paths_children ch, nodup_paths_children ch h1 ih⟩

/-- Where no plain branch is without children, the path to every node is the
beginning of a stored key. -/
theorem path_prefix_of_word (n : Node T) (h : NoEmptyBranch n) :
    ∀ p ∈ paths n, ∃ w ∈ words n, p <+: w := by
  induction h with
  | leaf d v =>
    intro p hp
    simp only [paths, List.mem_singleton] at hp
    subst hp
    exact ⟨d, by simp [words], List.nil_prefix⟩
  | branch ch h1 h2 ih =>
    intro p hp
    simp only [paths, List.mem_cons] at hp
    rcases hp with rfl | hp
    · cases ch with
      | nil => exact absurd rfl h1
      | cons q m =>
        obtain ⟨w, hw, -⟩ := ih q (List.mem_cons_self _ _) [] (nil_mem_paths _)
        exact ⟨q.1 :: w, (mem_words_children _ _).2 ⟨q, List.mem_cons_self _ _, w, hw, rfl⟩,
          List.nil_prefix⟩
    · obtain ⟨q, hq, p', hp', rfl⟩ := (mem_paths_children ch p).1 hp
      obtain ⟨w, hw, hpw⟩ := ih q hq p' hp'
      exact ⟨q.1 :: w, (mem_words_children _ _).2 ⟨q, hq, w, hw, rfl⟩,
        (List.prefix_cons_inj _).2 hpw⟩
  | vbranch ch u h2 ih =>
    intro p hp
    simp only [paths, List.mem_cons] at hp
    rcases hp with rfl | hp
    · exact ⟨[], by simp [words], List.nil_prefix⟩
    · obtain ⟨q, hq, p', hp', rfl⟩ := (mem_paths_children ch p).1 hp
      obtain ⟨w, hw, hpw⟩ := ih q hq p' hp'
      exact ⟨q.1 :: w, List.mem_cons_of_mem _
        ((mem_words_children _ _).2 ⟨q, hq, w, hw, rfl⟩), (List.prefix_cons_inj _).2 hpw⟩

/-- In a trie built by inserts the path to every node below the root is the
beginning of an inserted key. -/
theorem path_prefix_of_key [plain_char] (moved : T → T) (ops : List (List Char × T)) (p : List Char)
    (hp : p ∈ paths (.branch (build moved ops).root_)) (hne : p ≠ []) :
    ∃ k ∈ ops.map Prod.fst, p <+: k := by
  simp only [paths, List.mem_cons] at hp
  rcases hp with rfl | hp
  · exact absurd rfl hne
  · obtain ⟨q, hq, p', hp', rfl⟩ := (mem_paths_children _ p).1 hp
    obtain ⟨w, hw, hpw⟩ := path_prefix_of_word q.2 (neb_build moved ops q hq) p' hp'
    have hmem : q.1 :: w ∈ words (.branch (build moved ops).root_) := by
      rw [words]
      exact (mem_words_children _ _).2 ⟨q, hq, w, hw, rfl⟩
    have hex : (build moved ops).exists (q.1 :: w) = true := by
      rw [exists_eq]
      exact (mem_words_iff _ (wf_build moved ops) _).1 hmem
    exact ⟨q.1 :: w, ((exists_build_iff moved ops _).1 hex).2, (List.prefix_cons_inj _).2 hpw⟩

end impl3

namespace impl1

mutual
theorem size_eq_length_paths1 : ∀ n : trie_node_t_, size n = (paths n).length
  | .mk ch _ => by
    simp only [size, paths, List.length_cons]
    rw [size_children_eq_length1 ch]
    omega
theorem size_children_eq_length1 : ∀ m : List (Char × trie_node_t_),
    size_children m = (paths_children m).length
  | [] => by simp [size_children, paths_children]
  | (c, n) :: m => by
    simp only [size_children, paths_children, List.length_append, List.length_map]
    rw [size_eq_length_paths1 n, size_children_eq_length1 m]
end

theorem mem_paths_children1 (ch : List (Char × trie_node_t_)) (p : List Char) :
    p ∈ paths_children ch ↔ ∃ q ∈ ch, ∃ p' ∈ paths q.2, p = q.1 :: p' := by
  induction ch with
  | nil => simp [paths_children]
  | cons q m ih =>
    obtain ⟨c, n⟩ := q
    simp only [paths_children, List.mem_append, List.mem_map, ih, List.mem_cons]
    constructor
    · rintro (⟨p', hp', rfl⟩ | ⟨q, hq, p', hp', rfl⟩)
      · exact ⟨(c, n), Or.inl rfl, p', hp', rfl⟩
      · exact ⟨q, Or.inr hq, p', hp', rfl⟩
    · rintro ⟨q, rfl | hq, p', hp', rfl⟩
      · exact Or.inl ⟨p', hp', rfl⟩
      · exact Or.inr ⟨q, hq, p', hp', rfl⟩

/-- Every node the first loop of `prefix_match` can reach is a node of the
tree. -/
theorem mem_paths_of_walk (p : List Char) (n n' : trie_node_t_) (h : walk p n = some n') :
    p ∈ paths n := by
  induction p generalizing n with
  | nil =>
    cases n with
    | mk ch w => simp [paths]
  | cons c p ih =>
    simp only [walk] at h
    cases hf : find n.children c with
    | none => simp [hf] at h
    | some x =>
      simp only [hf] at h
      cases n with
      | mk ch w =>
        simp only [trie_node_t_.children] at hf
        simp only [paths, List.mem_cons]
        exact Or.inr ((mem_paths_children1 ch _).2
          ⟨(c, x), find_some_mem _ _ _ hf, p, ih x h, rfl⟩)

/-- The tree has a node for every beginning of every stored word. -/
theorem mem_paths_of_prefix (p k : List Char) (n : trie_node_t_) (hk : exists_from k n = true)
    (hp : p <+: k) : p ∈ paths n := by
  obtain ⟨tail, rfl⟩ := hp
  rw [exists_from_append] at hk
  cases hw : walk p n with
  | none => simp [hw] at hk
  | some n' => exact mem_paths_of_walk p n n' hw

end impl1

namespace impl2

/-! ## impl2: the depth of the stored keys -/

mutual
theorem print_visitor_eq2 : ∀ (n : Node) (wp : List Char) (res : List (List Char)),
    print_visitor n (wp, res) = (wp, res ++ (key_depths n).map (fun e => wp ++ e.1))
  | .leaf data, wp, res => by simp [print_visitor, key_depths]
  | .branch ch true, wp, res => by
    simp only [print_visitor, key_depths, if_true]
    rw [print_children_eq2 ch wp (res ++ [wp])]
    simp
  | .branch ch false, wp, res => by
    simp only [print_visitor, key_depths, Bool.false_eq_true, if_false]
    rw [print_children_eq2 ch wp res]
    simp
theorem print_children_eq2 : ∀ (m : List (Char × Node)) (wp : List Char)
    (res : List (List Char)),
    print_children m (wp, res) =
      (wp, res ++ (key_depths_children m).map (fun e => wp ++ e.1))
  | [], wp, res => by simp [print_children, key_depths_children]
  | (c, child) :: m, wp, res => by
    simp only [print_children, key_depths_children]
    rw [print_visitor_eq2 child (wp ++ [c]) res]
    simp only [List.dropLast_concat]
    rw [print_children_eq2 m wp _]
    simp [List.map_append, Function.comp_def]
end

/-- The keys listed with their depths are the keys of `get_words`, in its
order. -/
theorem get_words_eq_key_depths (t : trie) : t.get_words = t.key_depths.map Prod.fst := by
  simp [trie.get_words, trie.key_depths, print_visitor_eq2]

mutual
theorem key_depth_le : ∀ (n : Node) (e : List Char × Nat), e ∈ key_depths n → e.2 ≤ e.1.length
  | .leaf data, e, h => by
    simp only [key_depths, List.mem_singleton] at h
    subst h
    simp
  | .branch ch w, e, h => by
    simp only [key_depths, List.mem_append] at h
    rcases h with h | h
    · cases w with
      | true =>
        simp only [if_true, List.mem_singleton] at h
        subst h
        simp
      | false => simp at h
    · exact key_depth_children_le ch e h
theorem key_depth_children_le : ∀ (m : List (Char × Node)) (e : List Char × Nat),
    e ∈ key_depths_children m → e.2 ≤ e.1.length
  | [], e, h => by simp [key_depths_children] at h
  | (c, n) :: m, e, h => by
    simp only [key_depths_children, List.mem_append, List.mem_map] at h
    rcases h with ⟨e', he', rfl⟩ | h
    · have := key_depth_le n e' he'
      simp only [List.length_cons]
      omega
    · exact key_depth_children_le m e h
end

end impl2

/-- C37: for every list of keys inserted into an impl2 and an impl1 trie, the
impl2 trie has at most as many nodes (the root included) as the impl1 trie, and
every stored key of length `n` is stored in a node at most `n` child hops below
the root. -/
theorem compression_never_costs_nodes [plain_char] (ws : List (List Char)) :
    (impl2.build ws).size ≤ (impl1.build ws).size ∧
    (impl2.build ws).get_words = (impl2.build ws).key_depths.map Prod.fst ∧
    ∀ e ∈ (impl2.build ws).key_depths, e.2 ≤ e.1.length := by
  refine ⟨?_, impl2.get_words_eq_key_depths _, fun e he => impl2.key_depth_le _ e he⟩
  have h2 : (impl2.build ws).size =
      (impl3.paths (.branch (impl3.build id (ws.map (fun k => (k, ())))).root_)).length := by
    rw [impl2.build_eq_erase, ← impl3.size_eq_length_paths, ← impl3.size_erase]
    rfl
  have h1 : (impl1.build ws).size = (impl1.paths (impl1.build ws).root_).length :=
    impl1.size_eq_length_paths1 _
  rw [h2, h1]
  refine (List.Nodup.subperm (impl3.nodup_paths _ (impl3.wf_build id _)) ?_).length_le
  intro p hp
  by_cases hne : p = []
  · subst hne
    cases hr : (impl1.build ws).root_ with
    | mk ch w => simp [impl1.paths]
  · obtain ⟨k, hk, hpk⟩ := impl3.path_prefix_of_key id _ p hp hne
    rw [impl2.keys_of_unit_ops] at hk
    exact impl1.mem_paths_of_prefix p k _ ((impl1.exists_build_iff1 ws k).2 hk) hpk

/-- Assigning to a key the node it holds leaves the map as it is. -/
theorem set_of_find {β : Type} [plain_char] (m : List (Char × β)) (c : Char) (y : β)
    (hs : (keys m).Pairwise (fun a b => char_value a < char_value b))
    (hf : find m c = some y) : set m c y = m := by
  refine ext_of_find _ _ (sorted_set m c y hs) hs ?_
  intro d
  rw [find_set]
  split
  · rename_i hd
    rw [hd, hf]
  · rfl

namespace impl3
variable {T : Type}

/-! ## impl3: the insert of a key that sits in a leaf -/

/-- With a value type whose move is a copy, the insert of the key of a leaf
leaves the child map of the parent as it was. -/
theorem insert_leaf_key_keeps_map_copy [plain_char] (ch : List (Char × Node T)) (c : Char)
    (r : List Char) (u v : T)
    (hs : (keys ch).Pairwise (fun a b => char_value a < char_value b))
    (hf : find ch c = some (.leaf r u)) :
    set ch c (insert_visitor id r (.leaf r u) v) = ch := by
  rw [insert_visitor_leaf_self]
  exact set_of_find ch c _ hs hf

/-- C27: where `breakup_leaf` returns the null result, the insert does not
leave the child map of the parent as it was when the value type has a
destructive move. In the trie that holds "cat" with the value "x" the root map
holds the leaf "at" with "x" under 'c'; the insert of "cat" with "y" reaches
that leaf with the input "at", `breakup_leaf` returns the null result, and
afterwards the root map holds the leaf "at" with the moved-from value. -/
theorem null_breakup_changes_child_map :
    breakup_leaf "at".toList ['x'] "at".toList ['y'] = none ∧
    (build moved_string [("cat".toList, ['x'])]).root_ = [('c', .leaf "at".toList ['x'])] ∧
    ((build moved_string [("cat".toList, ['x'])]).insert moved_string "cat".toList ['y']).root_ =
      [('c', .leaf "at".toList [])] ∧
    ((build moved_string [("cat".toList, ['x'])]).insert moved_string "cat".toList ['y']).root_ ≠
      (build moved_string [("cat".toList, ['x'])]).root_ := by
  refine ⟨rfl, rfl, rfl, ?_⟩
  intro h
  have := congrArg (fun r => get (.branch r) "cat".toList) h
  revert this
  decide

end impl3

end trie

